import Mathlib

/-!
# Verification of the brileta/catley native kernels

Shallow embedding of the three C kernels of this repository:

* `_native_wfc.c` — Wave Function Collapse solver (`namespace Wfc`),
* `_native_fov.c` — symmetric shadowcasting field of view (`namespace Fov`),
* `_native_pathfinding.c` — weighted A* pathfinding (`namespace Astar`).

Conventions used throughout:

* Machine bytes / words are `Nat` with explicit `% 2^w` where the C relies on
  wrap-around; buffers are `List Nat` (byte buffers) indexed by `List.getD`.
* The C solver's entropy heap and PRNG only decide *which* uncertain cell is
  collapsed next and *which* set bit it collapses to.  Those two decisions flow
  through `double` arithmetic (`calculate_entropy`, `weighted_choice`), which a
  shallow embedding cannot reproduce bit for bit, so they are abstracted as an
  `Oracle` argument; `Oracle.Valid` records exactly the guarantees the C code
  provides for them (a selected cell is in range and uncertain, the chosen bit
  is a set bit of the cell's mask).  Everything the oracle does not decide —
  validation, the collapse loop, constraint propagation, the iteration caps,
  the result conversion — is translated statement by statement from the C.
* The C loops bound themselves by explicit iteration counters
  (`2 * size` for the collapse loop, `10 * size` for propagation); the
  embeddings recurse structurally on the remaining allowance of exactly those
  counters, so no artificial fuel is introduced.
-/

namespace Wfc

/-- `POPCOUNT_TABLE` / `popcount_u8`: number of set bits of a byte.
The table is built for the 8 bits of a `uint8_t`. -/
def popcount (m : Nat) : Nat :=
  (List.range 8).countP (fun b => m.testBit b)

/-- `a` is a sub-bitmask of `b`: every set bit of `a` is set in `b`. -/
def Submask (a b : Nat) : Prop := a &&& b = a

instance (a b : Nat) : Decidable (Submask a b) := by
  unfold Submask; infer_instance

/-- Pointwise bitmask order on waves: every cell of `w'` is a sub-mask of the
corresponding cell of `w`. -/
def WaveLe (w' w : List Nat) : Prop :=
  w'.length = w.length ∧ ∀ i, Submask (w'.getD i 0) (w.getD i 0)

/- ------------------------------------------------------------------ -/
/- xoshiro128++ PRNG with SplitMix64 seeding                           -/
/- ------------------------------------------------------------------ -/

/-- `splitmix64_next`: returns the updated 64-bit state and the output word. -/
def splitmix64_next (state : Nat) : Nat × Nat :=
  let s := (state + 0x9E3779B97F4A7C15) % 2 ^ 64
  let z := ((s ^^^ (s >>> 30)) * 0xBF58476D1CE4E5B9) % 2 ^ 64
  let z := ((z ^^^ (z >>> 27)) * 0x94D049BB133111EB) % 2 ^ 64
  (s, z ^^^ (z >>> 31))

/-- `WfcRng`: the four 32-bit xoshiro128++ state words. -/
structure WfcRng where
  s0 : Nat
  s1 : Nat
  s2 : Nat
  s3 : Nat
deriving DecidableEq

/-- `rng_init`: expand the 64-bit seed with SplitMix64, with the documented
all-zero fallback state. -/
def rng_init (seed : Nat) : WfcRng :=
  let (sm, a) := splitmix64_next (seed % 2 ^ 64)
  let (_, b) := splitmix64_next sm
  let r : WfcRng :=
    { s0 := a % 2 ^ 32, s1 := a >>> 32, s2 := b % 2 ^ 32, s3 := b >>> 32 }
  if r.s0 = 0 ∧ r.s1 = 0 ∧ r.s2 = 0 ∧ r.s3 = 0 then
    { s0 := 0x9E3779B9, s1 := 0x243F6A88, s2 := 0xB7E15162, s3 := 0x8AED2A6B }
  else r

/-- `rotl32`. -/
def rotl32 (x k : Nat) : Nat :=
  ((x <<< k) ||| (x >>> (32 - k))) % 2 ^ 32

/-- `rng_next_u32`: one step of the xoshiro128++ output scrambler. -/
def rng_next_u32 (r : WfcRng) : Nat × WfcRng :=
  let result := (rotl32 ((r.s0 + r.s3) % 2 ^ 32) 7 + r.s0) % 2 ^ 32
  let t := (r.s1 <<< 9) % 2 ^ 32
  let s2 := r.s2 ^^^ r.s0
  let s3 := r.s3 ^^^ r.s1
  let s1 := r.s1 ^^^ s2
  let s0 := r.s0 ^^^ s3
  let s2' := s2 ^^^ t
  let s3' := rotl32 s3 11
  (result, { s0 := s0, s1 := s1, s2 := s2', s3 := s3' })

/-- `rng_next_double` produces `mantissa * 2⁻⁵³` exactly; the embedding
returns the 53-bit mantissa (the double value is `mantissa / 2^53`). -/
def rng_next_double_mantissa (r : WfcRng) : Nat × WfcRng :=
  let (u1, r1) := rng_next_u32 r
  let (u2, r2) := rng_next_u32 r1
  (((u1 >>> 5) <<< 26) ||| (u2 >>> 6), r2)

/- ------------------------------------------------------------------ -/
/- Solver state and parameters                                         -/
/- ------------------------------------------------------------------ -/

/-- Errors surfaced by `catley_native_wfc_solve`.  Shape/dtype errors are
ruled out by typing of the embedding and `OutOfMemory` is not modelled. -/
inductive WfcError
  | badValue
  | contradiction
  | systemError
deriving DecidableEq

/-- The inputs of `wfc_solve` (except the initial wave buffer).
`propagation_masks dir m` is the byte `propagation_masks[dir][m]`;
`pattern_weights` and `seed` feed only the entropy heap and the PRNG, i.e.
the abstracted oracle. -/
structure WfcParams where
  width : Nat
  height : Nat
  num_patterns : Nat
  propagation_masks : Nat → Nat → Nat
  pattern_weights : List ℚ
  seed : Nat

/-- The abstracted entropy/randomness decisions (see the header comment):
`pickCell w` is the cell index `find_min_entropy_cell` selects on wave `w`
(`none` when its heap is exhausted), and `pickBit w i` is the bit
`weighted_choice` returns for cell `i` of wave `w`.  The wave strictly
shrinks at every query, so any concrete run of the C solver is represented
by some oracle. -/
structure Oracle where
  pickCell : List Nat → Option Nat
  pickBit : List Nat → Nat → Nat

/-- The guarantees the C code provides for the abstracted decisions:
`find_min_entropy_cell` only returns an in-range cell whose mask has at
least two set bits, and `weighted_choice` only returns a set bit of the
mask it is given. -/
def Oracle.Valid (o : Oracle) : Prop :=
  ∀ w i, o.pickCell w = some i →
    i < w.length ∧ 1 < popcount (w.getD i 0) ∧
      (w.getD i 0).testBit (o.pickBit w i) = true

/-- Solver state: the private working wave (`wave_copy` in the C) and the
caller's `initial_wave` buffer, which no solver step writes. -/
structure SolverSt where
  caller : List Nat
  wave : List Nat
  uncollapsed : Int
deriving DecidableEq

/-- `DIR_DX` (north, east, south, west). -/
def DIR_DX : Nat → Int
  | 1 => 1
  | 3 => -1
  | _ => 0

/-- `DIR_DY` (north, east, south, west). -/
def DIR_DY : Nat → Int
  | 0 => -1
  | 2 => 1
  | _ => 0

/- ------------------------------------------------------------------ -/
/- Constraint propagation                                              -/
/- ------------------------------------------------------------------ -/

/-- The `nx < 0 || nx >= width || ny < 0 || ny >= height` bounds test of the
neighbor loop in `propagate`. -/
def dirInBounds (P : WfcParams) (x y d : Nat) : Prop :=
  ¬((x : Int) + DIR_DX d < 0 ∨ (P.width : Int) ≤ (x : Int) + DIR_DX d ∨
    (y : Int) + DIR_DY d < 0 ∨ (P.height : Int) ≤ (y : Int) + DIR_DY d)

instance (P : WfcParams) (x y d : Nat) : Decidable (dirInBounds P x y d) := by
  unfold dirInBounds; infer_instance

/-- `nidx = wave_index(solver, nx, ny)` for the `d`-neighbor of `(x, y)`. -/
def nidxOf (P : WfcParams) (x y d : Nat) : Nat :=
  ((x : Int) + DIR_DX d).toNat * P.height + ((y : Int) + DIR_DY d).toNat

/-- One direction of the neighbor update in the body of `propagate`:
intersect the neighbor's mask with `propagation_masks[dir][current_mask]`,
track the uncollapsed count, and push the neighbor if it changed.
Returns `none` on contradiction (`new_mask == 0`). -/
def processDir (P : WfcParams) (curMask x y : Nat) (dir : Nat)
    (s : SolverSt) (stack : List Nat) (inStack : List Bool) :
    Option (SolverSt × List Nat × List Bool) :=
  if ¬dirInBounds P x y dir then
    some (s, stack, inStack)
  else
    let nidx : Nat := nidxOf P x y dir
    let nmask := s.wave.getD nidx 0
    if popcount nmask ≤ 1 then
      some (s, stack, inStack)
    else
      let valid := P.propagation_masks dir curMask
      let newMask := nmask &&& valid
      if newMask = nmask then
        some (s, stack, inStack)
      else if newMask = 0 then
        none
      else
        let s' : SolverSt :=
          { s with
            wave := s.wave.set nidx newMask
            uncollapsed :=
              if 1 < popcount newMask then s.uncollapsed else s.uncollapsed - 1 }
        if inStack.getD nidx false then
          some (s', stack, inStack)
        else
          some (s', nidx :: stack, inStack.set nidx true)

/-- The `for (dir = 0; dir < 4; dir++)` loop of `propagate`, run over an
explicit list of directions. -/
def processDirs (P : WfcParams) (curMask x y : Nat) :
    List Nat → SolverSt × List Nat × List Bool →
    Option (SolverSt × List Nat × List Bool)
  | [], acc => some acc
  | d :: ds, (s, stack, inStack) =>
    match processDir P curMask x y d s stack inStack with
    | none => none
    | some acc' => processDirs P curMask x y ds acc'

/-- The `while (stack.size > 0)` loop of `propagate`.  `fuel` is the
remaining allowance of the C iteration counter: the C caps the loop at
`10 * size` iterations and reports a contradiction when the cap fires, so
`fuel = 10 * size - 1 - iterations` and `fuel = 0` with a nonempty stack is
exactly the cap.  Returns `none` on contradiction. -/
def propLoop (P : WfcParams) :
    Nat → SolverSt × List Nat × List Bool → Option (SolverSt × List Bool)
  | _, (s, [], inStack) => some (s, inStack)
  | 0, (_, _ :: _, _) => none
  | fuel + 1, (s, idx :: rest, inStack) =>
    let inStack' := inStack.set idx false
    let x := idx / P.height
    let y := idx % P.height
    let curMask := s.wave.getD idx 0
    match processDirs P curMask x y [0, 1, 2, 3] (s, rest, inStack') with
    | none => none
    | some acc => propLoop P fuel acc

/-- `propagate`: push the starting cell and drain the stack.  The C reuses a
solver-wide stack and `in_stack` array, both empty/false between calls. -/
def propagate (P : WfcParams) (s : SolverSt) (startIdx : Nat) :
    Option SolverSt :=
  let size := P.width * P.height
  let inStack := (List.replicate size false).set startIdx true
  match propLoop P (size * 10 - 1) (s, [startIdx], inStack) with
  | none => none
  | some (s', _) => some s'

/- ------------------------------------------------------------------ -/
/- Main solve loop                                                     -/
/- ------------------------------------------------------------------ -/

/-- The final verification scan of `wfc_solve_inner`: every cell must be
collapsed to exactly one pattern. -/
def finalCheck (wave : List Nat) : Bool :=
  wave.all (fun m => popcount m = 1)

/-- The `while (uncollapsed_cells > 0)` loop of `wfc_solve_inner`.
`fuel` is the remaining allowance of the C iteration counter (the cap is
`2 * size` iterations, treated as a contradiction) and `iters` is the
counter itself; the returned `Nat` is the counter's value on exit, so the
pair `(fuel, iters)` mirrors the C exactly when `fuel + 1 + iters = 2 * size`. -/
def collapseLoop (P : WfcParams) (o : Oracle) (fuel iters : Nat)
    (s : SolverSt) : Except WfcError SolverSt × Nat :=
  if 0 < s.uncollapsed then
    match fuel with
    | 0 => (.error .contradiction, iters + 1)
    | fuel + 1 =>
      match o.pickCell s.wave with
      | none =>
        -- find_min_entropy_cell found no candidate: break to the final scan.
        ((if finalCheck s.wave then .ok s else .error .contradiction), iters + 1)
      | some idx =>
        let bit := o.pickBit s.wave idx
        let s' : SolverSt :=
          { s with
            wave := s.wave.set idx (1 <<< bit)
            uncollapsed := s.uncollapsed - 1 }
        match propagate P s' idx with
        | none => (.error .contradiction, iters + 1)
        | some s'' => collapseLoop P o fuel (iters + 1) s''
  else
    ((if finalCheck s.wave then .ok s else .error .contradiction), iters)

/-- `wfc_solve_inner`: the initialization scan (early contradiction on an
empty mask, count of uncollapsed cells) followed by the collapse loop.
The C's `find_min_entropy_cell` can also report a contradiction when it
pops a cell whose mask became empty, but after a successful initialization
scan the wave never contains an empty mask (propagation aborts before
writing one), so that return path is dead and is not modelled. -/
def wfc_solve_inner (P : WfcParams) (o : Oracle) (s : SolverSt) :
    Except WfcError SolverSt × Nat :=
  if s.wave.any (fun m => m = 0) then
    (.error .contradiction, 0)
  else
    let u : Int := (s.wave.countP (fun m => decide (1 < popcount m)) : Nat)
    collapseLoop P o (P.width * P.height * 2 - 1) 0 { s with uncollapsed := u }

/- ------------------------------------------------------------------ -/
/- Python-facing wrapper                                               -/
/- ------------------------------------------------------------------ -/

/-- `single_bit_index`: first set bit below `num_patterns`. -/
def single_bit_index (mask np : Nat) : Option Nat :=
  (List.range np).find? (fun b => mask.testBit b)

/-- One cell of the result conversion, including the `SystemError` guard
for a not-fully-collapsed cell. -/
def buildCell (np mask : Nat) : Except WfcError Nat :=
  match single_bit_index mask np with
  | none => .error .systemError
  | some b => if popcount mask = 1 then .ok b else .error .systemError

/-- Error-propagating map, mirroring the C result loops' early exit on the
first failing cell. -/
def exceptMap (f : α → Except WfcError β) : List α → Except WfcError (List β)
  | [] => .ok []
  | a :: as =>
    match f a with
    | .error e => .error e
    | .ok b =>
      match exceptMap f as with
      | .error e => .error e
      | .ok bs => .ok (b :: bs)

/-- The result conversion of `catley_native_wfc_solve`: a `width`-long list
of `height`-long columns of chosen pattern indices. -/
def buildResult (P : WfcParams) (wave : List Nat) :
    Except WfcError (List (List Nat)) :=
  exceptMap (fun x =>
    exceptMap (fun y =>
      buildCell P.num_patterns (wave.getD (x * P.height + y) 0))
      (List.range P.height))
    (List.range P.width)

/-- `catley_native_wfc_solve`: validation, the private copy of the caller's
wave, the solve, and the result conversion.  The second component of the
result is the caller's `initial_wave` buffer as the call leaves it. -/
def catley_native_wfc_solve (P : WfcParams) (o : Oracle)
    (initial_wave : List Nat) :
    Except WfcError (List (List Nat)) × List Nat :=
  if P.width = 0 ∨ P.height = 0 then
    (.error .badValue, initial_wave)
  else if P.num_patterns = 0 ∨ 8 < P.num_patterns then
    (.error .badValue, initial_wave)
  else
    let allMask := (1 <<< P.num_patterns) - 1
    if initial_wave.any (fun m => m &&& (255 ^^^ allMask) ≠ 0) then
      (.error .badValue, initial_wave)
    else
      -- memcpy(wave_copy, wave_buf.buf, size): the solver works on the copy.
      let s : SolverSt :=
        { caller := initial_wave, wave := initial_wave, uncollapsed := 0 }
      match wfc_solve_inner P o s with
      | (.error e, _) => (.error e, s.caller)
      | (.ok s', _) => (buildResult P s'.wave, s'.caller)

end Wfc

/- ------------------------------------------------------------------ -/
/- Concrete instances used to instantiate theorems                     -/
/- ------------------------------------------------------------------ -/

namespace Wfc

/-- A trivially valid oracle: its cell query always reports exhaustion.
Used to instantiate theorems at concrete inputs. -/
def trivOracle : Oracle := ⟨fun _ => none, fun _ _ => 0⟩

/-- An oracle that picks the first uncertain cell and its lowest set bit —
one concrete, valid selection strategy. -/
def firstOracle : Oracle :=
  ⟨fun w => (List.range w.length).find? (fun i => decide (1 < popcount (w.getD i 0))),
   fun w i => ((List.range 8).find? (fun b => (w.getD i 0).testBit b)).getD 0⟩

/-- A 2×1 two-pattern parameter block whose propagation table permits
nothing anywhere (`propagation_masks[dir][m] = 0` for all entries). -/
def pairParams : WfcParams :=
  { width := 2, height := 1, num_patterns := 2,
    propagation_masks := fun _ _ => 0, pattern_weights := [1, 1], seed := 42 }

/-- A 2×1 two-pattern parameter block where the east-neighbor of pattern 0
must be pattern 1 and everything else is unconstrained. -/
def propParams : WfcParams :=
  { width := 2, height := 1, num_patterns := 2,
    propagation_masks := fun d m => if d = 1 ∧ m = 1 then 2 else 3,
    pattern_weights := [1, 1], seed := 0 }

/-- A 1×1 one-pattern parameter block. -/
def unitParams : WfcParams :=
  { width := 1, height := 1, num_patterns := 1,
    propagation_masks := fun _ _ => 1, pattern_weights := [1], seed := 0 }

end Wfc

/- ================================================================== -/
/- FOV: symmetric shadowcasting (`_native_fov.c`)                      -/
/- ================================================================== -/

namespace Fov

/-- A sector of the shadowcasting sweep: the current ray depth and the
start/end slopes stored as signed rationals. -/
structure Sector where
  depth : Int
  s_num : Int
  s_den : Int
  e_num : Int
  e_den : Int
deriving DecidableEq

/-- `floor_div`: sign-correct floor division built on C's truncating `/`. -/
def floor_div (num den : Int) : Int :=
  let q := num.tdiv den
  let r := num.tmod den
  if r ≠ 0 ∧ ¬((0 < r) ↔ (0 < den)) then q - 1 else q

/-- `ceil_div`: sign-correct ceiling division built on C's truncating `/`. -/
def ceil_div (num den : Int) : Int :=
  let q := num.tdiv den
  let r := num.tmod den
  if r ≠ 0 ∧ ((0 < r) ↔ (0 < den)) then q + 1 else q

/-- `QUADRANT_TRANSFORMS` (north, east, south, west): `(cx, dx, cy, dy)`. -/
def QUADRANT_TRANSFORMS : Nat → Int × Int × Int × Int
  | 0 => (1, 0, 0, -1)
  | 1 => (0, 1, 1, 0)
  | 2 => (1, 0, 0, 1)
  | _ => (0, -1, 1, 0)

/-- `in_bounds`. -/
def in_bounds (x y : Int) (width height : Nat) : Prop :=
  0 ≤ x ∧ x < (width : Int) ∧ 0 ≤ y ∧ y < (height : Int)

instance (x y : Int) (width height : Nat) :
    Decidable (in_bounds x y width height) := by
  unfold in_bounds; infer_instance

/-- Read a byte of a 2D grid stored as `width` columns of `height` cells
(`grid[x][y]`, x-major as in the C buffers). -/
def tGet (g : List (List Nat)) (x y : Nat) : Nat :=
  (g.getD x []).getD y 0

/-- `visible[x][y] = 1`. -/
def visSet (g : List (List Nat)) (x y : Nat) : List (List Nat) :=
  g.set x ((g.getD x []).set y 1)

/-- The read-only arguments of `scan_quadrant`. -/
structure ScanEnv where
  transparent : List (List Nat)
  width : Nat
  height : Nat
  cx : Int
  dx : Int
  cy : Int
  dy : Int
  ox : Int
  oy : Int
  radius : Int

/-- The mutable state of the column loop of `scan_quadrant`: the visibility
buffer, the (narrowable) start slope, the previous column's wall/floor flag
(`-1` before the first column) and the sector stack. -/
structure ColState where
  visible : List (List Nat)
  s_num : Int
  s_den : Int
  prev_was_wall : Int
  stack : List Sector

/-- One iteration of the `for (col = min_col; col <= max_col; col++)` loop
of `scan_quadrant`: evaluate the tile (out of bounds is a wall), mark it
visible if it is a wall or inside the slope range, then handle the
wall/floor transition (narrow the start slope or push a child sector). -/
def colStep (env : ScanEnv) (depth e_num e_den col : Int)
    (st : ColState) : ColState :=
  let wx := env.ox + col * env.cx + depth * env.dx
  let wy := env.oy + col * env.cy + depth * env.dy
  let tin := in_bounds wx wy env.width env.height
  let is_wall : Bool :=
    if tin then decide (tGet env.transparent wx.toNat wy.toNat = 0) else true
  let visible' :=
    if tin ∧ (is_wall = true ∨
        (col * st.s_den ≥ depth * st.s_num ∧ col * e_den ≤ depth * e_num)) then
      visSet st.visible wx.toNat wy.toNat
    else st.visible
  let next :=
    if st.prev_was_wall ≠ -1 then
      if st.prev_was_wall = 1 ∧ is_wall = false then
        (2 * col - 1, 2 * depth, st.stack)
      else if st.prev_was_wall = 0 ∧ is_wall = true then
        (st.s_num, st.s_den,
          (⟨depth + 1, st.s_num, st.s_den, 2 * col - 1, 2 * depth⟩ : Sector)
            :: st.stack)
      else (st.s_num, st.s_den, st.stack)
    else (st.s_num, st.s_den, st.stack)
  { visible := visible', s_num := next.1, s_den := next.2.1,
    prev_was_wall := if is_wall then 1 else 0, stack := next.2.2 }

/-- The column loop, driven over an explicit list of column indices. -/
def colLoop (env : ScanEnv) (depth e_num e_den : Int) :
    List Int → ColState → ColState
  | [], st => st
  | c :: cs, st => colLoop env depth e_num e_den cs (colStep env depth e_num e_den c st)

/-- The consecutive integers `lo, lo+1, ..., hi` (empty when `hi < lo`). -/
def colRange (lo hi : Int) : List Int :=
  (List.range (hi + 1 - lo).toNat).map (fun (i : Nat) => lo + (i : Int))

/-- The `while (top > 0)` sector loop of `scan_quadrant`.  The C loop has no
iteration counter; termination is by the supplied fuel, chosen large enough
(`scanFuel`) that it never runs out on the executions the theorems speak
about — the stated invariants hold for every fuel. -/
def scanLoop (env : ScanEnv) : Nat → List Sector → List (List Nat) → List (List Nat)
  | 0, _, vis => vis
  | _ + 1, [], vis => vis
  | fuel + 1, sec :: rest, vis =>
    if env.radius < sec.depth then scanLoop env fuel rest vis
    else
      let min_col := floor_div (2 * sec.depth * sec.s_num + sec.s_den) (2 * sec.s_den)
      let max_col := ceil_div (2 * sec.depth * sec.e_num - sec.e_den) (2 * sec.e_den)
      let st := colLoop env sec.depth sec.e_num sec.e_den (colRange min_col max_col)
        { visible := vis, s_num := sec.s_num, s_den := sec.s_den,
          prev_was_wall := -1, stack := rest }
      let stack' :=
        if st.prev_was_wall = 0 then
          (⟨sec.depth + 1, st.s_num, st.s_den, sec.e_num, sec.e_den⟩ : Sector)
            :: st.stack
        else st.stack
      scanLoop env fuel stack' st.visible

/-- Fuel that certainly outlasts the sector stack (each processed sector has
depth ≤ radius + 1 and spawns at most `2·depth + 3` children). -/
def scanFuel (radius : Int) : Nat :=
  (2 * radius.toNat + 4) ^ (radius.toNat + 3)

/-- `scan_quadrant`: process the initial sector `(1, -1, 1, 1, 1)`. -/
def scan_quadrant (env : ScanEnv) (vis : List (List Nat)) : List (List Nat) :=
  scanLoop env (scanFuel env.radius) [⟨1, -1, 1, 1, 1⟩] vis

/-- The quadrant loop of `catley_native_fov`. -/
def scanQuadrants (transparent : List (List Nat)) (width height : Nat)
    (ox oy radius : Int) : List Nat → List (List Nat) → List (List Nat)
  | [], vis => vis
  | i :: is, vis =>
    let t := QUADRANT_TRANSFORMS i
    scanQuadrants transparent width height ox oy radius is
      (scan_quadrant
        ⟨transparent, width, height, t.1, t.2.1, t.2.2.1, t.2.2.2, ox, oy, radius⟩
        vis)

/-- `catley_native_fov`: clear the visibility buffer, mark the origin when in
bounds, then sweep the four quadrants.  (Shape validation is ruled out by
typing; `width`/`height` are the common shape of the two buffers.) -/
def catley_native_fov (transparent : List (List Nat)) (width height : Nat)
    (ox oy radius : Int) : List (List Nat) :=
  let vis0 := List.replicate width (List.replicate height 0)
  let vis1 :=
    if in_bounds ox oy width height then visSet vis0 ox.toNat oy.toNat else vis0
  scanQuadrants transparent width height ox oy radius [0, 1, 2, 3] vis1


/-- The slope invariant of the sector sweep: depth at least 1, positive
denominators, start slope at least -1 and end slope at most 1. -/
def SecOk (sec : Sector) : Prop :=
  1 ≤ sec.depth ∧ 0 < sec.s_den ∧ 0 < sec.e_den ∧
    -sec.s_den ≤ sec.s_num ∧ sec.e_num ≤ sec.e_den

/-- The world tile of quadrant coordinates (depth `k`, column `w`) is a
wall: out of bounds or opaque, as `colStep` evaluates it. -/
def wallAt (env : ScanEnv) (k w : Int) : Prop :=
  ¬in_bounds (env.ox + w * env.cx + k * env.dx)
      (env.oy + w * env.cy + k * env.dy) env.width env.height ∨
    tGet env.transparent (env.ox + w * env.cx + k * env.dx).toNat
      (env.oy + w * env.cy + k * env.dy).toNat = 0

instance (env : ScanEnv) (k w : Int) : Decidable (wallAt env k w) := by
  unfold wallAt; infer_instance

/-- The center ray toward `(dep, c)` crosses row `k` exactly on a tile
corner (the crossing point `c·k/dep` is a half-integer column). -/
def tieRow (dep c k : Int) : Prop := (2 * c * k + dep) % (2 * dep) = 0

instance (dep c k : Int) : Decidable (tieRow dep c k) := by
  unfold tieRow; infer_instance

/-- The column whose tile the center ray toward `(dep, c)` meets at row
`k`: the nearest column off corners, the upper corner tile on a corner. -/
def rayTile (dep c k : Int) : Int := (2 * c * k + dep) / (2 * dep)

/-- Row `k` lets the center ray toward `(dep, c)` pass: off corners the
met tile is no wall; on a corner at least one of the two adjacent tiles
is no wall. -/
def rowClear (env : ScanEnv) (dep c k : Int) : Prop :=
  if tieRow dep c k then
    ¬(wallAt env k (rayTile dep c k - 1) ∧ wallAt env k (rayTile dep c k))
  else ¬wallAt env k (rayTile dep c k)

/-- Row `k` grazes a wall on the lower-column side of the ray's corner
crossing, pinning the ray to its left edge. -/
def rowPinL (env : ScanEnv) (dep c k : Int) : Prop :=
  tieRow dep c k ∧ wallAt env k (rayTile dep c k - 1)

/-- Row `k` grazes a wall on the upper-column side of the ray's corner
crossing, pinning the ray to its right edge. -/
def rowPinR (env : ScanEnv) (dep c k : Int) : Prop :=
  tieRow dep c k ∧ wallAt env k (rayTile dep c k)

/-- The center ray from the origin to the quadrant cell `(dep, c)` is
clear: every intermediate row lets it pass, and its corner grazes do not
pin it to both sides. -/
def RayClear (env : ScanEnv) (dep c : Int) : Prop :=
  (∀ k, 1 ≤ k → k < dep → rowClear env dep c k) ∧
    ¬((∃ k, 1 ≤ k ∧ k < dep ∧ rowPinL env dep c k) ∧
      (∃ k, 1 ≤ k ∧ k < dep ∧ rowPinR env dep c k))

/-- The target slope `c/dep` lies in the sector's closed slope range, and
when it sits exactly on the start (resp. end) slope the boundary stems
from a diagonal or a past left (resp. right) pinning graze. -/
def SecGood (env : ScanEnv) (dep c : Int) (sec : Sector) : Prop :=
  sec.depth ≤ dep ∧
  dep * sec.s_num ≤ c * sec.s_den ∧ c * sec.e_den ≤ dep * sec.e_num ∧
  (c * sec.s_den = dep * sec.s_num →
    c = -dep ∨ ∃ k, 1 ≤ k ∧ k < sec.depth ∧ rowPinL env dep c k) ∧
  (c * sec.e_den = dep * sec.e_num →
    c = dep ∨ ∃ k, 1 ≤ k ∧ k < sec.depth ∧ rowPinR env dep c k)

/-- Soundness data of a sector for the target slope `c/dep`: if the slope
lies in the sector's range, every shallower row lets the ray pass and any
past pinning graze put it exactly on the matching boundary. -/
def SecSound (env : ScanEnv) (dep c : Int) (sec : Sector) : Prop :=
  dep * sec.s_num ≤ c * sec.s_den → c * sec.e_den ≤ dep * sec.e_num →
    (∀ k, 1 ≤ k → k < sec.depth → rowClear env dep c k) ∧
    (∀ k, 1 ≤ k → k < sec.depth → rowPinL env dep c k →
      c * sec.s_den = dep * sec.s_num) ∧
    (∀ k, 1 ≤ k → k < sec.depth → rowPinR env dep c k →
      c * sec.e_den = dep * sec.e_num) ∧
    ¬((∃ k, 1 ≤ k ∧ k < sec.depth ∧ rowPinL env dep c k) ∧
      (∃ k, 1 ≤ k ∧ k < sec.depth ∧ rowPinR env dep c k))

/-- Fuel potential of one sector: enough to process its whole subtree. -/
def secPhi (R d : Int) : Nat := (2 * R.toNat + 4) ^ (R + 1 - d).toNat

/-- Fuel potential of a sector stack. -/
def stackPhi (R : Int) : List Sector → Nat
  | [] => 0
  | sec :: rest => secPhi R sec.depth + stackPhi R rest

end Fov

/- ================================================================== -/
/- A*: weighted pathfinding (`_native_pathfinding.c`)                  -/
/- ================================================================== -/

namespace Astar

/-!
The C kernel computes f/g-scores in `double`.  The embedding uses exact
rationals; the constants below are the exact values of the C double
literals (`SQRT2_MINUS_2` is exactly `SQRT2 - 2` in doubles as well).
Intermediate double rounding of sums/products is not modelled.
-/

/-- The exact value of the double literal `1.4142135623730951`. -/
def SQRT2 : ℚ := 6369051672525773 / 4503599627370496

/-- The exact value of the double literal `-0.5857864376269049`. -/
def SQRT2_MINUS_2 : ℚ := -2638147582215219 / 4503599627370496

/-- The exact value of the double literal `1.01`. -/
def HEURISTIC_WEIGHT : ℚ := 4548635623644201 / 4503599627370496

/-- The exact value of the double literal `1e30` used as the unreached
g-score sentinel. -/
def G_INFINITY : ℚ := 1000000000000000019884624838656

/-- Neighbor table `DX` (4 orthogonal moves first, then 4 diagonals). -/
def DX : Nat → Int
  | 0 => -1
  | 1 => 1
  | 2 => 0
  | 3 => 0
  | 4 => -1
  | 5 => -1
  | 6 => 1
  | _ => 1

/-- Neighbor table `DY`. -/
def DY : Nat → Int
  | 0 => 0
  | 1 => 0
  | 2 => -1
  | 3 => 1
  | 4 => -1
  | 5 => 1
  | 6 => -1
  | _ => 1

/-- `octile_h_from_deltas`. -/
def octile_h_from_deltas (dx dy : Int) : ℚ :=
  let mn : Int := if dx < dy then dx else dy
  ((dx + dy : Int) : ℚ) + SQRT2_MINUS_2 * (mn : ℚ)

/-- A heap entry: f-score and flat grid index. -/
structure HeapEntry where
  f : ℚ
  idx : Nat
deriving DecidableEq

instance : Inhabited HeapEntry := ⟨⟨0, 0⟩⟩

/-- `heap_swap`: exchange slots `a` and `b` and re-point `pos`. -/
def heap_swap (data : List HeapEntry) (pos : List Int) (a b : Nat) :
    List HeapEntry × List Int :=
  let ea := data.getD a default
  let eb := data.getD b default
  let data' := (data.set a eb).set b ea
  let pos' := (pos.set (data'.getD a default).idx (a : Int)).set
    (data'.getD b default).idx (b : Int)
  (data', pos')

/-- `heap_sift_up`.  The C loop walks `i` up to the root; the fuel is any
bound on the number of hops (the call sites pass the starting slot). -/
def heap_sift_up (data : List HeapEntry) (pos : List Int) :
    Nat → Nat → List HeapEntry × List Int
  | 0, _ => (data, pos)
  | fuel + 1, i =>
    if i = 0 then (data, pos)
    else if (data.getD ((i - 1) / 2) default).f ≤ (data.getD i default).f then
      (data, pos)
    else
      let pr := heap_swap data pos ((i - 1) / 2) i
      heap_sift_up pr.1 pr.2 fuel ((i - 1) / 2)

/-- `heap_sift_down`.  The fuel is any bound on the number of hops (the call
site passes the heap size). -/
def heap_sift_down (data : List HeapEntry) (pos : List Int) :
    Nat → Nat → List HeapEntry × List Int
  | 0, _ => (data, pos)
  | fuel + 1, i =>
    let left := 2 * i + 1
    let right := left + 1
    let s1 := if left < data.length ∧
        (data.getD left default).f < (data.getD i default).f then left else i
    let s2 := if right < data.length ∧
        (data.getD right default).f < (data.getD s1 default).f then right else s1
    if s2 = i then (data, pos)
    else
      let pr := heap_swap data pos s2 i
      heap_sift_down pr.1 pr.2 fuel s2

/-- `heap_push_or_decrease`: decrease-key when `pos[idx]` is a live slot,
append-and-sift otherwise. -/
def heap_push_or_decrease (data : List HeapEntry) (pos : List Int)
    (f : ℚ) (idx : Nat) : List HeapEntry × List Int :=
  let p := pos.getD idx (-1)
  if 0 ≤ p then
    if (data.getD p.toNat default).f ≤ f then (data, pos)
    else
      heap_sift_up (data.set p.toNat ⟨f, (data.getD p.toNat default).idx⟩)
        pos p.toNat p.toNat
  else
    let i := data.length
    heap_sift_up (data ++ [⟨f, idx⟩]) (pos.set idx (i : Int)) i i

/-- `heap_pop`: remove and return the root, move the last entry up and sift
it down.  Call sites guarantee a nonempty heap. -/
def heap_pop (data : List HeapEntry) (pos : List Int) :
    HeapEntry × List HeapEntry × List Int :=
  let top := data.getD 0 default
  let pos1 := pos.set top.idx (-1)
  if 1 < data.length then
    let last := data.getD (data.length - 1) default
    let data' := (data.set 0 last).take (data.length - 1)
    let pos2 := pos1.set last.idx 0
    let pr := heap_sift_down data' pos2 data'.length 0
    (top, pr.1, pr.2)
  else
    (top, [], pos1)

/-- The mutable working arrays of `astar_search`. -/
structure AstarSt where
  g_score : List ℚ
  came_from : List Int
  closed : List Bool
  heapData : List HeapEntry
  heapPos : List Int
deriving DecidableEq

/-- One direction `d` of the 8-neighbor expansion of cell `ci` (whose
g-score is `cg`). -/
def astar_expand (cost : List Int) (w h : Nat) (goal_dx goal_dy : List Int)
    (ci : Nat) (cg : ℚ) (d : Nat) (st : AstarSt) : AstarSt :=
  let nx : Int := ((ci / h : Nat) : Int) + DX d
  let ny : Int := ((ci % h : Nat) : Int) + DY d
  if nx < 0 ∨ (w : Int) ≤ nx ∨ ny < 0 ∨ (h : Int) ≤ ny then st
  else
    let ni := nx.toNat * h + ny.toNat
    if st.closed.getD ni false then st
    else
      let nc := cost.getD ni 0
      if nc = 0 then st
      else
        let mult : ℚ := if d < 4 then 1 else SQRT2
        let tent_g := cg + (nc : ℚ) * mult
        if tent_g < st.g_score.getD ni 0 then
          let f := tent_g + HEURISTIC_WEIGHT *
            octile_h_from_deltas (goal_dx.getD nx.toNat 0) (goal_dy.getD ny.toNat 0)
          let hp := heap_push_or_decrease st.heapData st.heapPos f ni
          { g_score := st.g_score.set ni tent_g,
            came_from := st.came_from.set ni (ci : Int),
            closed := st.closed,
            heapData := hp.1, heapPos := hp.2 }
        else st

/-- The `for (d = 0; d < 8; d++)` neighbor loop. -/
def astar_expandAll (cost : List Int) (w h : Nat) (goal_dx goal_dy : List Int)
    (ci : Nat) (cg : ℚ) : List Nat → AstarSt → AstarSt
  | [], st => st
  | d :: ds, st =>
    astar_expandAll cost w h goal_dx goal_dy ci cg ds
      (astar_expand cost w h goal_dx goal_dy ci cg d st)

/-- The main `while (heap.size > 0)` loop of `astar_search`; returns the
`found` flag and the final state.  The C loop terminates because every
full iteration closes a previously unclosed cell; the fuel passed by
`astar_search` (`size + 1`) therefore never runs out. -/
def astarLoop (cost : List Int) (w h : Nat) (goal_idx : Nat)
    (goal_dx goal_dy : List Int) : Nat → AstarSt → Bool × AstarSt
  | 0, st => (false, st)
  | fuel + 1, st =>
    if st.heapData.length = 0 then (false, st)
    else
      let pr := heap_pop st.heapData st.heapPos
      let ci := pr.1.idx
      let st1 : AstarSt := { st with heapData := pr.2.1, heapPos := pr.2.2 }
      if ci = goal_idx then (true, st1)
      else
        let st2 : AstarSt := { st1 with closed := st1.closed.set ci true }
        let cg := st2.g_score.getD ci 0
        let st3 := astar_expandAll cost w h goal_dx goal_dy ci cg
          [0, 1, 2, 3, 4, 5, 6, 7] st2
        astarLoop cost w h goal_idx goal_dx goal_dy fuel st3

/-- Path reconstruction: walk predecessors from the goal back to the start,
accumulating in front (the C builds forward and reverses).  The fuel
(`size`) outlasts the walk because g-scores strictly decrease along
`came_from`. -/
def reconstruct (came_from : List Int) (start_idx : Nat) :
    Nat → Nat → List Nat → List Nat
  | 0, _, acc => acc
  | fuel + 1, node, acc =>
    if node = start_idx then acc
    else reconstruct came_from start_idx fuel
      ((came_from.getD node (-1)).toNat) (node :: acc)

/-- `astar_search` on a flat int16 cost grid; returns the path as flat
indices (excluding the start), `[]` when no path. -/
def astar_search (cost : List Int) (w h : Nat) (sx sy gx gy : Nat) :
    List Nat :=
  let size := w * h
  let start_idx := sx * h + sy
  let goal_idx := gx * h + gy
  if cost.getD start_idx 0 = 0 ∨ cost.getD goal_idx 0 = 0 then []
  else
    let goal_dx := (List.range w).map (fun x =>
      if (x : Int) - (gx : Int) < 0 then -((x : Int) - (gx : Int))
      else (x : Int) - (gx : Int))
    let goal_dy := (List.range h).map (fun y =>
      if (y : Int) - (gy : Int) < 0 then -((y : Int) - (gy : Int))
      else (y : Int) - (gy : Int))
    let st0 : AstarSt :=
      { g_score := (List.replicate size G_INFINITY).set start_idx 0,
        came_from := List.replicate size (-1),
        closed := List.replicate size false,
        heapData := [],
        heapPos := List.replicate size (-1) }
    let f0 := HEURISTIC_WEIGHT *
      octile_h_from_deltas (goal_dx.getD sx 0) (goal_dy.getD sy 0)
    let hp := heap_push_or_decrease st0.heapData st0.heapPos f0 start_idx
    let st1 : AstarSt := { st0 with heapData := hp.1, heapPos := hp.2 }
    let r := astarLoop cost w h goal_idx goal_dx goal_dy (size + 1) st1
    if r.1 then reconstruct r.2.came_from start_idx size goal_idx []
    else []

/-- Errors of the Python-facing wrapper (`BadShape`/`OutOfMemory` are ruled
out by typing / not modelled). -/
inductive AstarError
  | outOfBounds
deriving DecidableEq

/-- `brileta_native_astar`: bounds validation, the `start == goal` shortcut,
the search, and conversion of flat indices to `(x, y)` pairs. -/
def brileta_native_astar (cost : List Int) (w h : Nat) (sx sy gx gy : Int) :
    Except AstarError (List (Nat × Nat)) :=
  if sx < 0 ∨ (w : Int) ≤ sx ∨ sy < 0 ∨ (h : Int) ≤ sy ∨
      gx < 0 ∨ (w : Int) ≤ gx ∨ gy < 0 ∨ (h : Int) ≤ gy then
    .error .outOfBounds
  else if sx = gx ∧ sy = gy then
    .ok []
  else
    .ok ((astar_search cost w h sx.toNat sy.toNat gx.toNat gy.toNat).map
      (fun idx => (idx / h, idx % h)))

/-!
### Specification vocabulary for the pathfinding claims

`Adj` is 8-neighbor (Chebyshev) adjacency of flat indices; `PathTo` is the
claim's notion of an 8-connected path through nonzero-cost cells; the
invariant `SInv` packages the facts the main loop maintains.
-/

/-- Flat index `n` is currently stored in the open heap. -/
def InHeap (pos : List Int) (n : Nat) : Prop := 0 ≤ pos.getD n (-1)

instance (pos : List Int) (n : Nat) : Decidable (InHeap pos n) := by
  rw [InHeap]; infer_instance

/-- Coherence of the heap array with the `pos` slot map (`pos[idx]` is the
live slot of `idx`, `-1` when absent). -/
def HeapCoh (data : List HeapEntry) (pos : List Int) (size : Nat) : Prop :=
  pos.length = size ∧
  (∀ j, j < data.length →
    (data.getD j default).idx < size ∧
    pos.getD (data.getD j default).idx (-1) = (j : Int)) ∧
  (∀ n, n < size → 0 ≤ pos.getD n (-1) →
    (pos.getD n (-1)).toNat < data.length ∧
    (data.getD (pos.getD n (-1)).toNat default).idx = n)

/-- 8-neighbor adjacency of flat indices on a `w × h` grid. -/
def Adj (w h : Nat) (a b : Nat) : Prop :=
  a < w * h ∧ b < w * h ∧ a ≠ b ∧
    ((a / h : Nat) : Int) - ((b / h : Nat) : Int) ≤ 1 ∧
    ((b / h : Nat) : Int) - ((a / h : Nat) : Int) ≤ 1 ∧
    ((a % h : Nat) : Int) - ((b % h : Nat) : Int) ≤ 1 ∧
    ((b % h : Nat) : Int) - ((a % h : Nat) : Int) ≤ 1

/-- An 8-connected path from `start` to `goal` through nonzero-cost cells
(the cell list excludes `start`). -/
def PathTo (cost : List Int) (w h start goal : Nat) (p : List Nat) : Prop :=
  p ≠ [] ∧ List.Chain (Adj w h) start p ∧
    (∀ n ∈ p, cost.getD n 0 ≠ 0) ∧ p.getLast? = some goal

/-- What the reconstruction returns on success: a nonzero-cost chain from
`start` ending at `goal` and excluding `start`. -/
def GoodPath (cost : List Int) (w h start goal : Nat) (p : List Nat) : Prop :=
  List.Chain (Adj w h) start p ∧ (∀ n ∈ p, cost.getD n 0 ≠ 0) ∧
    p.getLast? = some goal ∧ start ∉ p

/-- Number of closed cells. -/
def countClosed (cl : List Bool) : Nat := cl.countP (fun b => b)

/-- The (in-bounds, nonzero-cost) neighbor of `n` in direction `d` has been
reached (finite g-score). -/
def NbrD (cost : List Int) (w h : Nat) (g : List ℚ) (n d : Nat) : Prop :=
  ¬(((n / h : Nat) : Int) + DX d < 0 ∨ (w : Int) ≤ ((n / h : Nat) : Int) + DX d ∨
    ((n % h : Nat) : Int) + DY d < 0 ∨ (h : Int) ≤ ((n % h : Nat) : Int) + DY d) →
  cost.getD ((((n / h : Nat) : Int) + DX d).toNat * h +
    (((n % h : Nat) : Int) + DY d).toNat) 0 ≠ 0 →
  g.getD ((((n / h : Nat) : Int) + DX d).toNat * h +
    (((n % h : Nat) : Int) + DY d).toNat) 0 < G_INFINITY

/-- All admissible (in-bounds, nonzero-cost) 8-neighbors of `n` have been
reached (finite g-score). -/
def NbrsReached (cost : List Int) (w h : Nat) (g : List ℚ) (n : Nat) : Prop :=
  ∀ d, d < 8 → NbrD cost w h g n d

/-- The invariant of the `astar_search` main loop. -/
structure SInv (cost : List Int) (w h start goal : Nat) (st : AstarSt) :
    Prop where
  len_g : st.g_score.length = w * h
  len_cf : st.came_from.length = w * h
  len_cl : st.closed.length = w * h
  coh : HeapCoh st.heapData st.heapPos (w * h)
  entries : ∀ e ∈ st.heapData, e.idx < w * h ∧
    st.closed.getD e.idx false = false ∧
    st.g_score.getD e.idx 0 < G_INFINITY
  frontier : ∀ n, n < w * h → st.g_score.getD n 0 < G_INFINITY →
    st.closed.getD n false = false → InHeap st.heapPos n
  closed_nbrs : ∀ n, n < w * h → st.closed.getD n false = true →
    NbrsReached cost w h st.g_score n
  closed_g : ∀ n, n < w * h → st.closed.getD n false = true →
    st.g_score.getD n 0 < G_INFINITY
  cf_ok : ∀ n, n < w * h → n ≠ start → st.g_score.getD n 0 < G_INFINITY →
    0 ≤ st.came_from.getD n (-1) ∧
    (st.came_from.getD n (-1)).toNat < w * h ∧
    Adj w h (st.came_from.getD n (-1)).toNat n ∧
    cost.getD n 0 ≠ 0 ∧
    st.g_score.getD (st.came_from.getD n (-1)).toNat 0 < st.g_score.getD n 0
  g_start : st.g_score.getD start 0 = 0
  g_nonneg : ∀ n, n < w * h → 0 ≤ st.g_score.getD n 0
  g_bound : ∀ n, n < w * h → st.g_score.getD n 0 < G_INFINITY →
    st.g_score.getD n 0 ≤ 65534 * (countClosed st.closed + 1)
  goal_open : st.closed.getD goal false = false

/-- The invariant holding during the 8-neighbor expansion of the freshly
closed cell `ci`, whose g-score (read once, as in the C) is `cg`:
`SInv` with `closed_nbrs` weakened to exempt `ci` itself. -/
structure MInv (cost : List Int) (w h start goal ci : Nat) (cg : ℚ)
    (st : AstarSt) : Prop where
  len_g : st.g_score.length = w * h
  len_cf : st.came_from.length = w * h
  len_cl : st.closed.length = w * h
  coh : HeapCoh st.heapData st.heapPos (w * h)
  entries : ∀ e ∈ st.heapData, e.idx < w * h ∧
    st.closed.getD e.idx false = false ∧
    st.g_score.getD e.idx 0 < G_INFINITY
  frontier : ∀ n, n < w * h → st.g_score.getD n 0 < G_INFINITY →
    st.closed.getD n false = false → InHeap st.heapPos n
  closed_nbrs : ∀ n, n < w * h → st.closed.getD n false = true → n ≠ ci →
    NbrsReached cost w h st.g_score n
  closed_g : ∀ n, n < w * h → st.closed.getD n false = true →
    st.g_score.getD n 0 < G_INFINITY
  cf_ok : ∀ n, n < w * h → n ≠ start → st.g_score.getD n 0 < G_INFINITY →
    0 ≤ st.came_from.getD n (-1) ∧
    (st.came_from.getD n (-1)).toNat < w * h ∧
    Adj w h (st.came_from.getD n (-1)).toNat n ∧
    cost.getD n 0 ≠ 0 ∧
    st.g_score.getD (st.came_from.getD n (-1)).toNat 0 < st.g_score.getD n 0
  g_start : st.g_score.getD start 0 = 0
  g_nonneg : ∀ n, n < w * h → 0 ≤ st.g_score.getD n 0
  g_bound : ∀ n, n < w * h → st.g_score.getD n 0 < G_INFINITY →
    st.g_score.getD n 0 ≤ 65534 * (countClosed st.closed + 1)
  goal_open : st.closed.getD goal false = false
  ci_closed : st.closed.getD ci false = true
  cg_eq : st.g_score.getD ci 0 = cg
  cg_bound : 0 ≤ cg ∧ cg ≤ 65534 * countClosed st.closed

/-- What the loop guarantees when it exits with `found = true`: enough to
run the reconstruction. -/
structure FoundInv (cost : List Int) (w h start goal : Nat) (st : AstarSt) :
    Prop where
  len_g : st.g_score.length = w * h
  len_cf : st.came_from.length = w * h
  cf_ok : ∀ n, n < w * h → n ≠ start → st.g_score.getD n 0 < G_INFINITY →
    0 ≤ st.came_from.getD n (-1) ∧
    (st.came_from.getD n (-1)).toNat < w * h ∧
    Adj w h (st.came_from.getD n (-1)).toNat n ∧
    cost.getD n 0 ≠ 0 ∧
    st.g_score.getD (st.came_from.getD n (-1)).toNat 0 < st.g_score.getD n 0
  g_goal : st.g_score.getD goal 0 < G_INFINITY

/-- Exact octile length of the displacement `(p, q)`:
`max + min·(SQRT2 - 1)` over the absolute components. -/
def octAbs (p q : Int) : ℚ :=
  ((max p.natAbs q.natAbs : Nat) : ℚ) +
    ((min p.natAbs q.natAbs : Nat) : ℚ) * (SQRT2 - 1)

/-- The step multiplier of direction `d` (1 orthogonal, `SQRT2` diagonal),
as the C picks it via `d < 4`. -/
def multQ (d : Nat) : ℚ := if d < 4 then 1 else SQRT2

/-- Signed x-displacement between the cells `a` and `n`. -/
def cellDx (h : Nat) (a n : Nat) : Int :=
  ((n / h : Nat) : Int) - ((a / h : Nat) : Int)

/-- Signed y-displacement between the cells `a` and `n`. -/
def cellDy (h : Nat) (a n : Nat) : Int :=
  ((n % h : Nat) : Int) - ((a % h : Nat) : Int)

/-- Exact octile distance between cells `a` and `n` under uniform cost
`c`. -/
def distD (h : Nat) (c : Int) (a n : Nat) : ℚ :=
  (c : ℚ) * octAbs (cellDx h a n) (cellDy h a n)

/-- The exact heuristic value the C attaches to cell `n` for goal
`(gx, gy)`. -/
def hOf (h gx gy : Nat) (n : Nat) : ℚ :=
  HEURISTIC_WEIGHT * octAbs (((n / h : Nat) : Int) - (gx : Int))
    (((n % h : Nat) : Int) - (gy : Int))

/-- Chebyshev distance between two flat cells. -/
def chebNat (h : Nat) (a n : Nat) : Nat :=
  max (cellDx h a n).natAbs (cellDy h a n).natAbs

/-- One greedy step from cell `n` toward the cell `(tx, ty)`: each
coordinate moves one toward its target (diagonally when both differ). -/
def stepToward (h tx ty : Nat) (n : Nat) : Nat :=
  ((((n / h : Nat) : Int) +
      ((tx : Int) - ((n / h : Nat) : Int)).sign).toNat) * h +
    ((((n % h : Nat) : Int) +
      ((ty : Int) - ((n % h : Nat) : Int)).sign).toNat)

/-- The binary min-heap ordering: every non-root slot is at least its
parent. -/
def IsMinHeap (data : List HeapEntry) : Prop :=
  ∀ j, 0 < j → j < data.length →
    (data.getD ((j - 1) / 2) default).f ≤ (data.getD j default).f

/-- Heap ordering with one possible violation at the edge from `i`'s parent
to `i`, and `i`'s parent already below `i`'s children (the `sift_up`
precondition). -/
def SiftUpOK (data : List HeapEntry) (i : Nat) : Prop :=
  (∀ j, 0 < j → j < data.length → j ≠ i →
    (data.getD ((j - 1) / 2) default).f ≤ (data.getD j default).f) ∧
  (∀ j, j < data.length → (j - 1) / 2 = i → 0 < i →
    (data.getD ((i - 1) / 2) default).f ≤ (data.getD j default).f)

/-- Heap ordering with possible violations only on the edges from `i` to its
children, and `i`'s parent already below `i`'s children (the `sift_down`
precondition). -/
def DownHeapOK (data : List HeapEntry) (i : Nat) : Prop :=
  (∀ j, 0 < j → j < data.length → (j - 1) / 2 ≠ i →
    (data.getD ((j - 1) / 2) default).f ≤ (data.getD j default).f) ∧
  (∀ j, j < data.length → 0 < i → (j - 1) / 2 = i →
    (data.getD ((i - 1) / 2) default).f ≤ (data.getD j default).f)

/-- Rank used to bound the reconstruction walk: the number of cells whose
g-score is strictly below `node`'s. -/
def gRank (g : List ℚ) (size node : Nat) : Nat :=
  ((Finset.range size).filter (fun m => g.getD m 0 < g.getD node 0)).card

end Astar

/-!
## Theorems

Helper lemmas first (bitmask order, shrink invariants, frame invariants),
then one theorem per claim.
-/

namespace Wfc

theorem submask_iff_testBit {a b : Nat} :
    Submask a b ↔ ∀ i, a.testBit i = true → b.testBit i = true := by
  constructor
  · intro h i hi
    have h' := congrArg (fun n => Nat.testBit n i) h
    simp only [Nat.testBit_and, hi, Bool.true_and] at h'
    exact h'
  · intro h
    apply Nat.eq_of_testBit_eq
    intro i
    simp only [Nat.testBit_and]
    cases hai : a.testBit i with
    | false => simp
    | true => simp [h i hai]

theorem submask_refl (a : Nat) : Submask a a := Nat.and_self a

theorem submask_trans {a b c : Nat} (h1 : Submask a b) (h2 : Submask b c) :
    Submask a c := by
  rw [submask_iff_testBit] at *
  exact fun i hi => h2 i (h1 i hi)

theorem submask_zero (a : Nat) : Submask 0 a := Nat.zero_and a

theorem submask_land_left (a b : Nat) : Submask (a &&& b) a := by
  rw [submask_iff_testBit]
  intro i hi
  simp only [Nat.testBit_and, Bool.and_eq_true] at hi
  exact hi.1

theorem submask_land_right (a b : Nat) : Submask (a &&& b) b := by
  rw [submask_iff_testBit]
  intro i hi
  simp only [Nat.testBit_and, Bool.and_eq_true] at hi
  exact hi.2

theorem submask_shiftLeft_of_testBit {m b : Nat} (h : m.testBit b = true) :
    Submask (1 <<< b) m := by
  rw [submask_iff_testBit]
  intro i hi
  have : (2 ^ b).testBit i = true := by
    simpa [Nat.shiftLeft_eq] using hi
  rw [Nat.testBit_two_pow] at this
  simp only [decide_eq_true_eq] at this
  exact this ▸ h

theorem waveLe_refl (w : List Nat) : WaveLe w w :=
  ⟨Eq.refl _, fun _ => submask_refl _⟩

theorem waveLe_trans {w1 w2 w3 : List Nat} (h1 : WaveLe w1 w2)
    (h2 : WaveLe w2 w3) : WaveLe w1 w3 :=
  ⟨h1.1.trans h2.1, fun i => submask_trans (h1.2 i) (h2.2 i)⟩

theorem getD_set_eq_ite (w : List Nat) (n j a : Nat) :
    (w.set n a).getD j 0 = if n = j ∧ j < w.length then a else w.getD j 0 := by
  simp only [List.getD_eq_getElem?_getD, List.getElem?_set']
  by_cases h : n = j
  · subst h
    by_cases hl : n < w.length
    · simp [List.getElem?_eq_getElem hl, hl]
    · simp [List.getElem?_eq_none (Nat.le_of_not_lt hl), hl]
  · simp [h]

theorem waveLe_set {w : List Nat} {n m : Nat} (h : Submask m (w.getD n 0)) :
    WaveLe (w.set n m) w := by
  refine ⟨List.length_set w n m, fun i => ?_⟩
  rw [getD_set_eq_ite]
  split
  · next hc => exact hc.1 ▸ h
  · exact submask_refl _

end Wfc

namespace Wfc

/-- What one neighbor update does to the solver state: the caller buffer is
untouched, the wave only shrinks, and only the `d`-neighbor cell changes. -/
theorem processDir_spec {P : WfcParams} {cm x y d : Nat} {s : SolverSt}
    {st : List Nat} {is : List Bool} {r : SolverSt × List Nat × List Bool}
    (h : processDir P cm x y d s st is = some r) :
    r.1.caller = s.caller ∧ WaveLe r.1.wave s.wave ∧
      ∀ j, (dirInBounds P x y d → j ≠ nidxOf P x y d) →
        r.1.wave.getD j 0 = s.wave.getD j 0 := by
  simp only [processDir] at h
  split at h
  · next hoob =>
    cases h
    exact ⟨rfl, waveLe_refl _, fun _ _ => rfl⟩
  · next hib =>
    rw [not_not] at hib
    split at h
    · cases h
      exact ⟨rfl, waveLe_refl _, fun _ _ => rfl⟩
    · split at h
      · cases h
        exact ⟨rfl, waveLe_refl _, fun _ _ => rfl⟩
      · split at h
        · exact absurd h (by simp)
        · have hset :
              r.1 = { s with
                wave := s.wave.set (nidxOf P x y d)
                  (s.wave.getD (nidxOf P x y d) 0 &&&
                    P.propagation_masks d cm)
                uncollapsed :=
                  if 1 < popcount (s.wave.getD (nidxOf P x y d) 0 &&&
                      P.propagation_masks d cm) then
                    s.uncollapsed
                  else s.uncollapsed - 1 } := by
            split at h <;> (cases h; rfl)
          refine ⟨by rw [hset], ?_, ?_⟩
          · rw [hset]
            exact waveLe_set (submask_land_left _ _)
          · intro j hj
            rw [hset]
            simp only
            rw [getD_set_eq_ite]
            split
            · next hc => exact absurd hc.1 (hj hib).symm
            · rfl

/-- When the `d`-neighbor is in bounds and still uncertain, the neighbor
update leaves its mask a sub-mask of `propagation_masks[d][current_mask]`
(and aborts with a contradiction instead of writing an empty mask). -/
theorem processDir_target {P : WfcParams} {cm x y d : Nat} {s : SolverSt}
    {st : List Nat} {is : List Bool} {r : SolverSt × List Nat × List Bool}
    (h : processDir P cm x y d s st is = some r)
    (hin : dirInBounds P x y d)
    (hmulti : 1 < popcount (s.wave.getD (nidxOf P x y d) 0)) :
    Submask (r.1.wave.getD (nidxOf P x y d) 0)
      (P.propagation_masks d cm) := by
  simp only [processDir] at h
  split at h
  · next hoob => exact absurd hin hoob
  · split at h
    · next hle => omega
    · split at h
      · next heq =>
        cases h
        exact heq
      · split at h
        · exact absurd h (by simp)
        · have hset :
              r.1.wave = s.wave.set (nidxOf P x y d)
                (s.wave.getD (nidxOf P x y d) 0 &&&
                  P.propagation_masks d cm) := by
            split at h <;> (cases h; rfl)
          rw [hset, getD_set_eq_ite]
          split
          · exact submask_land_right _ _
          · next hc =>
            rcases not_and_or.mp hc with hc | hc
            · exact absurd rfl hc
            · have : s.wave.getD (nidxOf P x y d) 0 = 0 := by
                simp [List.getD_eq_getElem?_getD,
                  List.getElem?_eq_none (Nat.le_of_not_lt hc)]
              rw [this]
              exact submask_zero _

theorem processDirs_spec {P : WfcParams} {cm x y : Nat} :
    ∀ (ds : List Nat) (acc r : SolverSt × List Nat × List Bool),
      processDirs P cm x y ds acc = some r →
      r.1.caller = acc.1.caller ∧ WaveLe r.1.wave acc.1.wave ∧
        ∀ j, (∀ d ∈ ds, dirInBounds P x y d → j ≠ nidxOf P x y d) →
          r.1.wave.getD j 0 = acc.1.wave.getD j 0
  | [], acc, r, h => by
    cases h
    exact ⟨rfl, waveLe_refl _, fun _ _ => rfl⟩
  | d :: ds, (s, st, is), r, h => by
    simp only [processDirs] at h
    split at h
    · exact absurd h (by simp)
    · next acc' heq =>
      obtain ⟨hc1, hw1, hu1⟩ := processDir_spec heq
      obtain ⟨hc2, hw2, hu2⟩ := processDirs_spec ds acc' r h
      refine ⟨hc2.trans hc1, waveLe_trans hw2 hw1, fun j hj => ?_⟩
      rw [hu2 j fun d' hd' => hj d' (List.mem_cons_of_mem _ hd'),
        hu1 j (hj d (List.mem_cons_self _ _))]

theorem processDirs_untouched {P : WfcParams} {cm x y : Nat}
    {ds : List Nat} {acc r : SolverSt × List Nat × List Bool} {v : Nat}
    (h : processDirs P cm x y ds acc = some r)
    (hav : ∀ d ∈ ds, dirInBounds P x y d → v ≠ nidxOf P x y d) :
    r.1.wave.getD v 0 = acc.1.wave.getD v 0 :=
  (processDirs_spec ds acc r h).2.2 v hav

/-- Through a whole direction sweep: if the `d`-neighbor `v` is in bounds,
uncertain, and is not the neighbor cell of any other processed direction,
its mask ends up inside `propagation_masks[d][current_mask]`. -/
theorem processDirs_target {P : WfcParams} {cm x y d : Nat} :
    ∀ (ds₁ : List Nat) (ds₂ : List Nat) (acc r : SolverSt × List Nat × List Bool),
      processDirs P cm x y (ds₁ ++ d :: ds₂) acc = some r →
      dirInBounds P x y d →
      1 < popcount (acc.1.wave.getD (nidxOf P x y d) 0) →
      (∀ d' ∈ ds₁ ++ ds₂, dirInBounds P x y d' →
        nidxOf P x y d ≠ nidxOf P x y d') →
      Submask (r.1.wave.getD (nidxOf P x y d) 0)
        (P.propagation_masks d cm)
  | [], ds₂, (s, st, is), r, h, hin, hmulti, hav => by
    simp only [List.nil_append, processDirs] at h
    split at h
    · exact absurd h (by simp)
    · next acc' heq =>
      have htgt := processDir_target heq hin hmulti
      have hrest := processDirs_untouched h
        (fun d' hd' => hav d' (by simpa using hd'))
      rw [hrest]
      exact htgt
  | d₁ :: ds₁, ds₂, (s, st, is), r, h, hin, hmulti, hav => by
    simp only [List.cons_append, processDirs] at h
    split at h
    · exact absurd h (by simp)
    · next acc' heq =>
      have hd₁ : dirInBounds P x y d₁ → nidxOf P x y d ≠ nidxOf P x y d₁ :=
        hav d₁ (by simp)
      have huntouched := (processDir_spec heq).2.2 (nidxOf P x y d) hd₁
      refine processDirs_target ds₁ ds₂ acc' r h hin ?_ ?_
      · rw [huntouched]; exact hmulti
      · intro d' hd'
        exact hav d' (by
          rcases List.mem_append.mp hd' with h' | h'
          · exact List.mem_append.mpr (Or.inl (List.mem_cons_of_mem _ h'))
          · exact List.mem_append.mpr (Or.inr h'))

theorem propLoop_spec {P : WfcParams} :
    ∀ (fuel : Nat) (acc : SolverSt × List Nat × List Bool)
      (r : SolverSt × List Bool),
      propLoop P fuel acc = some r →
      r.1.caller = acc.1.caller ∧ WaveLe r.1.wave acc.1.wave
  | fuel, (s, [], is), r, h => by
    cases fuel <;> (cases h; exact ⟨rfl, waveLe_refl _⟩)
  | 0, (s, idx :: rest, is), r, h => by
    exact absurd h (by simp [propLoop])
  | fuel + 1, (s, idx :: rest, is), r, h => by
    simp only [propLoop] at h
    split at h
    · exact absurd h (by simp)
    · next acc' heq =>
      obtain ⟨hc1, hw1, _⟩ := processDirs_spec _ _ _ heq
      obtain ⟨hc2, hw2⟩ := propLoop_spec fuel acc' r h
      exact ⟨hc2.trans hc1, waveLe_trans hw2 hw1⟩

theorem propagate_spec {P : WfcParams} {s s' : SolverSt} {startIdx : Nat}
    (h : propagate P s startIdx = some s') :
    s'.caller = s.caller ∧ WaveLe s'.wave s.wave := by
  simp only [propagate] at h
  split at h
  · exact absurd h (by simp)
  · next r heq =>
    cases h
    exact propLoop_spec _ _ _ heq

theorem collapseLoop_spec {P : WfcParams} {o : Oracle} (hv : o.Valid) :
    ∀ (fuel iters : Nat) (s s' : SolverSt),
      (collapseLoop P o fuel iters s).1 = .ok s' →
      s'.caller = s.caller ∧ WaveLe s'.wave s.wave := by
  intro fuel
  induction fuel with
  | zero =>
    intro iters s s' h
    rw [collapseLoop] at h
    split at h
    · exact Except.noConfusion h
    · split at h
      · injection h with h
        subst h
        exact ⟨rfl, waveLe_refl _⟩
      · exact Except.noConfusion h
  | succ fuel ih =>
    intro iters s s' h
    rw [collapseLoop] at h
    split at h
    · split at h
      · split at h
        · injection h with h
          subst h
          exact ⟨rfl, waveLe_refl _⟩
        · exact Except.noConfusion h
      · rename_i idx hpick
        dsimp only at h
        split at h
        · exact Except.noConfusion h
        · rename_i s2 hprop
          obtain ⟨hc2, hw2⟩ := ih _ _ _ h
          obtain ⟨hc1, hw1⟩ := propagate_spec hprop
          obtain ⟨hlt, _, hbit⟩ := hv s.wave idx hpick
          refine ⟨hc2.trans hc1, waveLe_trans (waveLe_trans hw2 hw1) ?_⟩
          exact waveLe_set (submask_shiftLeft_of_testBit hbit)
    · split at h
      · injection h with h
        subst h
        exact ⟨rfl, waveLe_refl _⟩
      · exact Except.noConfusion h

theorem wfc_solve_inner_spec {P : WfcParams} {o : Oracle} (hv : o.Valid)
    {s s' : SolverSt} (h : (wfc_solve_inner P o s).1 = .ok s') :
    s'.caller = s.caller ∧ WaveLe s'.wave s.wave := by
  rw [wfc_solve_inner] at h
  split at h
  · exact absurd h (by simp)
  · obtain ⟨h1, h2⟩ := collapseLoop_spec hv _ _ _ _ h
    exact ⟨h1, h2⟩

theorem collapseLoop_caller {P : WfcParams} {o : Oracle} :
    ∀ (fuel iters : Nat) (s s' : SolverSt),
      (collapseLoop P o fuel iters s).1 = .ok s' → s'.caller = s.caller := by
  intro fuel
  induction fuel with
  | zero =>
    intro iters s s' h
    rw [collapseLoop] at h
    split at h
    · exact Except.noConfusion h
    · split at h
      · injection h with h
        subst h
        rfl
      · exact Except.noConfusion h
  | succ fuel ih =>
    intro iters s s' h
    rw [collapseLoop] at h
    split at h
    · split at h
      · split at h
        · injection h with h
          subst h
          rfl
        · exact Except.noConfusion h
      · rename_i idx hpick
        dsimp only at h
        split at h
        · exact Except.noConfusion h
        · rename_i s2 hprop
          exact ((ih _ _ _ h).trans (propagate_spec hprop).1)
    · split at h
      · injection h with h
        subst h
        rfl
      · exact Except.noConfusion h

theorem wfc_solve_inner_caller {P : WfcParams} {o : Oracle} {s s' : SolverSt}
    (h : (wfc_solve_inner P o s).1 = .ok s') : s'.caller = s.caller := by
  rw [wfc_solve_inner] at h
  split at h
  · exact absurd h (by simp)
  · have h1 := collapseLoop_caller _ _ _ _ h
    exact h1

theorem exceptMap_ok_getD {α β : Type} {f : α → Except WfcError β} :
    ∀ {xs : List α} {l : List β}, exceptMap f xs = .ok l →
      ∀ (i : Nat) (da : α) (db : β), i < xs.length →
        f (xs.getD i da) = .ok (l.getD i db)
  | [], l, h, i, da, db, hi => absurd hi (by simp)
  | a :: as, l, h, i, da, db, hi => by
    rw [exceptMap] at h
    split at h
    · exact Except.noConfusion h
    · rename_i b hb
      split at h
      · exact Except.noConfusion h
      · rename_i bs hbs
        injection h with h
        subst h
        match i with
        | 0 => simpa using hb
        | i + 1 =>
          have := exceptMap_ok_getD hbs i da db (by simpa using hi)
          simpa using this

theorem buildCell_ok_testBit {np mask b : Nat}
    (h : buildCell np mask = .ok b) : mask.testBit b = true := by
  rw [buildCell] at h
  split at h
  · exact Except.noConfusion h
  · rename_i b' hb'
    split at h
    · injection h with h
      subst h
      exact List.find?_some hb'
    · exact Except.noConfusion h

theorem buildResult_ok_cell {P : WfcParams} {wave : List Nat}
    {grid : List (List Nat)} (h : buildResult P wave = .ok grid)
    {x y : Nat} (hx : x < P.width) (hy : y < P.height) :
    buildCell P.num_patterns (wave.getD (x * P.height + y) 0) =
      .ok ((grid.getD x []).getD y 0) := by
  rw [buildResult] at h
  have hxr : (List.range P.width).getD x 0 = x := by
    simp [List.getD_eq_getElem?_getD, List.getElem?_range hx]
  have hyr : (List.range P.height).getD y 0 = y := by
    simp [List.getD_eq_getElem?_getD, List.getElem?_range hy]
  have hcol := exceptMap_ok_getD h x 0 [] (by simpa using hx)
  rw [hxr] at hcol
  have hcell := exceptMap_ok_getD hcol y 0 0 (by simpa using hy)
  rw [hyr] at hcell
  exact hcell

theorem trivOracle_valid : trivOracle.Valid := by
  intro w i h
  exact Option.noConfusion h

/-- C9: `wfc_solve` never modifies the caller's `initial_wave` buffer: on
every exit path, success or error, the caller's wave contents are unchanged,
because the solver copies the wave into a private buffer before any
mutation. -/
theorem wfc_initial_wave_untouched (P : WfcParams) (o : Oracle)
    (initial_wave : List Nat) :
    (catley_native_wfc_solve P o initial_wave).2 = initial_wave := by
  rw [catley_native_wfc_solve]
  split
  · rfl
  · split
    · rfl
    · dsimp only
      split
      · rfl
      · split
        · rfl
        · rename_i s' snd hinner
          have h1 : (wfc_solve_inner P o
              ⟨initial_wave, initial_wave, 0⟩).1 = .ok s' := by
            rw [hinner]
          exact wfc_solve_inner_caller h1

/-- C5: `wfc_solve` is deterministic — identical inputs (width, height,
num_patterns, propagation table, weights, wave, seed) and an identical
selection oracle produce identical results.  In the embedding the entropy
heap and the PRNG are summarized by the oracle; the C derives both
deterministically from the seed via splitmix64/xoshiro128++ (`rng_init`,
`rng_next_u32`), so equal inputs induce an equal oracle. -/
theorem wfc_solve_deterministic (o : Oracle) (P₁ P₂ : WfcParams)
    (w₁ w₂ : List Nat) (hP : P₁ = P₂) (hw : w₁ = w₂) :
    catley_native_wfc_solve P₁ o w₁ = catley_native_wfc_solve P₂ o w₂ := by
  rw [hP, hw]

theorem wfc_solve_deterministic_witness :
    unitParams = unitParams ∧ ([1] : List Nat) = [1] ∧
      catley_native_wfc_solve unitParams trivOracle [1] =
        catley_native_wfc_solve unitParams trivOracle [1] :=
  ⟨rfl, rfl, wfc_solve_deterministic trivOracle unitParams unitParams [1] [1] rfl rfl⟩

/-- C4: for every successful `wfc_solve` run, the pattern index returned for
each cell was a set bit of that cell's mask in the caller's `initial_wave`
(a consequence of the wave-shrinking invariant `WaveLe`: collapse picks a set
bit of the current mask and propagation only intersects masks). -/
theorem wfc_output_bit_from_initial_wave (P : WfcParams) (o : Oracle)
    (hv : o.Valid) (initial_wave : List Nat) (grid : List (List Nat))
    (hrun : (catley_native_wfc_solve P o initial_wave).1 = .ok grid)
    (x y : Nat) (hx : x < P.width) (hy : y < P.height) :
    (initial_wave.getD (x * P.height + y) 0).testBit
      ((grid.getD x []).getD y 0) = true := by
  rw [catley_native_wfc_solve] at hrun
  split at hrun
  · exact Except.noConfusion hrun
  · split at hrun
    · exact Except.noConfusion hrun
    · dsimp only at hrun
      split at hrun
      · exact Except.noConfusion hrun
      · split at hrun
        · exact Except.noConfusion hrun
        · rename_i s' snd hinner
          dsimp only at hrun
          have h1 : (wfc_solve_inner P o
              ⟨initial_wave, initial_wave, 0⟩).1 = .ok s' := by
            rw [hinner]
          have hb := buildResult_ok_cell hrun hx hy
          have ht := buildCell_ok_testBit hb
          have hle := (wfc_solve_inner_spec hv h1).2
          exact submask_iff_testBit.mp (hle.2 (x * P.height + y)) _ ht

theorem wfc_output_bit_from_initial_wave_witness :
    trivOracle.Valid ∧
      (catley_native_wfc_solve unitParams trivOracle [1]).1 = .ok [[0]] ∧
      0 < unitParams.width ∧ 0 < unitParams.height ∧
      (([1] : List Nat).getD (0 * unitParams.height + 0) 0).testBit
        (([[0]].getD 0 []).getD 0 0) = true :=
  ⟨trivOracle_valid, by rfl, by decide, by decide,
    wfc_output_bit_from_initial_wave unitParams trivOracle trivOracle_valid
      [1] [[0]] (by rfl) 0 0 (by decide) (by decide)⟩

theorem popcount_zero : popcount 0 = 0 := by decide

theorem cell_index_lt {x y W H : Nat} (hx : x < W) (hy : y < H) :
    x * H + y < W * H := by
  calc x * H + y < x * H + H := by omega
  _ = (x + 1) * H := by ring
  _ ≤ W * H := Nat.mul_le_mul_right H hx

theorem byte_no_stray {np m : Nat} (hnp : np ≤ 8) (hm : m < 2 ^ np) :
    m &&& (255 ^^^ (1 <<< np - 1)) = 0 := by
  apply Nat.eq_of_testBit_eq
  intro i
  simp only [Nat.testBit_and, Nat.testBit_xor, Nat.zero_testBit,
    Nat.shiftLeft_eq, Nat.one_mul]
  by_cases hi : i < np
  · have h255 : (255 : Nat).testBit i = true := by
      have : (255 : Nat) = 2 ^ 8 - 1 := by norm_num
      rw [this, Nat.testBit_two_pow_sub_one]
      simp
      omega
    rw [h255, Nat.testBit_two_pow_sub_one]
    simp [hi]
  · have : m < 2 ^ i := lt_of_lt_of_le hm (Nat.pow_le_pow_right (by norm_num) (by omega))
    rw [Nat.testBit_lt_two_pow this]
    rfl

set_option maxRecDepth 4000 in
theorem single_bit_index_isSome :
    ∀ np < 9, ∀ m < 2 ^ np, popcount m = 1 →
      (single_bit_index m np).isSome = true := by decide

theorem exceptMap_ok_of_forall {α β : Type} {f : α → Except WfcError β}
    {g : α → β} :
    ∀ {xs : List α}, (∀ a ∈ xs, f a = .ok (g a)) →
      exceptMap f xs = .ok (xs.map g)
  | [], _ => rfl
  | a :: as, h => by
    rw [exceptMap, h a (by simp), exceptMap_ok_of_forall
      (fun b hb => h b (List.mem_cons_of_mem _ hb))]
    rfl

/-- C10: if every cell of a valid initial wave is already collapsed (exactly
one set bit, all bits within `num_patterns`), `wfc_solve` succeeds and
returns exactly the grid of those bit indices, for every propagation table,
pattern-weight vector, seed and selection oracle — the collapse loop and
propagation never run and the oracle (entropy heap / PRNG) is never
consulted, as the stated result is the same for every oracle. -/
theorem wfc_precollapsed_identity (P : WfcParams) (o : Oracle)
    (w : List Nat)
    (hw : 0 < P.width) (hh : 0 < P.height) (hnp : 0 < P.num_patterns)
    (hnp8 : P.num_patterns ≤ 8) (hlen : w.length = P.width * P.height)
    (hcells : ∀ m ∈ w, popcount m = 1 ∧ m < 2 ^ P.num_patterns) :
    (catley_native_wfc_solve P o w).1 =
      .ok ((List.range P.width).map fun x =>
        (List.range P.height).map fun y =>
          (single_bit_index (w.getD (x * P.height + y) 0)
            P.num_patterns).getD 0) := by
  have hnz : ∀ m ∈ w, m ≠ 0 := by
    intro m hm h0
    have := (hcells m hm).1
    rw [h0, popcount_zero] at this
    exact absurd this (by norm_num)
  have hcount : w.countP (fun m => decide (1 < popcount m)) = 0 := by
    rw [List.countP_eq_zero]
    intro m hm
    simp [(hcells m hm).1]
  have hfc : finalCheck w = true := by
    rw [finalCheck, List.all_eq_true]
    intro m hm
    simp [(hcells m hm).1]
  have hinner : wfc_solve_inner P o ⟨w, w, 0⟩ = (.ok ⟨w, w, ((0 : Nat) : Int)⟩, 0) := by
    rw [wfc_solve_inner]
    rw [if_neg]
    · dsimp only
      rw [hcount, collapseLoop.eq_def]
      rw [if_neg (by norm_num)]
      rw [hfc]
      rfl
    · simp only [List.any_eq_true, not_exists]
      intro m
      simp only [decide_eq_true_eq, not_and]
      intro hm
      exact hnz m hm
  rw [catley_native_wfc_solve,
    if_neg (by omega : ¬(P.width = 0 ∨ P.height = 0)),
    if_neg (by omega : ¬(P.num_patterns = 0 ∨ 8 < P.num_patterns))]
  dsimp only
  rw [if_neg]
  · rw [hinner]
    dsimp only
    rw [buildResult]
    rw [exceptMap_ok_of_forall]
    intro x hx
    rw [exceptMap_ok_of_forall]
    intro y hy
    rw [List.mem_range] at hx hy
    have hidx : x * P.height + y < w.length := by
      rw [hlen]; exact cell_index_lt hx hy
    have hmem : w.getD (x * P.height + y) 0 ∈ w := by
      rw [List.getD_eq_getElem?_getD, List.getElem?_eq_getElem hidx]
      exact List.getElem_mem hidx
    obtain ⟨hpc, hlt⟩ := hcells _ hmem
    have hsome := single_bit_index_isSome P.num_patterns (by omega) _ hlt hpc
    obtain ⟨b, hb⟩ := Option.isSome_iff_exists.mp hsome
    rw [buildCell, hb]
    dsimp only
    rw [if_pos hpc]
    rfl
  · simp only [List.any_eq_true, not_exists]
    intro m
    simp only [decide_eq_true_eq, not_and]
    intro hm
    exact not_not_intro (byte_no_stray hnp8 (hcells m hm).2)


theorem collapseLoop_iters_le {P : WfcParams} {o : Oracle} :
    ∀ (fuel iters : Nat) (s : SolverSt),
      (collapseLoop P o fuel iters s).2 ≤ iters + fuel + 1 ∧
      ((collapseLoop P o fuel iters s).2 = iters + fuel + 1 →
        (collapseLoop P o fuel iters s).1 = .error .contradiction) := by
  intro fuel
  induction fuel with
  | zero =>
    intro iters s
    rw [collapseLoop]
    split
    · exact ⟨by omega, fun _ => rfl⟩
    · refine ⟨by dsimp only; omega, fun h => absurd h (by dsimp only; omega)⟩
  | succ fuel ih =>
    intro iters s
    rw [collapseLoop]
    split
    · split
      · refine ⟨by dsimp only; omega, fun h => absurd h (by dsimp only; omega)⟩
      · dsimp only
        split
        · refine ⟨by dsimp only; omega, fun h => absurd h (by dsimp only; omega)⟩
        · rename_i s2 hprop
          obtain ⟨h1, h2⟩ := ih (iters + 1) s2
          refine ⟨by omega, fun h => h2 (by omega)⟩
    · refine ⟨by dsimp only; omega, fun h => absurd h (by dsimp only; omega)⟩

/-- C8: the `iterations` counter of the outer collapse loop (returned as the
second component of `wfc_solve_inner`) never exceeds `2 * width * height`,
and if it reaches that cap the call reports exactly the `Contradiction`
error, not any other outcome. -/
theorem wfc_outer_loop_capped (P : WfcParams) (o : Oracle) (s : SolverSt)
    (hw : 0 < P.width) (hh : 0 < P.height) :
    (wfc_solve_inner P o s).2 ≤ 2 * (P.width * P.height) ∧
      ((wfc_solve_inner P o s).2 = 2 * (P.width * P.height) →
        (wfc_solve_inner P o s).1 = .error .contradiction) := by
  have hpos : 0 < P.width * P.height := Nat.mul_pos hw hh
  rw [wfc_solve_inner]
  split
  · exact ⟨by dsimp only; omega, fun h => absurd h (by dsimp only; omega)⟩
  · dsimp only
    obtain ⟨h1, h2⟩ := collapseLoop_iters_le (P := P) (o := o)
      (P.width * P.height * 2 - 1) 0
      { s with uncollapsed :=
          ((s.wave.countP fun m => decide (1 < popcount m) : Nat) : Int) }
    exact ⟨by omega, fun h => h2 (by omega)⟩

theorem wfc_outer_loop_capped_witness :
    0 < unitParams.width ∧ 0 < unitParams.height ∧
      ((wfc_solve_inner unitParams trivOracle ⟨[1], [1], 0⟩).2 ≤
          2 * (unitParams.width * unitParams.height) ∧
        ((wfc_solve_inner unitParams trivOracle ⟨[1], [1], 0⟩).2 =
            2 * (unitParams.width * unitParams.height) →
          (wfc_solve_inner unitParams trivOracle ⟨[1], [1], 0⟩).1 =
            .error .contradiction)) :=
  ⟨by decide, by decide,
    wfc_outer_loop_capped unitParams trivOracle ⟨[1], [1], 0⟩
      (by decide) (by decide)⟩

theorem index_pair_eq {h a b c d : Nat} (hb : b < h) (hd : d < h)
    (heq : a * h + b = c * h + d) : a = c ∧ b = d := by
  have h0 : 0 < h := by omega
  have ha : a = c := by
    have hdiv := congrArg (· / h) heq
    simp only [mul_comm _ h] at hdiv
    rw [Nat.mul_add_div h0, Nat.mul_add_div h0,
      Nat.div_eq_of_lt hb, Nat.div_eq_of_lt hd] at hdiv
    simpa using hdiv
  subst ha
  exact ⟨rfl, by omega⟩

theorem dirInBounds_y_lt {P : WfcParams} {x y d : Nat}
    (hin : dirInBounds P x y d) :
    ((y : Int) + DIR_DY d).toNat < P.height := by
  rw [dirInBounds] at hin
  omega

/-- Distinct in-bounds directions from the same cell reach distinct cells. -/
theorem nidxOf_ne {P : WfcParams} {x y : Nat} {d d' : Nat}
    (hd : d < 4) (hd' : d' < 4) (hne : d ≠ d')
    (h1 : dirInBounds P x y d) (h2 : dirInBounds P x y d') :
    nidxOf P x y d ≠ nidxOf P x y d' := by
  intro heq
  rw [nidxOf, nidxOf] at heq
  obtain ⟨hx, hy⟩ :=
    index_pair_eq (dirInBounds_y_lt h1) (dirInBounds_y_lt h2) heq
  rw [dirInBounds] at h1 h2
  interval_cases d <;> interval_cases d' <;>
    simp only [DIR_DX, DIR_DY] at hx hy h1 h2 hne <;> omega

/-- An in-bounds neighbor is a different cell than the cell itself. -/
theorem nidxOf_ne_self {P : WfcParams} {x y d : Nat} (hy : y < P.height)
    (hd : d < 4) (hin : dirInBounds P x y d) :
    nidxOf P x y d ≠ x * P.height + y := by
  intro heq
  rw [nidxOf] at heq
  obtain ⟨hx, hy'⟩ := index_pair_eq (dirInBounds_y_lt hin) hy heq
  rw [dirInBounds] at hin
  interval_cases d <;> simp only [DIR_DX, DIR_DY] at hx hy' hin <;> omega

theorem eq_shift_of_submask {m a : Nat} (hsub : Submask m (1 <<< a))
    (hne : m ≠ 0) : m = 1 <<< a := by
  rw [Nat.shiftLeft_eq, Nat.one_mul] at *
  obtain ⟨i, hi⟩ := Nat.ne_zero_implies_bit_true hne
  have hia : i = a := by
    have := submask_iff_testBit.mp hsub i hi
    rw [Nat.testBit_two_pow] at this
    have := (decide_eq_true_eq.mp this).symm
    omega
  subst hia
  apply Nat.eq_of_testBit_eq
  intro j
  by_cases hij : j = i
  · subst hij
    rw [hi, Nat.testBit_two_pow_self]
  · rw [Nat.testBit_two_pow_of_ne (by omega)]
    by_cases hj : m.testBit j
    · have := submask_iff_testBit.mp hsub j hj
      rw [Nat.testBit_two_pow_of_ne (by omega)] at this
      exact absurd this (by simp)
    · simpa using hj

theorem popcount_one_ne_zero {m : Nat} (h : popcount m = 1) : m ≠ 0 := by
  intro h0
  subst h0
  simp [popcount_zero] at h

theorem collapseLoop_finalCheck {P : WfcParams} {o : Oracle} :
    ∀ (fuel iters : Nat) (s s' : SolverSt),
      (collapseLoop P o fuel iters s).1 = .ok s' →
      finalCheck s'.wave = true := by
  intro fuel
  induction fuel with
  | zero =>
    intro iters s s' h
    rw [collapseLoop] at h
    split at h
    · exact Except.noConfusion h
    · split at h
      · rename_i hfc
        injection h with h
        subst h
        exact hfc
      · exact Except.noConfusion h
  | succ fuel ih =>
    intro iters s s' h
    rw [collapseLoop] at h
    split at h
    · split at h
      · split at h
        · rename_i hfc
          injection h with h
          subst h
          exact hfc
        · exact Except.noConfusion h
      · dsimp only at h
        split at h
        · exact Except.noConfusion h
        · exact ih _ _ _ h
    · split at h
      · rename_i hfc
        injection h with h
        subst h
        exact hfc
      · exact Except.noConfusion h

/-- C1 (amended): adjacency consistency holds for the propagation the solver
actually performs.  Whenever the main loop collapses cell `u` to pattern `a`
at a moment when the in-bounds `dir`-neighbor of `u` still has more than
one possible pattern, then in any successful continuation the source cell
ends as pattern `a` and every set bit `b` of the neighbor's final mask (in
particular the pattern chosen there) is set in
`propagation_masks[dir][1 << a]`.  The unamended claim — for *every*
adjacent pair of the returned grid — fails for pairs the solver never
propagates across, such as cells pre-collapsed in the initial wave (see the
counterexample). -/
theorem wfc_adjacent_consistency_amended
    (P : WfcParams) (o : Oracle) (hv : o.Valid)
    (fuel iters : Nat) (s sF : SolverSt) (u a dir b : Nat)
    (hdir : dir < 4)
    (hlen : s.wave.length = P.width * P.height)
    (hpos : 0 < s.uncollapsed)
    (hpick : o.pickCell s.wave = some u)
    (hbit : o.pickBit s.wave u = a)
    (hin : dirInBounds P (u / P.height) (u % P.height) dir)
    (hmulti : 1 < popcount
      (s.wave.getD (nidxOf P (u / P.height) (u % P.height) dir) 0))
    (hrun : (collapseLoop P o fuel iters s).1 = .ok sF)
    (hb : (sF.wave.getD
      (nidxOf P (u / P.height) (u % P.height) dir) 0).testBit b = true) :
    sF.wave.getD u 0 = 1 <<< a ∧
      (P.propagation_masks dir (1 <<< a)).testBit b = true := by
  obtain ⟨hu_lt, hu_multi, hu_bit⟩ := hv s.wave u hpick
  have hh : 0 < P.height := by
    rcases Nat.eq_zero_or_pos P.height with h0 | h
    · rw [h0, Nat.mul_zero] at hlen; omega
    · exact h
  have hy : u % P.height < P.height := Nat.mod_lt _ hh
  have hxy : (u / P.height) * P.height + u % P.height = u := by
    rw [Nat.mul_comm]
    exact Nat.div_add_mod u P.height
  have hvne : nidxOf P (u / P.height) (u % P.height) dir ≠ u := by
    have := nidxOf_ne_self hy hdir hin
    rw [hxy] at this
    exact this
  match fuel with
  | 0 =>
    rw [collapseLoop, if_pos hpos] at hrun
    exact absurd hrun (by simp)
  | fuel + 1 =>
    rw [collapseLoop, if_pos hpos] at hrun
    dsimp only at hrun
    rw [hpick] at hrun
    dsimp only at hrun
    rw [hbit] at hrun
    split at hrun
    · exact Except.noConfusion hrun
    · rename_i s2 hprop
      rw [propagate] at hprop
      split at hprop
      · exact Option.noConfusion hprop
      · rename_i pr s2' snd hpl
        injection hprop with hprop
        subst hprop
        obtain ⟨f₀, hf₀⟩ : ∃ f₀, P.width * P.height * 10 - 1 = f₀ + 1 :=
          ⟨P.width * P.height * 10 - 2, by
            have : 0 < P.width * P.height := by omega
            omega⟩
        rw [hf₀] at hpl
        simp only [propLoop] at hpl
        have hcur : (s.wave.set u (1 <<< a)).getD u 0 = 1 <<< a := by
          rw [getD_set_eq_ite, if_pos ⟨rfl, hu_lt⟩]
        rw [hcur] at hpl
        split at hpl
        · exact Option.noConfusion hpl
        · rename_i acc hpd
          -- entry state of the direction sweep
          have hv_entry :
              (s.wave.set u (1 <<< a)).getD
                (nidxOf P (u / P.height) (u % P.height) dir) 0 =
              s.wave.getD (nidxOf P (u / P.height) (u % P.height) dir) 0 := by
            rw [getD_set_eq_ite, if_neg]
            intro hc
            exact hvne hc.1.symm
          have hmulti' : 1 < popcount
              ((s.wave.set u (1 <<< a)).getD
                (nidxOf P (u / P.height) (u % P.height) dir) 0) := by
            rw [hv_entry]; exact hmulti
          have htar : Submask
              (acc.1.wave.getD
                (nidxOf P (u / P.height) (u % P.height) dir) 0)
              (P.propagation_masks dir (1 <<< a)) := by
            interval_cases dir
            · refine processDirs_target [] [1, 2, 3] _ _ hpd hin hmulti' ?_
              intro d' hd' hinb
              fin_cases hd' <;>
                exact nidxOf_ne (by omega) (by omega) (by omega) hin hinb
            · refine processDirs_target [0] [2, 3] _ _ hpd hin hmulti' ?_
              intro d' hd' hinb
              fin_cases hd' <;>
                exact nidxOf_ne (by omega) (by omega) (by omega) hin hinb
            · refine processDirs_target [0, 1] [3] _ _ hpd hin hmulti' ?_
              intro d' hd' hinb
              fin_cases hd' <;>
                exact nidxOf_ne (by omega) (by omega) (by omega) hin hinb
            · refine processDirs_target [0, 1, 2] [] _ _ hpd hin hmulti' ?_
              intro d' hd' hinb
              fin_cases hd' <;>
                exact nidxOf_ne (by omega) (by omega) (by omega) hin hinb
          have hle1 : WaveLe s2'.wave acc.1.wave :=
            (propLoop_spec f₀ acc (s2', snd) hpl).2
          have hle2 : WaveLe sF.wave s2'.wave :=
            (collapseLoop_spec hv fuel (iters + 1) s2' sF hrun).2
          have hleF : WaveLe sF.wave acc.1.wave := waveLe_trans hle2 hle1
          constructor
          · -- the source cell ends as pattern a
            have hle0 : WaveLe acc.1.wave (s.wave.set u (1 <<< a)) :=
              (processDirs_spec _ _ _ hpd).2.1
            have hsub : Submask (sF.wave.getD u 0) (1 <<< a) := by
              have := (waveLe_trans hleF hle0).2 u
              rw [hcur] at this
              exact this
            have hlenF : sF.wave.length = s.wave.length := by
              have h1 := (waveLe_trans hleF hle0).1
              rw [h1, List.length_set]
            have hfc := collapseLoop_finalCheck fuel (iters + 1) s2' sF hrun
            rw [finalCheck, List.all_eq_true] at hfc
            have humem : sF.wave.getD u 0 ∈ sF.wave := by
              have hult : u < sF.wave.length := by omega
              rw [List.getD_eq_getElem?_getD, List.getElem?_eq_getElem hult]
              exact List.getElem_mem hult
            have hpc := hfc _ humem
            simp only [decide_eq_true_eq] at hpc
            exact eq_shift_of_submask hsub (popcount_one_ne_zero hpc)
          · -- the neighbor's final bits are inside the table entry
            have hsub := submask_trans (hleF.2
              (nidxOf P (u / P.height) (u % P.height) dir)) htar
            exact submask_iff_testBit.mp hsub b hb

theorem firstOracle_valid : firstOracle.Valid := by
  intro w i h
  simp only [firstOracle] at h
  have hmem := List.find?_some h
  have hin : i ∈ List.range w.length := List.mem_of_find?_eq_some h
  rw [List.mem_range] at hin
  simp only [decide_eq_true_eq] at hmem
  refine ⟨hin, hmem, ?_⟩
  have hex : ∃ b ∈ List.range 8, (w.getD i 0).testBit b = true := by
    have hpos : 0 < popcount (w.getD i 0) := by omega
    rw [popcount] at hpos
    obtain ⟨b, hb1, hb2⟩ := List.countP_pos_iff.mp hpos
    exact ⟨b, hb1, by simpa using hb2⟩
  obtain ⟨b, hbmem, hbbit⟩ := hex
  have hsome : ((List.range 8).find?
      (fun b => (w.getD i 0).testBit b)).isSome = true := by
    rw [List.find?_isSome]
    exact ⟨b, hbmem, by simpa using hbbit⟩
  obtain ⟨b', hb'⟩ := Option.isSome_iff_exists.mp hsome
  simp only [firstOracle, hb', Option.getD_some]
  exact List.find?_some hb'

theorem wfc_adjacent_consistency_amended_witness :
    (1 : Nat) < 4 ∧
      ([3, 3] : List Nat).length = propParams.width * propParams.height ∧
      (0 : Int) < 2 ∧
      firstOracle.pickCell [3, 3] = some 0 ∧
      firstOracle.pickBit [3, 3] 0 = 0 ∧
      dirInBounds propParams (0 / propParams.height) (0 % propParams.height) 1 ∧
      1 < popcount (([3, 3] : List Nat).getD
        (nidxOf propParams (0 / propParams.height) (0 % propParams.height) 1) 0) ∧
      (collapseLoop propParams firstOracle 3 0 ⟨[3, 3], [3, 3], 2⟩).1 =
        .ok ⟨[3, 3], [1, 2], 0⟩ ∧
      ((⟨[3, 3], [1, 2], 0⟩ : SolverSt).wave.getD
        (nidxOf propParams (0 / propParams.height) (0 % propParams.height) 1)
          0).testBit 1 = true ∧
      ((⟨[3, 3], [1, 2], 0⟩ : SolverSt).wave.getD 0 0 = 1 <<< 0 ∧
        (propParams.propagation_masks 1 (1 <<< 0)).testBit 1 = true) :=
  ⟨by decide, by decide, by decide, by rfl, by rfl, by decide, by decide,
    by rfl, by rfl,
    wfc_adjacent_consistency_amended propParams firstOracle firstOracle_valid
      3 0 ⟨[3, 3], [3, 3], 2⟩ ⟨[3, 3], [1, 2], 0⟩ 0 0 1 1
      (by decide) (by decide) (by decide) (by rfl) (by rfl) (by decide)
      (by decide) (by rfl) (by rfl)⟩

/-- C1 fails on the code as stated: with the all-zero propagation table of
`pairParams` and the already-collapsed wave `[1, 2]` (cell 0 is pattern 0,
its east neighbor cell 1 is pattern 1), the solve succeeds and returns
`[[0], [1]]`, although bit 1 is clear in every table entry — in particular
in `propagation_masks[dir][1 <<< 0]` for every direction `dir` — because
cells that are collapsed in the initial wave are never propagated across or
checked against the table. -/
theorem wfc_adjacent_consistency_counterexample :
    (catley_native_wfc_solve pairParams trivOracle [1, 2]).1 =
      .ok [[0], [1]] ∧
    ∀ dir : Nat,
      (pairParams.propagation_masks dir (1 <<< 0)).testBit 1 = false :=
  ⟨by rfl, fun dir => Nat.zero_testBit 1⟩

theorem wfc_precollapsed_identity_witness :
    (0 < pairParams.width ∧ 0 < pairParams.height ∧
      0 < pairParams.num_patterns ∧ pairParams.num_patterns ≤ 8 ∧
      ([1, 2] : List Nat).length = pairParams.width * pairParams.height ∧
      ∀ m ∈ ([1, 2] : List Nat),
        popcount m = 1 ∧ m < 2 ^ pairParams.num_patterns) ∧
    (catley_native_wfc_solve pairParams trivOracle [1, 2]).1 =
      .ok ((List.range pairParams.width).map fun x =>
        (List.range pairParams.height).map fun y =>
          (single_bit_index
            (([1, 2] : List Nat).getD (x * pairParams.height + y) 0)
            pairParams.num_patterns).getD 0) :=
  ⟨⟨by decide, by decide, by decide, by decide, by decide, by decide⟩,
    wfc_precollapsed_identity pairParams trivOracle [1, 2] (by decide)
      (by decide) (by decide) (by decide) (by decide) (by decide)⟩

end Wfc

namespace Fov

theorem neg_tmod (a b : Int) : (-a).tmod b = -(a.tmod b) := by
  rw [Int.tmod_def, Int.tmod_def, Int.neg_tdiv]
  ring

theorem tmod_bounds {a den : Int} (h : 0 < den) :
    -den < a.tmod den ∧ a.tmod den < den := by
  rcases le_or_lt 0 a with ha | ha
  · have h1 := Int.tmod_nonneg den ha
    have h2 := Int.tmod_lt_of_pos a h
    constructor <;> omega
  · have h1 := Int.tmod_nonneg den (by omega : (0:Int) ≤ -a)
    have h2 := Int.tmod_lt_of_pos (-a) h
    rw [neg_tmod] at h1 h2
    constructor <;> omega

theorem floor_div_bounds {num den : Int} (h : 0 < den) :
    den * floor_div num den ≤ num ∧ num < den * (floor_div num den + 1) := by
  have hqr := Int.tdiv_add_tmod num den
  have hb := tmod_bounds (a := num) h
  rw [floor_div]
  split
  · next hc =>
    obtain ⟨hr0, hiff⟩ := hc
    have hr : num.tmod den < 0 := by
      rcases lt_trichotomy (num.tmod den) 0 with h' | h' | h'
      · exact h'
      · exact absurd h' hr0
      · exact absurd (iff_of_true h' h) hiff
    constructor <;> nlinarith [hb.1, hb.2]
  · next hc =>
    have hr : 0 ≤ num.tmod den := by
      by_cases hr0 : num.tmod den = 0
      · omega
      · rcases not_and_or.mp hc with h' | h'
        · exact absurd hr0 (by simpa using h')
        · rw [not_not] at h'
          have := h'.mpr h
          omega
    constructor <;> nlinarith [hb.2]

theorem ceil_div_bounds {num den : Int} (h : 0 < den) :
    den * (ceil_div num den - 1) < num ∧ num ≤ den * ceil_div num den := by
  have hqr := Int.tdiv_add_tmod num den
  have hb := tmod_bounds (a := num) h
  rw [ceil_div]
  split
  · next hc =>
    obtain ⟨hr0, hiff⟩ := hc
    have hr : 0 < num.tmod den := by
      rcases lt_trichotomy (num.tmod den) 0 with h' | h' | h'
      · have := hiff.mpr h
        omega
      · exact absurd h' hr0
      · exact h'
    constructor <;> nlinarith [hb.1, hb.2]
  · next hc =>
    have hr : num.tmod den ≤ 0 := by
      by_cases hr0 : num.tmod den = 0
      · omega
      · rcases not_and_or.mp hc with h' | h'
        · exact absurd hr0 (by simpa using h')
        · by_contra hpos
          exact h' (iff_of_true (by omega) h)
    constructor <;> nlinarith [hb.1]

theorem getD_set_ite {α : Type} (w : List α) (n j : Nat) (a d : α) :
    (w.set n a).getD j d = if n = j ∧ j < w.length then a else w.getD j d := by
  simp only [List.getD_eq_getElem?_getD, List.getElem?_set']
  by_cases h : n = j
  · subst h
    by_cases hl : n < w.length
    · simp [List.getElem?_eq_getElem hl, hl]
    · simp [List.getElem?_eq_none (Nat.le_of_not_lt hl), hl]
  · simp [h]

theorem colRange_mem {lo hi c : Int} (h : c ∈ colRange lo hi) :
    lo ≤ c ∧ c ≤ hi := by
  rw [colRange] at h
  obtain ⟨i, hi', hc⟩ := List.mem_map.mp h
  rw [List.mem_range] at hi'
  subst hc
  constructor
  · omega
  · omega

theorem colRange_cons {lo hi : Int} (h : lo ≤ hi) :
    colRange lo hi = lo :: colRange (lo + 1) hi := by
  rw [colRange, colRange]
  have h1 : (hi + 1 - lo).toNat = (hi + 1 - (lo + 1)).toNat + 1 := by omega
  rw [h1, List.range_succ_eq_map]
  simp only [List.map_cons, List.map_map]
  refine List.cons_eq_cons.mpr ⟨by omega, ?_⟩
  apply List.map_congr_left
  intro i _
  simp only [Function.comp_apply, Nat.succ_eq_add_one]
  push_cast
  ring

theorem colRange_nil {lo hi : Int} (h : hi < lo) : colRange lo hi = [] := by
  rw [colRange]
  have : (hi + 1 - lo).toNat = 0 := by omega
  rw [this]
  rfl

theorem min_col_ge {sec : Sector} (hs : SecOk sec) :
    -sec.depth ≤
      floor_div (2 * sec.depth * sec.s_num + sec.s_den) (2 * sec.s_den) := by
  obtain ⟨hd, hsd, _, hsn, _⟩ := hs
  have hden : (0 : Int) < 2 * sec.s_den := by omega
  obtain ⟨h1, h2⟩ := @floor_div_bounds
    (2 * sec.depth * sec.s_num + sec.s_den) (2 * sec.s_den) hden
  by_contra hcon
  push_neg at hcon
  have hle : floor_div (2 * sec.depth * sec.s_num + sec.s_den)
      (2 * sec.s_den) + 1 ≤ -sec.depth := by omega
  have h3 : 2 * sec.s_den * (floor_div (2 * sec.depth * sec.s_num + sec.s_den)
      (2 * sec.s_den) + 1) ≤ 2 * sec.s_den * (-sec.depth) :=
    mul_le_mul_of_nonneg_left hle (by omega)
  have h4 : 2 * sec.depth * (-sec.s_den) ≤ 2 * sec.depth * sec.s_num :=
    mul_le_mul_of_nonneg_left hsn (by omega)
  nlinarith

theorem max_col_le {sec : Sector} (hs : SecOk sec) :
    ceil_div (2 * sec.depth * sec.e_num - sec.e_den) (2 * sec.e_den) ≤
      sec.depth := by
  obtain ⟨hd, _, hed, _, hen⟩ := hs
  have hden : (0 : Int) < 2 * sec.e_den := by omega
  obtain ⟨h1, h2⟩ := @ceil_div_bounds
    (2 * sec.depth * sec.e_num - sec.e_den) (2 * sec.e_den) hden
  by_contra hcon
  push_neg at hcon
  have hle : sec.depth ≤ ceil_div (2 * sec.depth * sec.e_num - sec.e_den)
      (2 * sec.e_den) - 1 := by omega
  have h3 : 2 * sec.e_den * sec.depth ≤ 2 * sec.e_den *
      (ceil_div (2 * sec.depth * sec.e_num - sec.e_den) (2 * sec.e_den) - 1) :=
    mul_le_mul_of_nonneg_left hle (by omega)
  have h4 : 2 * sec.depth * sec.e_num ≤ 2 * sec.depth * sec.e_den :=
    mul_le_mul_of_nonneg_left hen (by omega)
  nlinarith

theorem tGet_visSet {g : List (List Nat)} {a b x y : Nat}
    (h : tGet (visSet g a b) x y = 1) :
    tGet g x y = 1 ∨ (x = a ∧ y = b) := by
  rw [tGet, visSet, getD_set_ite] at h
  split at h
  · next hc =>
    rw [getD_set_ite] at h
    split at h
    · next hc2 => exact Or.inr ⟨hc.1.symm, hc2.1.symm⟩
    · exact Or.inl (hc.1 ▸ h)
  · exact Or.inl h

theorem tGet_replicate_zero (W H x y : Nat) :
    tGet (List.replicate W (List.replicate H 0)) x y = 0 := by
  rw [tGet]
  rcases Nat.lt_or_ge x W with hx | hx
  · have h1 : (List.replicate W (List.replicate H (0:Nat))).getD x [] =
        List.replicate H 0 := by
      rw [List.getD_eq_getElem?_getD]
      simp [List.getElem?_replicate, hx]
    rw [h1, List.getD_eq_getElem?_getD]
    rcases Nat.lt_or_ge y H with hy | hy
    · simp [List.getElem?_replicate, hy]
    · simp [List.getElem?_eq_none
        (show (List.replicate H (0:Nat)).length ≤ y by simpa using hy)]
  · have h1 : (List.replicate W (List.replicate H (0:Nat))).getD x [] = [] := by
      rw [List.getD_eq_getElem?_getD]
      simp [List.getElem?_eq_none
        (show (List.replicate W (List.replicate H (0:Nat))).length ≤ x by
          simpa using hx)]
    rw [h1]
    simp

/-- What one column step does to the visibility buffer: it marks at most the
current world tile, and only when that tile is in bounds. -/
theorem colStep_mark {env : ScanEnv} {d e_n e_d c : Int} {st : ColState}
    {x y : Nat}
    (h : tGet (colStep env d e_n e_d c st).visible x y = 1) :
    tGet st.visible x y = 1 ∨
      (in_bounds (env.ox + c * env.cx + d * env.dx)
          (env.oy + c * env.cy + d * env.dy) env.width env.height ∧
        x = (env.ox + c * env.cx + d * env.dx).toNat ∧
        y = (env.oy + c * env.cy + d * env.dy).toNat) := by
  rw [colStep] at h
  dsimp only at h
  split at h
  all_goals
    split at h
    · rename_i hc
      rcases tGet_visSet h with h' | h'
      · exact Or.inl h'
      · exact Or.inr ⟨hc.1, h'.1, h'.2⟩
    · exact Or.inl h

/-- One column step preserves the slope/stack invariant. -/
theorem colStep_inv {env : ScanEnv} {d e_n e_d c : Int} {st : ColState}
    (hd : 1 ≤ d) (hc_le : c ≤ d)
    (hc_ge : st.prev_was_wall ≠ -1 → -d + 1 ≤ c)
    (hsd : 0 < st.s_den) (hsn : -st.s_den ≤ st.s_num)
    (hstk : ∀ sec ∈ st.stack, SecOk sec) :
    0 < (colStep env d e_n e_d c st).s_den ∧
      -(colStep env d e_n e_d c st).s_den ≤ (colStep env d e_n e_d c st).s_num ∧
      (colStep env d e_n e_d c st).prev_was_wall ≠ -1 ∧
      ∀ sec ∈ (colStep env d e_n e_d c st).stack, SecOk sec := by
  rw [colStep]
  dsimp only
  by_cases htin : in_bounds (env.ox + c * env.cx + d * env.dx)
      (env.oy + c * env.cy + d * env.dy) env.width env.height
  all_goals
    first
      | simp only [if_pos htin]
      | simp only [if_neg htin]
  all_goals
    split
    · rename_i hprev
      split
      · dsimp only
        refine ⟨by omega, ?_, by split <;> simp, hstk⟩
        have := hc_ge hprev
        omega
      · split
        · refine ⟨hsd, hsn, by split <;> simp, ?_⟩
          intro sec hsec
          rcases List.mem_cons.mp hsec with h' | h'
          · subst h'
            exact ⟨by dsimp only; omega, hsd, by dsimp only; omega, hsn,
              by dsimp only; omega⟩
          · exact hstk sec h'
        · exact ⟨hsd, hsn, by split <;> simp, hstk⟩
    · exact ⟨hsd, hsn, by split <;> simp, hstk⟩

/-- The column loop preserves the slope/stack invariant. -/
theorem colLoop_inv {env : ScanEnv} {d e_n e_d : Int} (hd : 1 ≤ d)
    {lo hi : Int} (hlo : -d ≤ lo) (hhi : hi ≤ d) :
    ∀ (n : Nat) (c₀ : Int) (st : ColState), (hi + 1 - c₀).toNat = n →
      lo ≤ c₀ → (st.prev_was_wall ≠ -1 → lo + 1 ≤ c₀) →
      0 < st.s_den → -st.s_den ≤ st.s_num →
      (∀ sec ∈ st.stack, SecOk sec) →
      0 < (colLoop env d e_n e_d (colRange c₀ hi) st).s_den ∧
        -(colLoop env d e_n e_d (colRange c₀ hi) st).s_den ≤
          (colLoop env d e_n e_d (colRange c₀ hi) st).s_num ∧
        ∀ sec ∈ (colLoop env d e_n e_d (colRange c₀ hi) st).stack, SecOk sec
  | 0, c₀, st, hn, _, _, hsd, hsn, hstk => by
    rw [colRange_nil (by omega)]
    exact ⟨hsd, hsn, hstk⟩
  | n + 1, c₀, st, hn, hc₀, hprev, hsd, hsn, hstk => by
    rw [colRange_cons (by omega), colLoop]
    obtain ⟨h1, h2, h3, h4⟩ := @colStep_inv env d e_n e_d c₀ st hd
      (by omega) (fun hp => by have := hprev hp; omega)
      hsd hsn hstk
    exact colLoop_inv hd hlo hhi n (c₀ + 1) _ (by omega) (by omega)
      (fun _ => by omega) h1 h2 h4

/-- Through the column loop: every newly marked cell is the world tile of one
of the processed columns (and that tile is in bounds). -/
theorem colLoop_mark {env : ScanEnv} {d e_n e_d : Int} :
    ∀ (cols : List Int) (st : ColState) {x y : Nat},
      tGet (colLoop env d e_n e_d cols st).visible x y = 1 →
      tGet st.visible x y = 1 ∨ ∃ c ∈ cols,
        in_bounds (env.ox + c * env.cx + d * env.dx)
            (env.oy + c * env.cy + d * env.dy) env.width env.height ∧
          x = (env.ox + c * env.cx + d * env.dx).toNat ∧
          y = (env.oy + c * env.cy + d * env.dy).toNat
  | [], st, x, y, h => Or.inl h
  | c :: cs, st, x, y, h => by
    rcases colLoop_mark cs _ h with h' | ⟨c', hc', hrest⟩
    · rcases colStep_mark h' with h'' | h''
      · exact Or.inl h''
      · exact Or.inr ⟨c, List.mem_cons_self _ _, h''⟩
    · exact Or.inr ⟨c', List.mem_cons_of_mem _ hc', hrest⟩

/-- Through the sector loop: every newly marked cell is the world tile of
some column `c` at some depth `dep` with `1 ≤ dep ≤ radius`, `|c| ≤ dep`. -/
theorem scanLoop_mark {env : ScanEnv} :
    ∀ (fuel : Nat) (stack : List Sector) (vis : List (List Nat)) {x y : Nat},
      (∀ sec ∈ stack, SecOk sec) →
      tGet (scanLoop env fuel stack vis) x y = 1 →
      tGet vis x y = 1 ∨ ∃ dep c : Int, 1 ≤ dep ∧ dep ≤ env.radius ∧
        -dep ≤ c ∧ c ≤ dep ∧
        in_bounds (env.ox + c * env.cx + dep * env.dx)
          (env.oy + c * env.cy + dep * env.dy) env.width env.height ∧
        x = (env.ox + c * env.cx + dep * env.dx).toNat ∧
        y = (env.oy + c * env.cy + dep * env.dy).toNat
  | 0, _, vis, x, y, _, h => Or.inl h
  | _ + 1, [], vis, x, y, _, h => Or.inl h
  | fuel + 1, sec :: rest, vis, x, y, hstk, h => by
    rw [scanLoop] at h
    split at h
    · exact scanLoop_mark fuel rest vis
        (fun s hs => hstk s (List.mem_cons_of_mem _ hs)) h
    · rename_i hrad
      dsimp only at h
      have hsec := hstk sec (List.mem_cons_self _ _)
      have hlo := min_col_ge hsec
      have hhi := max_col_le hsec
      set lo := floor_div (2 * sec.depth * sec.s_num + sec.s_den)
        (2 * sec.s_den) with hlodef
      set hi := ceil_div (2 * sec.depth * sec.e_num - sec.e_den)
        (2 * sec.e_den) with hhidef
      set st0 : ColState :=
        { visible := vis, s_num := sec.s_num, s_den := sec.s_den,
          prev_was_wall := -1, stack := rest } with hst0def
      set st1 := colLoop env sec.depth sec.e_num sec.e_den (colRange lo hi) st0
        with hst1def
      have hci := @colLoop_inv env sec.depth sec.e_num sec.e_den hsec.1
        lo hi hlo hhi (hi + 1 - lo).toNat lo st0
        rfl (le_refl _) (fun hp => absurd rfl hp) hsec.2.1 hsec.2.2.2.1
        (fun s hs => hstk s (List.mem_cons_of_mem _ hs))
      rw [← hst1def] at hci
      obtain ⟨hsd', hsn', hstk'⟩ := hci
      have hstk2 : ∀ s ∈ (if st1.prev_was_wall = 0 then
          ({ depth := sec.depth + 1, s_num := st1.s_num, s_den := st1.s_den,
             e_num := sec.e_num, e_den := sec.e_den } : Sector) :: st1.stack
          else st1.stack), SecOk s := by
        split
        · intro s hs
          rcases List.mem_cons.mp hs with h' | h'
          · subst h'
            refine ⟨?_, hsd', hsec.2.2.1, hsn', hsec.2.2.2.2⟩
            dsimp only
            have := hsec.1
            omega
          · exact hstk' s h'
        · exact hstk'
      rcases scanLoop_mark fuel _ _ hstk2 h with h' | h'
      · rcases colLoop_mark _ _ h' with h'' | ⟨c, hc, hcin, hcx, hcy⟩
        · exact Or.inl h''
        · obtain ⟨hc1, hc2⟩ := colRange_mem hc
          exact Or.inr ⟨sec.depth, c, hsec.1, by omega, by omega, by omega,
            hcin, hcx, hcy⟩
      · exact Or.inr h'

theorem quad_cases (i : Nat) :
    QUADRANT_TRANSFORMS i = (1, 0, 0, -1) ∨
    QUADRANT_TRANSFORMS i = (0, 1, 1, 0) ∨
    QUADRANT_TRANSFORMS i = (1, 0, 0, 1) ∨
    QUADRANT_TRANSFORMS i = (0, -1, 1, 0) := by
  match i with
  | 0 => exact Or.inl rfl
  | 1 => exact Or.inr (Or.inl rfl)
  | 2 => exact Or.inr (Or.inr (Or.inl rfl))
  | n + 3 => exact Or.inr (Or.inr (Or.inr rfl))

/-- Through the quadrant loop: every newly marked cell lies within Chebyshev
distance `radius` of the origin. -/
theorem scanQuadrants_mark (t : List (List Nat)) (W H : Nat)
    (ox oy radius : Int) :
    ∀ (is : List Nat) (vis : List (List Nat)) {x y : Nat},
      tGet (scanQuadrants t W H ox oy radius is vis) x y = 1 →
      tGet vis x y = 1 ∨
        max |(x : Int) - ox| |(y : Int) - oy| ≤ radius
  | [], vis, x, y, h => Or.inl h
  | i :: is, vis, x, y, h => by
    rw [scanQuadrants] at h
    rcases scanQuadrants_mark t W H ox oy radius is _ h with h' | h'
    · rw [scan_quadrant] at h'
      rcases scanLoop_mark _ _ _
        (by
          intro s hs
          rcases List.mem_singleton.mp hs with rfl
          exact ⟨by norm_num, by norm_num, by norm_num, by norm_num,
            by norm_num⟩) h' with h'' | ⟨dep, c, h1, h2, h3, h4, hin, hx, hy⟩
      · exact Or.inl h''
      · right
        dsimp only at h2 hin hx hy
        obtain ⟨hb1, hb2, hb3, hb4⟩ := hin
        have hx' : (x : Int) = ox + c * (QUADRANT_TRANSFORMS i).1 +
            dep * (QUADRANT_TRANSFORMS i).2.1 := by
          rw [hx]
          exact Int.toNat_of_nonneg hb1
        have hy' : (y : Int) = oy + c * (QUADRANT_TRANSFORMS i).2.2.1 +
            dep * (QUADRANT_TRANSFORMS i).2.2.2 := by
          rw [hy]
          exact Int.toNat_of_nonneg hb3
        rw [max_le_iff, abs_le, abs_le]
        rcases quad_cases i with hq | hq | hq | hq <;> rw [hq] at hx' hy' <;>
          dsimp only at hx' hy' <;> omega
    · exact Or.inr h'

/-- C7 fails on the code as stated for negative radius: with `radius = -1` on
a 1×1 grid the origin is still marked visible, yet its Chebyshev distance 0
exceeds the radius. -/
theorem fov_chebyshev_counterexample :
    tGet (catley_native_fov [[1]] 1 1 0 0 (-1)) 0 0 = 1 ∧
      ¬(max |(0 : Int) - 0| |(0 : Int) - 0| ≤ (-1 : Int)) :=
  ⟨by rfl, by decide⟩

/-- C7 (amended to nonnegative radius): after every `fov` call with
`radius ≥ 0`, every cell marked visible lies within Chebyshev distance
`radius` of the origin.  For `radius < 0` the origin itself violates the
claim (see the counterexample): the origin is marked unconditionally while
all sectors are discarded. -/
theorem fov_visible_within_radius (t : List (List Nat)) (W H : Nat)
    (ox oy radius : Int) (hr : 0 ≤ radius) (x y : Nat)
    (h : tGet (catley_native_fov t W H ox oy radius) x y = 1) :
    max |(x : Int) - ox| |(y : Int) - oy| ≤ radius := by
  rw [catley_native_fov] at h
  rcases scanQuadrants_mark t W H ox oy radius [0, 1, 2, 3] _ h with h' | h'
  · by_cases hb : in_bounds ox oy W H
    · rw [if_pos hb] at h'
      rcases tGet_visSet h' with h'' | ⟨hx, hy⟩
      · rw [tGet_replicate_zero] at h''
        exact absurd h'' (by norm_num)
      · obtain ⟨hb1, _, hb3, _⟩ := hb
        have hx' : (x : Int) = ox := by rw [hx]; exact Int.toNat_of_nonneg hb1
        have hy' : (y : Int) = oy := by rw [hy]; exact Int.toNat_of_nonneg hb3
        rw [max_le_iff, abs_le, abs_le]
        omega
    · rw [if_neg hb, tGet_replicate_zero] at h'
      exact absurd h' (by norm_num)
  · exact h'

theorem fov_visible_within_radius_witness :
    (0 : Int) ≤ 0 ∧ tGet (catley_native_fov [[1]] 1 1 0 0 0) 0 0 = 1 ∧
      max |(0 : Int) - 0| |(0 : Int) - 0| ≤ (0 : Int) :=
  ⟨le_refl _, by rfl,
    fov_visible_within_radius [[1]] 1 1 0 0 0 (le_refl _) 0 0 (by rfl)⟩


end Fov

namespace Astar

theorem heap_swap_spec {data : List HeapEntry} {pos : List Int} {size a b : Nat}
    (hcoh : HeapCoh data pos size) (ha : a < data.length) (hb : b < data.length)
    (hab : a ≠ b) :
    HeapCoh (heap_swap data pos a b).1 (heap_swap data pos a b).2 size ∧
    (heap_swap data pos a b).1.length = data.length ∧
    (∀ n, InHeap (heap_swap data pos a b).2 n ↔ InHeap pos n) ∧
    (∀ e ∈ (heap_swap data pos a b).1, e ∈ data) := by
  obtain ⟨hplen, hdir1, hdir2⟩ := hcoh
  set ea := data.getD a default with hea_def
  set eb := data.getD b default with heb_def
  have hea_pos : pos.getD ea.idx (-1) = (a : Int) := (hdir1 a ha).2
  have heb_pos : pos.getD eb.idx (-1) = (b : Int) := (hdir1 b hb).2
  have hea_lt : ea.idx < size := (hdir1 a ha).1
  have heb_lt : eb.idx < size := (hdir1 b hb).1
  have hne : ea.idx ≠ eb.idx := by
    intro h
    rw [h, heb_pos] at hea_pos
    exact hab (by exact_mod_cast hea_pos.symm)
  have hga : ((data.set a eb).set b ea).getD a default = eb := by
    rw [Fov.getD_set_ite, Fov.getD_set_ite]
    simp only [List.length_set]
    rw [if_neg (by exact fun hc => hab hc.1.symm)]
    rw [if_pos (And.intro trivial ha)]
  have hgb : ((data.set a eb).set b ea).getD b default = ea := by
    rw [Fov.getD_set_ite]
    simp only [List.length_set]
    rw [if_pos (And.intro trivial hb)]
  have hres : heap_swap data pos a b =
      ((data.set a eb).set b ea,
        (pos.set eb.idx (a : Int)).set ea.idx (b : Int)) := by
    rw [heap_swap]
    rw [← hea_def, ← heb_def, hga, hgb]
  rw [hres]
  dsimp only
  have hdlen : ((data.set a eb).set b ea).length = data.length := by
    simp [List.length_set]
  have hdata' : ∀ j, ((data.set a eb).set b ea).getD j default =
      if b = j ∧ j < data.length then ea
      else if a = j ∧ j < data.length then eb
      else data.getD j default := by
    intro j
    rw [Fov.getD_set_ite, Fov.getD_set_ite]
    simp only [List.length_set]
  have hpos' : ∀ n, ((pos.set eb.idx (a : Int)).set ea.idx (b : Int)).getD n (-1) =
      if ea.idx = n then (b : Int)
      else if eb.idx = n then (a : Int)
      else pos.getD n (-1) := by
    intro n
    rw [Fov.getD_set_ite, Fov.getD_set_ite]
    simp only [List.length_set]
    by_cases h1 : ea.idx = n
    · subst h1
      rw [if_pos ⟨rfl, by omega⟩, if_pos rfl]
    · rw [if_neg (fun hc => h1 hc.1)]
      by_cases h2 : eb.idx = n
      · subst h2
        rw [if_pos ⟨rfl, by omega⟩, if_neg h1, if_pos rfl]
      · rw [if_neg (fun hc => h2 hc.1), if_neg h1, if_neg h2]
  refine ⟨⟨by simpa using hplen, ?_, ?_⟩, hdlen, ?_, ?_⟩
  · intro j hj
    rw [hdlen] at hj
    rw [hdata' j]
    by_cases hjb : b = j
    · subst hjb
      rw [if_pos ⟨rfl, hb⟩, hpos', if_pos rfl]
      exact ⟨hea_lt, rfl⟩
    · rw [if_neg (fun hc => hjb hc.1)]
      by_cases hja : a = j
      · subst hja
        rw [if_pos ⟨rfl, ha⟩, hpos', if_neg hne, if_pos rfl]
        exact ⟨heb_lt, rfl⟩
      · rw [if_neg (fun hc => hja hc.1)]
        have h1 := hdir1 j hj
        have hnea : ea.idx ≠ (data.getD j default).idx := by
          intro hc
          rw [← hc, hea_pos] at h1
          exact hja (by exact_mod_cast h1.2)
        have hneb : eb.idx ≠ (data.getD j default).idx := by
          intro hc
          rw [← hc, heb_pos] at h1
          exact hjb (by exact_mod_cast h1.2)
        rw [hpos', if_neg hnea, if_neg hneb]
        exact h1
  · intro n hn hge
    rw [hpos'] at hge ⊢
    rw [hdlen]
    by_cases h1 : ea.idx = n
    · subst h1
      rw [if_pos rfl] at hge ⊢
      refine ⟨by exact_mod_cast hb, ?_⟩
      rw [hdata']
      have hcb : ((b : Int).toNat) = b := by omega
      rw [hcb, if_pos ⟨rfl, hb⟩]
    · rw [if_neg h1] at hge ⊢
      by_cases h2 : eb.idx = n
      · subst h2
        rw [if_pos rfl] at hge ⊢
        refine ⟨by exact_mod_cast ha, ?_⟩
        rw [hdata']
        have hca : ((a : Int).toNat) = a := by omega
        rw [hca, if_neg (fun hc => hab (hc.1.symm)), if_pos ⟨rfl, ha⟩]
      · rw [if_neg h2] at hge ⊢
        obtain ⟨hlt, hidx⟩ := hdir2 n hn hge
        refine ⟨hlt, ?_⟩
        rw [hdata']
        have hsb : b ≠ (pos.getD n (-1)).toNat := by
          intro hc
          rw [← hc] at hidx
          apply h2
          rw [heb_def]
          exact hidx
        have hsa : a ≠ (pos.getD n (-1)).toNat := by
          intro hc
          rw [← hc] at hidx
          apply h1
          rw [hea_def]
          exact hidx
        rw [if_neg (fun hc => hsb hc.1), if_neg (fun hc => hsa hc.1)]
        exact hidx
  · intro n
    rw [InHeap, InHeap, hpos']
    by_cases h1 : ea.idx = n
    · subst h1
      rw [if_pos rfl, hea_pos]
      constructor <;> intro <;> omega
    · rw [if_neg h1]
      by_cases h2 : eb.idx = n
      · subst h2
        rw [if_pos rfl, heb_pos]
        constructor <;> intro <;> omega
      · rw [if_neg h2]
  · intro e he
    rcases List.mem_or_eq_of_mem_set he with he' | he'
    · rcases List.mem_or_eq_of_mem_set he' with he'' | he''
      · exact he''
      · subst he''
        rw [heb_def, List.getD_eq_getElem _ _ hb]
        exact List.getElem_mem hb
    · subst he'
      rw [hea_def, List.getD_eq_getElem _ _ ha]
      exact List.getElem_mem ha

theorem heap_sift_up_spec {size : Nat} :
    ∀ fuel (data : List HeapEntry) (pos : List Int) i,
    HeapCoh data pos size → i < data.length →
    HeapCoh (heap_sift_up data pos fuel i).1 (heap_sift_up data pos fuel i).2 size ∧
    (heap_sift_up data pos fuel i).1.length = data.length ∧
    (∀ n, InHeap (heap_sift_up data pos fuel i).2 n ↔ InHeap pos n) ∧
    (∀ e ∈ (heap_sift_up data pos fuel i).1, e ∈ data) := by
  intro fuel
  induction fuel with
  | zero =>
    intro data pos i hcoh hi
    rw [heap_sift_up]
    exact ⟨hcoh, rfl, fun n => Iff.rfl, fun e he => he⟩
  | succ fuel ih =>
    intro data pos i hcoh hi
    rw [heap_sift_up]
    by_cases h0 : i = 0
    · rw [if_pos h0]
      exact ⟨hcoh, rfl, fun n => Iff.rfl, fun e he => he⟩
    · rw [if_neg h0]
      by_cases hle : (data.getD ((i - 1) / 2) default).f ≤ (data.getD i default).f
      · rw [if_pos hle]
        exact ⟨hcoh, rfl, fun n => Iff.rfl, fun e he => he⟩
      · rw [if_neg hle]
        have hpar : (i - 1) / 2 < data.length := by omega
        have hpi : (i - 1) / 2 ≠ i := by omega
        obtain ⟨hcoh', hlen', hmem', hent'⟩ := heap_swap_spec hcoh hpar hi hpi
        have hi' : (i - 1) / 2 < (heap_swap data pos ((i - 1) / 2) i).1.length := by
          rw [hlen']; exact hpar
        obtain ⟨c1, c2, c3, c4⟩ := ih _ _ _ hcoh' hi'
        refine ⟨c1, by rw [c2, hlen'], ?_, ?_⟩
        · intro n
          exact (c3 n).trans (hmem' n)
        · intro e he
          exact hent' e (c4 e he)

end Astar

namespace Astar

theorem heap_sift_down_spec {size : Nat} :
    ∀ fuel (data : List HeapEntry) (pos : List Int) i,
    HeapCoh data pos size → i < data.length →
    HeapCoh (heap_sift_down data pos fuel i).1 (heap_sift_down data pos fuel i).2 size ∧
    (heap_sift_down data pos fuel i).1.length = data.length ∧
    (∀ n, InHeap (heap_sift_down data pos fuel i).2 n ↔ InHeap pos n) ∧
    (∀ e ∈ (heap_sift_down data pos fuel i).1, e ∈ data) := by
  intro fuel
  induction fuel with
  | zero =>
    intro data pos i hcoh hi
    rw [heap_sift_down]
    exact ⟨hcoh, rfl, fun n => Iff.rfl, fun e he => he⟩
  | succ fuel ih =>
    intro data pos i hcoh hi
    rw [heap_sift_down]
    dsimp only
    by_cases c1 : 2 * i + 1 < data.length ∧
        (data.getD (2 * i + 1) default).f < (data.getD i default).f
    · rw [if_pos c1]
      by_cases c2 : 2 * i + 1 + 1 < data.length ∧
          (data.getD (2 * i + 1 + 1) default).f < (data.getD (2 * i + 1) default).f
      · rw [if_pos c2]
        by_cases hs2i : 2 * i + 1 + 1 = i
        · rw [if_pos hs2i]
          exact ⟨hcoh, rfl, fun n => Iff.rfl, fun e he => he⟩
        · rw [if_neg hs2i]
          obtain ⟨hcoh', hlen', hmem', hent'⟩ := heap_swap_spec hcoh c2.1 hi hs2i
          have hi' : 2 * i + 1 + 1 < (heap_swap data pos (2 * i + 1 + 1) i).1.length := by
            rw [hlen']; exact c2.1
          obtain ⟨d1, d2, d3, d4⟩ := ih _ _ _ hcoh' hi'
          exact ⟨d1, by rw [d2, hlen'], fun n => (d3 n).trans (hmem' n),
            fun e he => hent' e (d4 e he)⟩
      · rw [if_neg c2]
        by_cases hs2i : 2 * i + 1 = i
        · rw [if_pos hs2i]
          exact ⟨hcoh, rfl, fun n => Iff.rfl, fun e he => he⟩
        · rw [if_neg hs2i]
          obtain ⟨hcoh', hlen', hmem', hent'⟩ := heap_swap_spec hcoh c1.1 hi hs2i
          have hi' : 2 * i + 1 < (heap_swap data pos (2 * i + 1) i).1.length := by
            rw [hlen']; exact c1.1
          obtain ⟨d1, d2, d3, d4⟩ := ih _ _ _ hcoh' hi'
          exact ⟨d1, by rw [d2, hlen'], fun n => (d3 n).trans (hmem' n),
            fun e he => hent' e (d4 e he)⟩
    · rw [if_neg c1]
      by_cases c2 : 2 * i + 1 + 1 < data.length ∧
          (data.getD (2 * i + 1 + 1) default).f < (data.getD i default).f
      · rw [if_pos c2]
        by_cases hs2i : 2 * i + 1 + 1 = i
        · rw [if_pos hs2i]
          exact ⟨hcoh, rfl, fun n => Iff.rfl, fun e he => he⟩
        · rw [if_neg hs2i]
          obtain ⟨hcoh', hlen', hmem', hent'⟩ := heap_swap_spec hcoh c2.1 hi hs2i
          have hi' : 2 * i + 1 + 1 < (heap_swap data pos (2 * i + 1 + 1) i).1.length := by
            rw [hlen']; exact c2.1
          obtain ⟨d1, d2, d3, d4⟩ := ih _ _ _ hcoh' hi'
          exact ⟨d1, by rw [d2, hlen'], fun n => (d3 n).trans (hmem' n),
            fun e he => hent' e (d4 e he)⟩
      · rw [if_neg c2, if_pos rfl]
        exact ⟨hcoh, rfl, fun n => Iff.rfl, fun e he => he⟩

end Astar

namespace Astar

theorem getD_take_lt {α : Type} (l : List α) (k j : Nat) (d : α)
    (hj : j < k) (hl : j < l.length) :
    (l.take k).getD j d = l.getD j d := by
  have hjt : j < (l.take k).length := by
    simp only [List.length_take]
    omega
  rw [List.getD_eq_getElem _ _ hjt, List.getD_eq_getElem _ _ hl]
  exact (List.getElem_take' l hl hj).symm

theorem heap_push_spec {data : List HeapEntry} {pos : List Int} {size : Nat}
    {f : ℚ} {idx : Nat}
    (hcoh : HeapCoh data pos size) (hidx : idx < size) :
    HeapCoh (heap_push_or_decrease data pos f idx).1
      (heap_push_or_decrease data pos f idx).2 size ∧
    (∀ n, InHeap (heap_push_or_decrease data pos f idx).2 n ↔
      (InHeap pos n ∨ n = idx)) ∧
    (∀ e ∈ (heap_push_or_decrease data pos f idx).1, e ∈ data ∨ e.idx = idx) := by
  obtain ⟨hplen, hdir1, hdir2⟩ := hcoh
  rw [heap_push_or_decrease]
  dsimp only
  by_cases hp : 0 ≤ pos.getD idx (-1)
  · rw [if_pos hp]
    obtain ⟨hslot, hsidx⟩ := hdir2 idx hidx hp
    by_cases hle : (data.getD (pos.getD idx (-1)).toNat default).f ≤ f
    · rw [if_pos hle]
      refine ⟨⟨hplen, hdir1, hdir2⟩, ?_, ?_⟩
      · intro n
        constructor
        · exact fun h => Or.inl h
        · rintro (h | rfl)
          · exact h
          · exact hp
      · exact fun e he => Or.inl he
    · rw [if_neg hle]
      -- decrease-key: the entry keeps its idx, only f changes
      set p := (pos.getD idx (-1)).toNat with hpdef
      have hcoh1 : HeapCoh (data.set p ⟨f, (data.getD p default).idx⟩) pos size := by
        refine ⟨hplen, ?_, ?_⟩
        · intro j hj
          rw [List.length_set] at hj
          rw [Fov.getD_set_ite]
          by_cases hjp : p = j
          · subst hjp
            rw [if_pos ⟨rfl, hslot⟩]
            dsimp only
            exact hdir1 p hslot
          · rw [if_neg (fun hc => hjp hc.1)]
            exact hdir1 j hj
        · intro n hn hge
          obtain ⟨h1, h2⟩ := hdir2 n hn hge
          rw [List.length_set]
          refine ⟨h1, ?_⟩
          rw [Fov.getD_set_ite]
          by_cases hjp : p = (pos.getD n (-1)).toNat
          · rw [if_pos ⟨hjp, by omega⟩]
            dsimp only
            rw [← hjp] at h2
            exact h2
          · rw [if_neg (fun hc => hjp hc.1)]
            exact h2
      have hslot1 : p < (data.set p ⟨f, (data.getD p default).idx⟩).length := by
        rw [List.length_set]
        exact hslot
      obtain ⟨c1, c2, c3, c4⟩ := heap_sift_up_spec p _ _ p hcoh1 hslot1
      refine ⟨c1, ?_, ?_⟩
      · intro n
        rw [c3 n]
        constructor
        · exact fun h => Or.inl h
        · rintro (h | rfl)
          · exact h
          · exact hp
      · intro e he
        have he' := c4 e he
        rcases List.mem_or_eq_of_mem_set he' with h | h
        · exact Or.inl h
        · subst h
          exact Or.inr hsidx
  · rw [if_neg hp]
    -- push: append and sift up from the last slot
    have hgd : ∀ j, j < data.length →
        (data ++ [(⟨f, idx⟩ : HeapEntry)]).getD j default = data.getD j default := by
      intro j hj
      exact List.getD_append _ _ _ _ hj
    have hgl : (data ++ [(⟨f, idx⟩ : HeapEntry)]).getD data.length default =
        ⟨f, idx⟩ := by
      rw [List.getD_append_right _ _ _ _ (Nat.le_refl _)]
      simp
    have hlen1 : (data ++ [(⟨f, idx⟩ : HeapEntry)]).length = data.length + 1 := by
      simp
    have hpos1 : ∀ n, (pos.set idx (data.length : Int)).getD n (-1) =
        if idx = n then (data.length : Int) else pos.getD n (-1) := by
      intro n
      rw [Fov.getD_set_ite]
      by_cases h : idx = n
      · subst h
        rw [if_pos ⟨rfl, by omega⟩, if_pos rfl]
      · rw [if_neg (fun hc => h hc.1), if_neg h]
    have hcoh1 : HeapCoh (data ++ [(⟨f, idx⟩ : HeapEntry)])
        (pos.set idx (data.length : Int)) size := by
      refine ⟨by simpa using hplen, ?_, ?_⟩
      · intro j hj
        rw [hlen1] at hj
        by_cases hje : j = data.length
        · subst hje
          rw [hgl]
          dsimp only
          rw [hpos1, if_pos rfl]
          exact ⟨hidx, rfl⟩
        · have hj' : j < data.length := by omega
          rw [hgd j hj']
          have h1 := hdir1 j hj'
          have hne : idx ≠ (data.getD j default).idx := by
            intro hc
            rw [← hc] at h1
            rw [h1.2] at hp
            exact hp (by exact_mod_cast Nat.zero_le j)
          rw [hpos1, if_neg hne]
          exact h1
      · intro n hn hge
        rw [hpos1] at hge ⊢
        rw [hlen1]
        by_cases h : idx = n
        · subst h
          rw [if_pos rfl] at hge ⊢
          refine ⟨by omega, ?_⟩
          have hcast : ((data.length : Int)).toNat = data.length := by omega
          rw [hcast, hgl]
        · rw [if_neg h] at hge ⊢
          obtain ⟨h1, h2⟩ := hdir2 n hn hge
          refine ⟨by omega, ?_⟩
          rw [hgd _ h1]
          exact h2
    have hi1 : data.length < (data ++ [(⟨f, idx⟩ : HeapEntry)]).length := by
      rw [hlen1]
      omega
    obtain ⟨c1, c2, c3, c4⟩ := heap_sift_up_spec data.length _ _ data.length hcoh1 hi1
    refine ⟨c1, ?_, ?_⟩
    · intro n
      rw [c3 n, InHeap, hpos1]
      by_cases h : idx = n
      · subst h
        rw [if_pos rfl]
        constructor
        · intro
          exact Or.inr rfl
        · intro
          exact_mod_cast Nat.zero_le data.length
      · rw [if_neg h]
        constructor
        · exact fun hh => Or.inl hh
        · rintro (hh | rfl)
          · exact hh
          · exact absurd rfl h
    · intro e he
      have he' := c4 e he
      rcases List.mem_append.mp he' with h | h
      · exact Or.inl h
      · right
        rcases List.mem_singleton.mp h with rfl
        rfl

end Astar

namespace Astar

theorem heap_pop_spec {data : List HeapEntry} {pos : List Int} {size : Nat}
    (hcoh : HeapCoh data pos size) (hne : data ≠ []) :
    (heap_pop data pos).1 ∈ data ∧
    (heap_pop data pos).1.idx < size ∧
    HeapCoh (heap_pop data pos).2.1 (heap_pop data pos).2.2 size ∧
    (heap_pop data pos).2.1.length = data.length - 1 ∧
    (∀ n, InHeap (heap_pop data pos).2.2 n ↔
      (InHeap pos n ∧ n ≠ (heap_pop data pos).1.idx)) ∧
    (∀ e ∈ (heap_pop data pos).2.1, e ∈ data) := by
  obtain ⟨hplen, hdir1, hdir2⟩ := hcoh
  have h0 : 0 < data.length := List.length_pos.mpr hne
  have htop_lt : (data.getD 0 default).idx < size := (hdir1 0 h0).1
  have htop_pos : pos.getD (data.getD 0 default).idx (-1) = (0 : Int) := (hdir1 0 h0).2
  have htop_mem : data.getD 0 default ∈ data := by
    rw [List.getD_eq_getElem _ _ h0]
    exact List.getElem_mem h0
  rw [heap_pop]
  dsimp only
  by_cases h1 : 1 < data.length
  · rw [if_pos h1]
    dsimp only
    have hlast_lt : data.length - 1 < data.length := by omega
    have hlast_idx : (data.getD (data.length - 1) default).idx < size :=
      (hdir1 _ hlast_lt).1
    have hlast_pos : pos.getD (data.getD (data.length - 1) default).idx (-1) =
        ((data.length - 1 : Nat) : Int) := (hdir1 _ hlast_lt).2
    have hne2 : (data.getD 0 default).idx ≠ (data.getD (data.length - 1) default).idx := by
      intro hc
      rw [hc, hlast_pos] at htop_pos
      have : (0 : Nat) = data.length - 1 := by exact_mod_cast htop_pos.symm
      omega
    set top := data.getD 0 default with htop_def
    set last := data.getD (data.length - 1) default with hlast_def
    set data' := ((data.set 0 last).take (data.length - 1)) with hddef
    set pos2 := ((pos.set top.idx (-1)).set last.idx 0) with hpos2_def
    have hdlen : data'.length = data.length - 1 := by
      rw [hddef]
      simp only [List.length_take, List.length_set]
      omega
    have hget' : ∀ j, j < data.length - 1 →
        data'.getD j default = if 0 = j then last else data.getD j default := by
      intro j hj
      rw [hddef, getD_take_lt _ _ _ _ hj (by rw [List.length_set]; omega),
        Fov.getD_set_ite]
      by_cases hj0 : 0 = j
      · rw [if_pos ⟨hj0, by omega⟩, if_pos hj0]
      · rw [if_neg (fun hc => hj0 hc.1), if_neg hj0]
    have hpos2 : ∀ n, pos2.getD n (-1) =
        if last.idx = n then (0 : Int)
        else if top.idx = n then (-1 : Int)
        else pos.getD n (-1) := by
      intro n
      rw [hpos2_def, Fov.getD_set_ite, Fov.getD_set_ite]
      simp only [List.length_set]
      by_cases hl : last.idx = n
      · subst hl
        rw [if_pos ⟨rfl, by omega⟩, if_pos rfl]
      · rw [if_neg (fun hc => hl hc.1), if_neg hl]
        by_cases ht : top.idx = n
        · subst ht
          rw [if_pos ⟨rfl, by omega⟩, if_pos rfl]
        · rw [if_neg (fun hc => ht hc.1), if_neg ht]
    have hcoh2 : HeapCoh data' pos2 size := by
      refine ⟨by rw [hpos2_def]; simpa using hplen, ?_, ?_⟩
      · intro j hj
        rw [hdlen] at hj
        rw [hget' j hj]
        by_cases hj0 : 0 = j
        · subst hj0
          rw [if_pos rfl, hpos2, if_pos rfl]
          exact ⟨hlast_idx, rfl⟩
        · rw [if_neg hj0]
          have hjlt : j < data.length := by omega
          have hj1 := hdir1 j hjlt
          have hna : last.idx ≠ (data.getD j default).idx := by
            intro hc
            rw [← hc, hlast_pos] at hj1
            have : j = data.length - 1 := by exact_mod_cast hj1.2.symm
            omega
          have hnb : top.idx ≠ (data.getD j default).idx := by
            intro hc
            rw [← hc, htop_pos] at hj1
            exact hj0 (by exact_mod_cast hj1.2)
          rw [hpos2, if_neg hna, if_neg hnb]
          exact hj1
      · intro n hn hge
        rw [hpos2] at hge ⊢
        rw [hdlen]
        by_cases hl : last.idx = n
        · subst hl
          rw [if_pos rfl] at hge ⊢
          refine ⟨by omega, ?_⟩
          have hz : ((0 : Int)).toNat = 0 := rfl
          rw [hz, hget' 0 (by omega), if_pos rfl]
        · rw [if_neg hl] at hge ⊢
          by_cases ht : top.idx = n
          · subst ht
            rw [if_pos rfl] at hge
            omega
          · rw [if_neg ht] at hge ⊢
            obtain ⟨hslt, hsidx⟩ := hdir2 n hn hge
            have hs0 : (pos.getD n (-1)).toNat ≠ 0 := by
              intro hc
              rw [hc] at hsidx
              exact ht (by rw [htop_def]; exact hsidx)
            have hsl : (pos.getD n (-1)).toNat ≠ data.length - 1 := by
              intro hc
              rw [hc] at hsidx
              exact hl (by rw [hlast_def]; exact hsidx)
            refine ⟨by omega, ?_⟩
            rw [hget' _ (by omega), if_neg (fun hc => hs0 hc.symm)]
            exact hsidx
    have hi0 : 0 < data'.length := by omega
    obtain ⟨c1, c2, c3, c4⟩ := heap_sift_down_spec data'.length _ _ 0 hcoh2 hi0
    refine ⟨htop_mem, htop_lt, c1, by rw [c2, hdlen], ?_, ?_⟩
    · intro n
      rw [c3 n, InHeap, InHeap, hpos2]
      by_cases hl : last.idx = n
      · subst hl
        rw [if_pos rfl]
        constructor
        · intro
          constructor
          · show (0 : Int) ≤ pos.getD last.idx (-1)
            rw [hlast_pos]
            omega
          · exact fun hc => hne2 hc.symm
        · intro
          omega
      · rw [if_neg hl]
        by_cases ht : top.idx = n
        · subst ht
          rw [if_pos rfl]
          constructor
          · intro hcon
            omega
          · rintro ⟨-, hc⟩
            exact absurd rfl hc
        · rw [if_neg ht]
          constructor
          · intro hh
            exact ⟨hh, fun hc => ht hc.symm⟩
          · exact fun hh => hh.1
    · intro e he
      have he' := c4 e he
      have he'' := List.take_subset _ _ he'
      rcases List.mem_or_eq_of_mem_set he'' with h | h
      · exact h
      · subst h
        rw [hlast_def, List.getD_eq_getElem _ _ hlast_lt]
        exact List.getElem_mem hlast_lt
  · rw [if_neg h1]
    have hlen : data.length = 1 := by omega
    refine ⟨htop_mem, htop_lt, ?_, by simp [hlen], ?_, ?_⟩
    · refine ⟨by simpa using hplen, ?_, ?_⟩
      · intro j hj
        simp at hj
      · intro n hn hge
        rw [Fov.getD_set_ite] at hge
        by_cases ht : (data.getD 0 default).idx = n
        · rw [if_pos ⟨ht, by omega⟩] at hge
          omega
        · rw [if_neg (fun hc => ht hc.1)] at hge
          obtain ⟨hslt, hsidx⟩ := hdir2 n hn hge
          rw [hlen] at hslt
          have : (pos.getD n (-1)).toNat = 0 := by omega
          rw [this] at hsidx
          exact absurd hsidx ht
    · intro n
      rw [InHeap, InHeap, Fov.getD_set_ite]
      by_cases ht : (data.getD 0 default).idx = n
      · rw [if_pos ⟨ht, by omega⟩]
        constructor
        · intro hcon
          omega
        · rintro ⟨-, hc⟩
          exact absurd ht.symm hc
      · rw [if_neg (fun hc => ht hc.1)]
        constructor
        · intro hh
          exact ⟨hh, fun hc => ht hc.symm⟩
        · exact fun hh => hh.1
    · intro e he
      simp at he

end Astar

namespace Astar

theorem index_coords {h : Nat} (nx ny : Nat) (hh : 0 < h) (hy : ny < h) :
    (nx * h + ny) / h = nx ∧ (nx * h + ny) % h = ny := by
  constructor
  · rw [Nat.mul_comm, Nat.mul_add_div hh, Nat.div_eq_of_lt hy, Nat.add_zero]
  · rw [Nat.mul_comm, Nat.mul_add_mod, Nat.mod_eq_of_lt hy]

theorem dxdy_cases : ∀ d, d < 8 →
    (DX d = -1 ∨ DX d = 0 ∨ DX d = 1) ∧ (DY d = -1 ∨ DY d = 0 ∨ DY d = 1) ∧
    ¬(DX d = 0 ∧ DY d = 0) := by
  decide

theorem expand_adj {w h ci : Nat} {d : Nat} (hh : 0 < h) (hci : ci < w * h)
    (hd : d < 8)
    (hin : ¬(((ci / h : Nat) : Int) + DX d < 0 ∨
      (w : Int) ≤ ((ci / h : Nat) : Int) + DX d ∨
      ((ci % h : Nat) : Int) + DY d < 0 ∨
      (h : Int) ≤ ((ci % h : Nat) : Int) + DY d)) :
    ((((ci / h : Nat) : Int) + DX d).toNat * h +
      (((ci % h : Nat) : Int) + DY d).toNat < w * h) ∧
    Adj w h ci ((((ci / h : Nat) : Int) + DX d).toNat * h +
      (((ci % h : Nat) : Int) + DY d).toNat) := by
  push_neg at hin
  obtain ⟨h1, h2, h3, h4⟩ := hin
  obtain ⟨hDX, hDY, hD0⟩ := dxdy_cases d hd
  set nxN := (((ci / h : Nat) : Int) + DX d).toNat with hnx_def
  set nyN := (((ci % h : Nat) : Int) + DY d).toNat with hny_def
  have hnxw : nxN < w := by omega
  have hnyh : nyN < h := by omega
  have hni : nxN * h + nyN < w * h := by
    calc nxN * h + nyN < nxN * h + h := by omega
    _ = (nxN + 1) * h := by ring
    _ ≤ w * h := Nat.mul_le_mul_right h hnxw
  obtain ⟨hdiv, hmod⟩ := index_coords nxN nyN hh hnyh
  obtain ⟨hxl, hxr⟩ : (-1 : Int) ≤ DX d ∧ DX d ≤ 1 := by
    rcases hDX with hxx | hxx | hxx <;> rw [hxx] <;>
      exact ⟨by norm_num, by norm_num⟩
  obtain ⟨hyl, hyr⟩ : (-1 : Int) ≤ DY d ∧ DY d ≤ 1 := by
    rcases hDY with hyy | hyy | hyy <;> rw [hyy] <;>
      exact ⟨by norm_num, by norm_num⟩
  refine ⟨hni, hci, hni, ?_, ?_, ?_, ?_, ?_⟩
  · -- ci ≠ ni
    intro hc
    apply hD0
    have hdiv2 : ci / h = nxN := by rw [hc, hdiv]
    have hmod2 : ci % h = nyN := by rw [hc, hmod]
    constructor <;> omega
  · rw [hdiv]
    omega
  · rw [hdiv]
    omega
  · rw [hmod]
    omega
  · rw [hmod]
    omega

theorem adj_to_dir {w h a b : Nat} (hh : 0 < h) (hadj : Adj w h a b) :
    ∃ d, d < 8 ∧
      ¬(((a / h : Nat) : Int) + DX d < 0 ∨
        (w : Int) ≤ ((a / h : Nat) : Int) + DX d ∨
        ((a % h : Nat) : Int) + DY d < 0 ∨
        (h : Int) ≤ ((a % h : Nat) : Int) + DY d) ∧
      (((a / h : Nat) : Int) + DX d).toNat * h +
        (((a % h : Nat) : Int) + DY d).toNat = b := by
  obtain ⟨ha, hb, hne, d1, d2, d3, d4⟩ := hadj
  have hbx : b / h < w := by
    rw [Nat.div_lt_iff_lt_mul hh]
    omega
  have hby : b % h < h := Nat.mod_lt b hh
  have hadecomp : a / h * h + a % h = a := by
    rw [Nat.mul_comm]
    exact Nat.div_add_mod a h
  have hbdecomp : b / h * h + b % h = b := by
    rw [Nat.mul_comm]
    exact Nat.div_add_mod b h
  set adiv := a / h with hadiv_def
  set amod := a % h with hamod_def
  set bdiv := b / h with hbdiv_def
  set bmod := b % h with hbmod_def
  clear_value adiv amod bdiv bmod
  have hcne : ¬((bdiv : Int) - (adiv : Int) = 0 ∧
      (bmod : Int) - (amod : Int) = 0) := by
    rintro ⟨hx, hy⟩
    apply hne
    have hxn : bdiv = adiv := by omega
    have hyn : bmod = amod := by omega
    rw [← hadecomp, ← hbdecomp, hxn, hyn]
  have key : ∀ d, d < 8 →
      DX d = (bdiv : Int) - (adiv : Int) →
      DY d = (bmod : Int) - (amod : Int) →
      ∃ d', d' < 8 ∧
      ¬((adiv : Int) + DX d' < 0 ∨
        (w : Int) ≤ (adiv : Int) + DX d' ∨
        (amod : Int) + DY d' < 0 ∨
        (h : Int) ≤ (amod : Int) + DY d') ∧
      ((adiv : Int) + DX d').toNat * h +
        ((amod : Int) + DY d').toNat = b := by
    intro d hd hdx hdy
    refine ⟨d, hd, ?_, ?_⟩
    · rw [hdx, hdy]
      push_neg
      refine ⟨by omega, by omega, by omega, by omega⟩
    · rw [hdx, hdy]
      have hx : ((adiv : Int) + ((bdiv : Int) - (adiv : Int))).toNat = bdiv := by
        omega
      have hy : ((amod : Int) + ((bmod : Int) - (amod : Int))).toNat = bmod := by
        omega
      rw [hx, hy, hbdecomp]
  have hdx3 : (bdiv : Int) - (adiv : Int) = -1 ∨
      (bdiv : Int) - (adiv : Int) = 0 ∨ (bdiv : Int) - (adiv : Int) = 1 := by
    omega
  have hdy3 : (bmod : Int) - (amod : Int) = -1 ∨
      (bmod : Int) - (amod : Int) = 0 ∨ (bmod : Int) - (amod : Int) = 1 := by
    omega
  rcases hdx3 with hx | hx | hx <;> rcases hdy3 with hy | hy | hy
  · exact key 4 (by norm_num) (by rw [hx]; rfl) (by rw [hy]; rfl)
  · exact key 0 (by norm_num) (by rw [hx]; rfl) (by rw [hy]; rfl)
  · exact key 5 (by norm_num) (by rw [hx]; rfl) (by rw [hy]; rfl)
  · exact key 2 (by norm_num) (by rw [hx]; rfl) (by rw [hy]; rfl)
  · exact absurd ⟨hx, hy⟩ hcne
  · exact key 3 (by norm_num) (by rw [hx]; rfl) (by rw [hy]; rfl)
  · exact key 6 (by norm_num) (by rw [hx]; rfl) (by rw [hy]; rfl)
  · exact key 1 (by norm_num) (by rw [hx]; rfl) (by rw [hy]; rfl)
  · exact key 7 (by norm_num) (by rw [hx]; rfl) (by rw [hy]; rfl)

end Astar

namespace Astar

theorem countClosed_le (cl : List Bool) : countClosed cl ≤ cl.length :=
  List.countP_le_length _

theorem sqrt2_bounds : (1 : ℚ) ≤ SQRT2 ∧ SQRT2 ≤ 2 := by
  rw [SQRT2]
  norm_num

theorem le_bound_lt_inf {x : ℚ} {cc size : Nat} (h1 : cc ≤ size)
    (h2 : size ≤ 2 ^ 31) (h3 : x ≤ 65534 * ((cc : ℚ) + 1)) :
    x < G_INFINITY := by
  have hc : (cc : ℚ) ≤ ((2 : ℚ) ^ 31) := by
    exact_mod_cast le_trans h1 h2
  have hnum : (65534 : ℚ) * ((2 : ℚ) ^ 31 + 1) < G_INFINITY := by
    rw [G_INFINITY]
    norm_num
  nlinarith

theorem astar_expand_spec {cost : List Int} {w h start goal ci : Nat} {cg : ℚ}
    {gdx gdy : List Int} {d : Nat} {st : AstarSt}
    (hh : 0 < h) (hci : ci < w * h) (hd : d < 8)
    (hclen : cost.length = w * h) (hwh : w * h ≤ 2 ^ 31)
    (hcost : ∀ c ∈ cost, 0 ≤ c ∧ c ≤ 32767)
    (hinv : MInv cost w h start goal ci cg st) :
    MInv cost w h start goal ci cg (astar_expand cost w h gdx gdy ci cg d st) ∧
    (astar_expand cost w h gdx gdy ci cg d st).closed = st.closed ∧
    (∀ n, (astar_expand cost w h gdx gdy ci cg d st).g_score.getD n 0 ≤
      st.g_score.getD n 0) ∧
    NbrD cost w h (astar_expand cost w h gdx gdy ci cg d st).g_score ci d ∧
    (∀ n, InHeap st.heapPos n →
      InHeap (astar_expand cost w h gdx gdy ci cg d st).heapPos n) := by
  rw [astar_expand]
  dsimp only
  by_cases hoob : (((ci / h : Nat) : Int) + DX d < 0 ∨
      (w : Int) ≤ ((ci / h : Nat) : Int) + DX d ∨
      ((ci % h : Nat) : Int) + DY d < 0 ∨
      (h : Int) ≤ ((ci % h : Nat) : Int) + DY d)
  · rw [if_pos hoob]
    refine ⟨hinv, rfl, fun n => le_refl _, ?_, fun n hn => hn⟩
    rw [NbrD]
    intro hnoob
    exact absurd hoob hnoob
  · rw [if_neg hoob]
    obtain ⟨hni_lt, hadj⟩ := expand_adj hh hci hd hoob
    set ni := (((ci / h : Nat) : Int) + DX d).toNat * h +
      (((ci % h : Nat) : Int) + DY d).toNat with hni_def
    by_cases hclosed : st.closed.getD ni false = true
    · rw [if_pos hclosed]
      refine ⟨hinv, rfl, fun n => le_refl _, ?_, fun n hn => hn⟩
      rw [NbrD]
      intro hnoob hcost'
      exact hinv.closed_g ni hni_lt hclosed
    · rw [if_neg hclosed]
      by_cases hnc : cost.getD ni 0 = 0
      · rw [if_pos hnc]
        refine ⟨hinv, rfl, fun n => le_refl _, ?_, fun n hn => hn⟩
        rw [NbrD]
        intro hnoob hcost'
        exact absurd hnc hcost'
      · rw [if_neg hnc]
        have hnc_mem : cost.getD ni 0 ∈ cost := by
          rw [List.getD_eq_getElem _ _ (by omega)]
          exact List.getElem_mem (by omega)
        obtain ⟨hnc0, hnc32⟩ := hcost _ hnc_mem
        have hnc1 : (1 : ℚ) ≤ (cost.getD ni 0 : ℚ) := by
          have : (1 : Int) ≤ cost.getD ni 0 := by omega
          exact_mod_cast this
        have hnc32q : (cost.getD ni 0 : ℚ) ≤ 32767 := by exact_mod_cast hnc32
        have hmult1 : (1 : ℚ) ≤ (if d < 4 then (1 : ℚ) else SQRT2) := by
          split
          · exact le_refl 1
          · exact sqrt2_bounds.1
        have hmult2 : (if d < 4 then (1 : ℚ) else SQRT2) ≤ 2 := by
          split
          · norm_num
          · exact sqrt2_bounds.2
        set mult := (if d < 4 then (1 : ℚ) else SQRT2) with hmult_def
        set tent := cg + (cost.getD ni 0 : ℚ) * mult with htent_def
        obtain ⟨hcg0, hcgb⟩ := hinv.cg_bound
        have hprod1 : (1 : ℚ) ≤ (cost.getD ni 0 : ℚ) * mult := by nlinarith
        have hprod2 : (cost.getD ni 0 : ℚ) * mult ≤ 65534 := by nlinarith
        have htent_lb : cg + 1 ≤ tent := by rw [htent_def]; linarith
        have htent_pos : 0 < tent := by linarith
        have hcc_le : countClosed st.closed ≤ w * h := by
          have := countClosed_le st.closed
          rw [hinv.len_cl] at this
          exact this
        have htent_bound : tent ≤ 65534 * ((countClosed st.closed : ℚ) + 1) := by
          rw [htent_def]
          linarith
        have htent_inf : tent < G_INFINITY :=
          le_bound_lt_inf hcc_le hwh htent_bound
        by_cases hup : tent < st.g_score.getD ni 0
        · rw [if_pos hup]
          dsimp only
          have hni_start : ni ≠ start := by
            intro hc
            rw [hc, hinv.g_start] at hup
            linarith
          have hni_ci : ni ≠ ci := by
            intro hc
            rw [hc, hinv.ci_closed] at hclosed
            exact hclosed rfl
          obtain ⟨pcoh, pmem, pent⟩ := heap_push_spec hinv.coh hni_lt
          have hg' : ∀ m, (st.g_score.set ni tent).getD m 0 =
              if ni = m ∧ m < w * h then tent else st.g_score.getD m 0 := by
            intro m
            rw [Fov.getD_set_ite, hinv.len_g]
          have hcf' : ∀ m, (st.came_from.set ni (ci : Int)).getD m (-1) =
              if ni = m ∧ m < w * h then (ci : Int)
              else st.came_from.getD m (-1) := by
            intro m
            rw [Fov.getD_set_ite, hinv.len_cf]
          have hgmono : ∀ m, (st.g_score.set ni tent).getD m 0 ≤
              st.g_score.getD m 0 := by
            intro m
            rw [hg']
            by_cases hc : ni = m ∧ m < w * h
            · rw [if_pos hc]
              rw [hc.1] at hup
              exact le_of_lt hup
            · rw [if_neg hc]
          refine ⟨⟨?_, ?_, hinv.len_cl, pcoh, ?_, ?_, ?_, ?_, ?_, ?_, ?_, ?_,
            hinv.goal_open, hinv.ci_closed, ?_, ⟨hcg0, hcgb⟩⟩,
            rfl, hgmono, ?_, ?_⟩
          · rw [List.length_set]
            exact hinv.len_g
          · rw [List.length_set]
            exact hinv.len_cf
          · -- entries
            intro e he
            rcases pent e he with hmem | hidx
            · obtain ⟨e1, e2, e3⟩ := hinv.entries e hmem
              refine ⟨e1, e2, ?_⟩
              rw [hg']
              by_cases hc : ni = e.idx ∧ e.idx < w * h
              · rw [if_pos hc]
                exact htent_inf
              · rw [if_neg hc]
                exact e3
            · refine ⟨by rw [hidx]; exact hni_lt, ?_, ?_⟩
              · rw [hidx]
                exact Bool.not_eq_true _ ▸ hclosed
              · rw [hidx, hg', if_pos ⟨rfl, hni_lt⟩]
                exact htent_inf
          · -- frontier
            intro n hn hgn hcln
            by_cases hni_n : ni = n
            · exact (pmem n).mpr (Or.inr hni_n.symm)
            · rw [hg', if_neg (fun hc => hni_n hc.1)] at hgn
              exact (pmem n).mpr (Or.inl (hinv.frontier n hn hgn hcln))
          · -- closed_nbrs
            intro n hn hcl hnci d' hd' hnoob' hcost'
            exact lt_of_le_of_lt (hgmono _)
              (hinv.closed_nbrs n hn hcl hnci d' hd' hnoob' hcost')
          · -- closed_g
            intro n hn hcl
            exact lt_of_le_of_lt (hgmono n) (hinv.closed_g n hn hcl)
          · -- cf_ok
            intro n hn hnst hgn
            dsimp only at hgn ⊢
            by_cases hni_n : ni = n
            · subst hni_n
              rw [hcf', if_pos ⟨rfl, hn⟩]
              refine ⟨by exact_mod_cast Nat.zero_le ci, ?_, ?_, hnc, ?_⟩
              · rw [Int.toNat_natCast]
                exact hci
              · rw [Int.toNat_natCast]
                exact hadj
              · rw [Int.toNat_natCast, hg', if_neg (fun hc => hni_ci hc.1),
                  hg', if_pos ⟨rfl, hn⟩, hinv.cg_eq]
                linarith
            · rw [hg', if_neg (fun hc => hni_n hc.1)] at hgn
              obtain ⟨o1, o2, o3, o4, o5⟩ := hinv.cf_ok n hn hnst hgn
              rw [hcf', if_neg (fun hc => hni_n hc.1)]
              refine ⟨o1, o2, o3, o4, ?_⟩
              have h5 : (st.g_score.set ni tent).getD n 0 =
                  st.g_score.getD n 0 := by
                rw [hg', if_neg (fun hc => hni_n hc.1)]
              rw [h5]
              exact lt_of_le_of_lt (hgmono _) o5
          · -- g_start
            rw [hg', if_neg (fun hc => hni_start hc.1)]
            exact hinv.g_start
          · -- g_nonneg
            intro n hn
            rw [hg']
            by_cases hc : ni = n ∧ n < w * h
            · rw [if_pos hc]
              exact le_of_lt htent_pos
            · rw [if_neg hc]
              exact hinv.g_nonneg n hn
          · -- g_bound
            intro n hn hgn
            rw [hg'] at hgn ⊢
            by_cases hc : ni = n ∧ n < w * h
            · rw [if_pos hc]
              exact htent_bound
            · rw [if_neg hc] at hgn ⊢
              exact hinv.g_bound n hn hgn
          · -- cg_eq
            rw [hg', if_neg (fun hc => hni_ci hc.1)]
            exact hinv.cg_eq
          · -- NbrD
            rw [NbrD]
            intro hnoob' hcost'
            rw [← hni_def, hg', if_pos ⟨rfl, hni_lt⟩]
            exact htent_inf
          · -- heap membership superset
            intro n hn
            exact (pmem n).mpr (Or.inl hn)
        · rw [if_neg hup]
          refine ⟨hinv, rfl, fun n => le_refl _, ?_, fun n hn => hn⟩
          rw [NbrD]
          intro hnoob' hcost'
          rw [← hni_def]
          push_neg at hup
          exact lt_of_le_of_lt hup htent_inf

end Astar

namespace Astar

theorem countClosed_set_true {cl : List Bool} {n : Nat} (hn : n < cl.length)
    (hf : cl.getD n false = false) :
    countClosed (cl.set n true) = countClosed cl + 1 := by
  induction cl generalizing n with
  | nil => simp at hn
  | cons b t ih =>
    cases n with
    | zero =>
      have hb : b = false := by simpa using hf
      subst hb
      simp [countClosed, List.countP_cons]
    | succ m =>
      have hm : m < t.length := by simpa using hn
      have hf' : t.getD m false = false := by simpa using hf
      have := ih hm hf'
      simp only [List.set_cons_succ, countClosed, List.countP_cons]
      simp only [countClosed] at this
      omega

theorem mem_inheap {data : List HeapEntry} {pos : List Int} {size : Nat}
    (hcoh : HeapCoh data pos size) {e : HeapEntry} (he : e ∈ data) :
    InHeap pos e.idx := by
  obtain ⟨j, hj, hje⟩ := List.mem_iff_getElem.mp he
  have h1 := (hcoh.2.1 j hj).2
  rw [List.getD_eq_getElem _ _ hj, hje] at h1
  rw [InHeap, h1]
  exact_mod_cast Nat.zero_le j

theorem astar_expandAll_spec {cost : List Int} {w h start goal ci : Nat}
    {cg : ℚ} (gdx gdy : List Int)
    (hh : 0 < h) (hci : ci < w * h)
    (hclen : cost.length = w * h) (hwh : w * h ≤ 2 ^ 31)
    (hcost : ∀ c ∈ cost, 0 ≤ c ∧ c ≤ 32767) :
    ∀ (ds : List Nat) (st : AstarSt), (∀ d ∈ ds, d < 8) →
    MInv cost w h start goal ci cg st →
    MInv cost w h start goal ci cg
      (astar_expandAll cost w h gdx gdy ci cg ds st) ∧
    (astar_expandAll cost w h gdx gdy ci cg ds st).closed = st.closed ∧
    (∀ n, (astar_expandAll cost w h gdx gdy ci cg ds st).g_score.getD n 0 ≤
      st.g_score.getD n 0) ∧
    (∀ d ∈ ds, NbrD cost w h
      (astar_expandAll cost w h gdx gdy ci cg ds st).g_score ci d) ∧
    (∀ n, InHeap st.heapPos n →
      InHeap (astar_expandAll cost w h gdx gdy ci cg ds st).heapPos n) := by
  intro ds
  induction ds with
  | nil =>
    intro st hds hinv
    rw [astar_expandAll]
    exact ⟨hinv, rfl, fun n => le_refl _, fun d hd => absurd hd (by simp),
      fun n hn => hn⟩
  | cons d ds ih =>
    intro st hds hinv
    rw [astar_expandAll]
    have hd : d < 8 := hds d (by simp)
    obtain ⟨m1, m2, m3, m4, m5⟩ :=
      @astar_expand_spec cost w h start goal ci cg gdx gdy d st
        hh hci hd hclen hwh hcost hinv
    obtain ⟨c1, c2, c3, c4, c5⟩ :=
      ih (astar_expand cost w h gdx gdy ci cg d st) (fun d' hd' => hds d' (by simp [hd'])) m1
    refine ⟨c1, by rw [c2, m2], fun n => le_trans (c3 n) (m3 n), ?_, ?_⟩
    · intro d' hd'
      rcases List.mem_cons.mp hd' with rfl | hmem
      · rw [NbrD]
        intro hnoob hcost'
        exact lt_of_le_of_lt (c3 _) (m4 hnoob hcost')
      · exact c4 d' hmem
    · intro n hn
      exact c5 n (m5 n hn)

end Astar

namespace Astar

theorem astarLoop_spec {cost : List Int} {w h start goal : Nat}
    {gdx gdy : List Int}
    (hh : 0 < h) (hclen : cost.length = w * h)
    (hwh : w * h ≤ 2 ^ 31) (hcost : ∀ c ∈ cost, 0 ≤ c ∧ c ≤ 32767) :
    ∀ fuel (st : AstarSt), SInv cost w h start goal st →
      w * h < fuel + countClosed st.closed →
      ((astarLoop cost w h goal gdx gdy fuel st).1 = false →
        SInv cost w h start goal (astarLoop cost w h goal gdx gdy fuel st).2 ∧
        (astarLoop cost w h goal gdx gdy fuel st).2.heapData = []) ∧
      ((astarLoop cost w h goal gdx gdy fuel st).1 = true →
        FoundInv cost w h start goal
          (astarLoop cost w h goal gdx gdy fuel st).2) := by
  intro fuel
  induction fuel with
  | zero =>
    intro st hinv hfuel
    have hcc := countClosed_le st.closed
    rw [hinv.len_cl] at hcc
    omega
  | succ fuel ih =>
    intro st hinv hfuel
    rw [astarLoop]
    by_cases hemp : st.heapData.length = 0
    · rw [if_pos hemp]
      constructor
      · intro
        exact ⟨hinv, List.length_eq_zero.mp hemp⟩
      · intro hcon
        exact absurd hcon (by norm_num)
    · rw [if_neg hemp]
      dsimp only
      have hne : st.heapData ≠ [] := fun hc => hemp (by rw [hc]; rfl)
      obtain ⟨ptop_mem, ptop_lt, pcoh, plen, pmem, pent⟩ :=
        heap_pop_spec hinv.coh hne
      obtain ⟨hci_lt, hci_open, hci_g⟩ := hinv.entries _ ptop_mem
      by_cases hgl : (heap_pop st.heapData st.heapPos).1.idx = goal
      · rw [if_pos hgl]
        constructor
        · intro hcon
          exact absurd hcon (by norm_num)
        · intro
          refine ⟨hinv.len_g, hinv.len_cf, hinv.cf_ok, ?_⟩
          rw [← hgl]
          exact hci_g
      · rw [if_neg hgl]
        set top := (heap_pop st.heapData st.heapPos).1 with htop_def
        set ci := top.idx with hci_def
        set cg := st.g_score.getD ci 0 with hcg_def
        have hcl' : ∀ m, (st.closed.set ci true).getD m false =
            if ci = m ∧ m < w * h then true else st.closed.getD m false := by
          intro m
          rw [Fov.getD_set_ite, hinv.len_cl]
        have hccnew : countClosed (st.closed.set ci true) =
            countClosed st.closed + 1 :=
          countClosed_set_true (by rw [hinv.len_cl]; exact hci_lt) hci_open
        have hminv : MInv cost w h start goal ci cg
            { g_score := st.g_score, came_from := st.came_from,
              closed := st.closed.set ci true,
              heapData := (heap_pop st.heapData st.heapPos).2.1,
              heapPos := (heap_pop st.heapData st.heapPos).2.2 } := by
          refine ⟨hinv.len_g, hinv.len_cf, ?_, pcoh, ?_, ?_, ?_, ?_,
            hinv.cf_ok, hinv.g_start, hinv.g_nonneg, ?_, ?_, ?_, rfl, ?_⟩
          · rw [List.length_set]
            exact hinv.len_cl
          · -- entries
            intro e he
            have hmem := pent e he
            obtain ⟨e1, e2, e3⟩ := hinv.entries e hmem
            refine ⟨e1, ?_, e3⟩
            have hinh := mem_inheap pcoh he
            have hne_ci : e.idx ≠ ci := ((pmem e.idx).mp hinh).2
            rw [hcl', if_neg (fun hc => hne_ci hc.1.symm)]
            exact e2
          · -- frontier
            intro n hn hg hcl2
            by_cases hcin : ci = n
            · rw [hcl', if_pos ⟨hcin, hn⟩] at hcl2
              exact absurd hcl2 (by norm_num)
            · rw [hcl', if_neg (fun hc => hcin hc.1)] at hcl2
              exact (pmem n).mpr ⟨hinv.frontier n hn hg hcl2,
                fun hc => hcin hc.symm⟩
          · -- closed_nbrs (exempting ci)
            intro n hn hcl2 hnci
            rw [hcl', if_neg (fun hc => hnci hc.1.symm)] at hcl2
            exact hinv.closed_nbrs n hn hcl2
          · -- closed_g
            intro n hn hcl2
            by_cases hcin : ci = n
            · rw [← hcin]
              exact hci_g
            · rw [hcl', if_neg (fun hc => hcin hc.1)] at hcl2
              exact hinv.closed_g n hn hcl2
          · -- g_bound
            intro n hn hg
            have hold := hinv.g_bound n hn hg
            rw [hccnew]
            push_cast
            push_cast at hold
            linarith
          · -- goal_open
            rw [hcl', if_neg (fun hc => hgl hc.1)]
            exact hinv.goal_open
          · -- ci_closed
            rw [hcl', if_pos ⟨rfl, hci_lt⟩]
          · -- cg_bound
            refine ⟨hinv.g_nonneg ci hci_lt, ?_⟩
            have hold := hinv.g_bound ci hci_lt hci_g
            rw [hccnew]
            push_cast
            push_cast at hold
            linarith
        have hds8 : ∀ d ∈ ([0, 1, 2, 3, 4, 5, 6, 7] : List Nat), d < 8 := by
          decide
        obtain ⟨e1, e2, e3, e4, e5⟩ :=
          astar_expandAll_spec gdx gdy
            hh hci_lt hclen hwh hcost [0, 1, 2, 3, 4, 5, 6, 7] _ hds8 hminv
        have hmem8 : ∀ dd, dd < 8 → dd ∈ ([0, 1, 2, 3, 4, 5, 6, 7] : List Nat) := by
          decide
        have hsinv3 : SInv cost w h start goal
            (astar_expandAll cost w h gdx gdy ci cg [0, 1, 2, 3, 4, 5, 6, 7]
              { g_score := st.g_score, came_from := st.came_from,
                closed := st.closed.set ci true,
                heapData := (heap_pop st.heapData st.heapPos).2.1,
                heapPos := (heap_pop st.heapData st.heapPos).2.2 }) := by
          refine ⟨e1.len_g, e1.len_cf, e1.len_cl, e1.coh, e1.entries,
            e1.frontier, ?_, e1.closed_g, e1.cf_ok, e1.g_start, e1.g_nonneg,
            e1.g_bound, e1.goal_open⟩
          intro n hn hcl3
          by_cases hcin : ci = n
          · subst hcin
            intro d hd
            exact e4 d (hmem8 d hd)
          · exact e1.closed_nbrs n hn hcl3 (fun hc => hcin hc.symm)
        have hcc3 : countClosed (astar_expandAll cost w h gdx gdy ci cg
            [0, 1, 2, 3, 4, 5, 6, 7]
            { g_score := st.g_score, came_from := st.came_from,
              closed := st.closed.set ci true,
              heapData := (heap_pop st.heapData st.heapPos).2.1,
              heapPos := (heap_pop st.heapData st.heapPos).2.2 }).closed =
            countClosed st.closed + 1 := by
          rw [e2]
          exact hccnew
        exact ih _ hsinv3 (by rw [hcc3]; omega)

end Astar

namespace Astar

theorem gRank_lt {g : List ℚ} {size n m : Nat} (hm : m < size)
    (hlt : g.getD m 0 < g.getD n 0) : gRank g size m < gRank g size n := by
  rw [gRank, gRank]
  apply Finset.card_lt_card
  rw [Finset.ssubset_def]
  constructor
  · intro x hx
    rw [Finset.mem_filter] at hx ⊢
    exact ⟨hx.1, lt_trans hx.2 hlt⟩
  · intro hsub
    have hm_in : m ∈ (Finset.range size).filter
        (fun x => g.getD x 0 < g.getD n 0) := by
      rw [Finset.mem_filter, Finset.mem_range]
      exact ⟨hm, hlt⟩
    have hmem := hsub hm_in
    rw [Finset.mem_filter] at hmem
    exact absurd hmem.2 (lt_irrefl _)

theorem gRank_lt_size {g : List ℚ} {size n : Nat} (hn : n < size) :
    gRank g size n < size := by
  have hsub : (Finset.range size).filter (fun m => g.getD m 0 < g.getD n 0) ⊆
      (Finset.range size).erase n := by
    intro x hx
    rw [Finset.mem_filter] at hx
    rw [Finset.mem_erase]
    refine ⟨?_, Finset.mem_range.mpr (Finset.mem_range.mp hx.1)⟩
    intro hc
    subst hc
    exact absurd hx.2 (lt_irrefl _)
  have hcard := Finset.card_le_card hsub
  rw [Finset.card_erase_of_mem (Finset.mem_range.mpr hn),
    Finset.card_range] at hcard
  rw [gRank]
  omega

theorem reconstruct_spec {cost : List Int} {w h start : Nat} {cf : List Int}
    {g : List ℚ}
    (hcf : ∀ n, n < w * h → n ≠ start → g.getD n 0 < G_INFINITY →
      0 ≤ cf.getD n (-1) ∧ (cf.getD n (-1)).toNat < w * h ∧
      Adj w h (cf.getD n (-1)).toNat n ∧ cost.getD n 0 ≠ 0 ∧
      g.getD (cf.getD n (-1)).toNat 0 < g.getD n 0) :
    ∀ fuel node acc, node < w * h → node ≠ start →
      g.getD node 0 < G_INFINITY →
      gRank g (w * h) node < fuel →
      List.Chain (Adj w h) node acc →
      (∀ m ∈ acc, cost.getD m 0 ≠ 0) →
      start ∉ acc →
      List.Chain (Adj w h) start (reconstruct cf start fuel node acc) ∧
      (∀ m ∈ reconstruct cf start fuel node acc, cost.getD m 0 ≠ 0) ∧
      (reconstruct cf start fuel node acc).getLast? =
        (node :: acc).getLast? ∧
      start ∉ reconstruct cf start fuel node acc ∧
      reconstruct cf start fuel node acc ≠ [] := by
  intro fuel
  induction fuel with
  | zero =>
    intro node acc hnode hnst hg hrank
    omega
  | succ fuel ih =>
    intro node acc hnode hnst hg hrank hchain hcosts hstacc
    rw [reconstruct, if_neg hnst]
    obtain ⟨c0, c1, c2, c3, c4⟩ := hcf node hnode hnst hg
    have hgnext : g.getD (cf.getD node (-1)).toNat 0 < G_INFINITY :=
      lt_trans c4 hg
    have hranknext : gRank g (w * h) (cf.getD node (-1)).toNat < fuel := by
      have := gRank_lt c1 c4
      omega
    have hchain' : List.Chain (Adj w h) (cf.getD node (-1)).toNat
        (node :: acc) := List.Chain.cons c2 hchain
    have hcosts' : ∀ m ∈ node :: acc, cost.getD m 0 ≠ 0 := by
      intro m hm
      rcases List.mem_cons.mp hm with rfl | hm'
      · exact c3
      · exact hcosts m hm'
    have hstacc' : start ∉ node :: acc := by
      intro hc
      rcases List.mem_cons.mp hc with hc' | hc'
      · exact hnst hc'.symm
      · exact hstacc hc'
    by_cases hnext : (cf.getD node (-1)).toNat = start
    · cases fuel with
      | zero => omega
      | succ k =>
        rw [hnext, reconstruct, if_pos rfl]
        rw [hnext] at hchain'
        refine ⟨hchain', hcosts', rfl, hstacc', by simp⟩
    · obtain ⟨r1, r2, r3, r4, r5⟩ := ih (cf.getD node (-1)).toNat
        (node :: acc) c1 hnext hgnext hranknext hchain' hcosts' hstacc'
      refine ⟨r1, r2, ?_, r4, r5⟩
      rw [r3, List.getLast?_cons_cons]

end Astar

namespace Astar

theorem no_path_of_empty {cost : List Int} {w h start goal : Nat}
    {st : AstarSt} (hh : 0 < h) (hstart : start < w * h)
    (hinv : SInv cost w h start goal st) (hemp : st.heapData = []) :
    ∀ p, ¬PathTo cost w h start goal p := by
  have hnoheap : ∀ n, n < w * h → st.g_score.getD n 0 < G_INFINITY →
      st.closed.getD n false = true := by
    intro n hn hg
    by_cases hcl : st.closed.getD n false = true
    · exact hcl
    · have hmem := hinv.frontier n hn hg (Bool.not_eq_true _ ▸ hcl)
      have hslot := (hinv.coh.2.2 n hn hmem).1
      rw [hemp] at hslot
      simp at hslot
  have hstart_cl : st.closed.getD start false = true := by
    apply hnoheap start hstart
    rw [hinv.g_start, G_INFINITY]
    norm_num
  have haux : ∀ (a : Nat) (l : List Nat), a < w * h →
      st.closed.getD a false = true → List.Chain (Adj w h) a l →
      (∀ m ∈ l, cost.getD m 0 ≠ 0) →
      ∀ m ∈ l, st.closed.getD m false = true := by
    intro a l
    induction l generalizing a with
    | nil =>
      intro _ _ _ _ m hm
      simp at hm
    | cons b t ihl =>
      intro ha hacl hchain hcosts m hm
      obtain ⟨hab, hbt⟩ := List.chain_cons.mp hchain
      obtain ⟨d, hd, hnoob, hni⟩ := adj_to_dir hh hab
      have hcb : cost.getD b 0 ≠ 0 := hcosts b (List.mem_cons_self b t)
      have hb_g : st.g_score.getD b 0 < G_INFINITY := by
        have hnb := hinv.closed_nbrs a ha hacl d hd hnoob (by rw [hni]; exact hcb)
        rw [hni] at hnb
        exact hnb
      have hb_lt : b < w * h := hab.2.1
      have hb_cl := hnoheap b hb_lt hb_g
      rcases List.mem_cons.mp hm with rfl | hm'
      · exact hb_cl
      · exact ihl b hb_lt hb_cl hbt
          (fun x hx => hcosts x (List.mem_cons_of_mem _ hx)) m hm'
  rintro p ⟨hpne, hchain, hcosts, hlast⟩
  have hgoal_mem : goal ∈ p := List.mem_of_getLast?_eq_some hlast
  have hgoal_cl := haux start p hstart hstart_cl hchain hcosts goal hgoal_mem
  rw [hinv.goal_open] at hgoal_cl
  exact absurd hgoal_cl (by norm_num)

end Astar

namespace Astar

theorem getD_replicate {α : Type} (k n : Nat) (a d : α) :
    (List.replicate k a).getD n d = if n < k then a else d := by
  by_cases hn : n < k
  · rw [if_pos hn, List.getD_eq_getElem _ _ (by simpa using hn),
      List.getElem_replicate]
  · rw [if_neg hn, List.getD_eq_default]
    simpa using hn

theorem countClosed_replicate (k : Nat) :
    countClosed (List.replicate k false) = 0 := by
  rw [countClosed, List.countP_eq_zero]
  intro b hb
  rw [List.eq_of_mem_replicate hb]
  norm_num

theorem push_empty {pos : List Int} {f : ℚ} {idx : Nat}
    (hpos : pos.getD idx (-1) = -1) :
    heap_push_or_decrease [] pos f idx = ([⟨f, idx⟩], pos.set idx 0) := by
  rw [heap_push_or_decrease]
  dsimp only
  rw [hpos, if_neg (by norm_num), List.length_nil, heap_sift_up,
    List.nil_append]
  norm_num

theorem reconstruct_self (cf : List Int) (start : Nat) :
    ∀ fuel acc, reconstruct cf start fuel start acc = acc := by
  intro fuel acc
  cases fuel with
  | zero => rw [reconstruct]
  | succ k => rw [reconstruct, if_pos rfl]

theorem empty_heap_coh (size : Nat) :
    HeapCoh [] (List.replicate size (-1)) size := by
  refine ⟨List.length_replicate size (-1), ?_, ?_⟩
  · intro j hj
    simp at hj
  · intro n hn hge
    rw [getD_replicate, if_pos hn] at hge
    exact absurd hge (by norm_num)

theorem initial_sinv {cost : List Int} {w h start goal : Nat} {f0 : ℚ}
    (hstart : start < w * h) :
    SInv cost w h start goal
      { g_score := (List.replicate (w * h) G_INFINITY).set start 0,
        came_from := List.replicate (w * h) (-1),
        closed := List.replicate (w * h) false,
        heapData := (heap_push_or_decrease [] (List.replicate (w * h) (-1))
          f0 start).1,
        heapPos := (heap_push_or_decrease [] (List.replicate (w * h) (-1))
          f0 start).2 } := by
  have hpushed : heap_push_or_decrease [] (List.replicate (w * h) (-1))
      f0 start = ([⟨f0, start⟩], (List.replicate (w * h) (-1)).set start 0) :=
    push_empty (by rw [getD_replicate, if_pos hstart])
  have hg0 : ∀ m, ((List.replicate (w * h) G_INFINITY).set start 0).getD m 0 =
      if start = m ∧ m < w * h then 0
      else if m < w * h then G_INFINITY else 0 := by
    intro m
    rw [Fov.getD_set_ite, List.length_replicate, getD_replicate]
  have hcl0 : ∀ m, (List.replicate (w * h) false).getD m false = false := by
    intro m
    rw [getD_replicate]
    split <;> rfl
  have hinf_pos : (0 : ℚ) < G_INFINITY := by
    rw [G_INFINITY]
    norm_num
  refine ⟨?_, List.length_replicate _ _, List.length_replicate _ _, ?_, ?_,
    ?_, ?_, ?_, ?_, ?_, ?_, ?_, hcl0 goal⟩
  · rw [List.length_set, List.length_replicate]
  · -- coh
    rw [hpushed]
    refine ⟨by rw [List.length_set, List.length_replicate], ?_, ?_⟩
    · intro j hj
      have hj0 : j = 0 := by simpa using hj
      subst hj0
      refine ⟨hstart, ?_⟩
      rw [List.getD_cons_zero, Fov.getD_set_ite, List.length_replicate,
        if_pos ⟨rfl, hstart⟩]
      norm_num
    · intro n hn hge
      rw [Fov.getD_set_ite, List.length_replicate] at hge
      by_cases hns : start = n
      · subst hns
        rw [if_pos ⟨rfl, hn⟩] at hge
        rw [Fov.getD_set_ite, List.length_replicate, if_pos ⟨rfl, hn⟩]
        exact ⟨by norm_num, rfl⟩
      · rw [if_neg (fun hc => hns hc.1), getD_replicate, if_pos hn] at hge
        exact absurd hge (by norm_num)
  · -- entries
    intro e he
    rw [hpushed] at he
    have he' : e = ⟨f0, start⟩ := by simpa using he
    subst he'
    exact ⟨hstart, hcl0 start, by rw [hg0, if_pos ⟨rfl, hstart⟩]; exact hinf_pos⟩
  · -- frontier
    intro n hn hg hcl
    have hns : start = n := by
      by_contra hc
      rw [hg0, if_neg (fun hcc => hc hcc.1), if_pos hn] at hg
      exact absurd hg (lt_irrefl _)
    rw [hpushed, InHeap, Fov.getD_set_ite, List.length_replicate,
      if_pos ⟨hns, hn⟩]
  · -- closed_nbrs
    intro n hn hcl
    rw [hcl0] at hcl
    exact absurd hcl (by norm_num)
  · -- closed_g
    intro n hn hcl
    rw [hcl0] at hcl
    exact absurd hcl (by norm_num)
  · -- cf_ok
    intro n hn hns hg
    rw [hg0, if_neg (fun hc => hns hc.1.symm), if_pos hn] at hg
    exact absurd hg (lt_irrefl _)
  · -- g_start
    rw [hg0, if_pos ⟨rfl, hstart⟩]
  · -- g_nonneg
    intro n hn
    rw [hg0]
    by_cases h1 : start = n ∧ n < w * h
    · rw [if_pos h1]
    · rw [if_neg h1, if_pos hn]
      exact le_of_lt hinf_pos
  · -- g_bound
    intro n hn hg
    by_cases h1 : start = n ∧ n < w * h
    · rw [hg0, if_pos h1]
      positivity
    · rw [hg0, if_neg h1, if_pos hn] at hg
      exact absurd hg (lt_irrefl _)

end Astar

namespace Astar

theorem chain_mem_lt {w h : Nat} :
    ∀ (l : List Nat) (a : Nat), List.Chain (Adj w h) a l →
      ∀ m ∈ l, m < w * h := by
  intro l
  induction l with
  | nil =>
    intro a _ m hm
    simp at hm
  | cons b t ih =>
    intro a hchain m hm
    obtain ⟨hab, hbt⟩ := List.chain_cons.mp hchain
    rcases List.mem_cons.mp hm with rfl | hm'
    · exact hab.2.1
    · exact ih b hbt m hm'

theorem flat_lt {w h x y : Nat} (hx : x < w) (hy : y < h) :
    x * h + y < w * h := by
  calc x * h + y < x * h + h := by omega
  _ = (x + 1) * h := by ring
  _ ≤ w * h := Nat.mul_le_mul_right h hx

theorem astar_search_correct
    (cost : List Int) (w h sx sy gx gy : Nat)
    (hh : 0 < h) (hsx : sx < w) (hsy : sy < h) (hgx : gx < w) (hgy : gy < h)
    (hclen : cost.length = w * h) (hwh : w * h ≤ 2 ^ 31)
    (hcost : ∀ c ∈ cost, 0 ≤ c ∧ c ≤ 32767) :
    (astar_search cost w h sx sy gx gy = [] ↔
      ((sx = gx ∧ sy = gy) ∨ cost.getD (sx * h + sy) 0 = 0 ∨
        cost.getD (gx * h + gy) 0 = 0 ∨
        ∀ p, ¬PathTo cost w h (sx * h + sy) (gx * h + gy) p)) ∧
    (astar_search cost w h sx sy gx gy ≠ [] →
      GoodPath cost w h (sx * h + sy) (gx * h + gy)
        (astar_search cost w h sx sy gx gy)) := by
  have hstart_lt : sx * h + sy < w * h := flat_lt hsx hsy
  have hgoal_lt : gx * h + gy < w * h := flat_lt hgx hgy
  have hcoords : sx * h + sy = gx * h + gy ↔ (sx = gx ∧ sy = gy) := by
    constructor
    · intro he
      obtain ⟨d1, m1⟩ := index_coords sx sy hh hsy
      obtain ⟨d2, m2⟩ := index_coords gx gy hh hgy
      constructor
      · rw [← d1, ← d2, he]
      · rw [← m1, ← m2, he]
    · rintro ⟨rfl, rfl⟩
      rfl
  rw [astar_search]
  dsimp only
  by_cases hqs : cost.getD (sx * h + sy) 0 = 0 ∨ cost.getD (gx * h + gy) 0 = 0
  · rw [if_pos hqs]
    constructor
    · constructor
      · intro
        rcases hqs with hq | hq
        · exact Or.inr (Or.inl hq)
        · exact Or.inr (Or.inr (Or.inl hq))
      · intro
        rfl
    · intro hc
      exact absurd rfl hc
  · rw [if_neg hqs]
    have hsinv := @initial_sinv cost w h _ (gx * h + gy)
      (HEURISTIC_WEIGHT * octile_h_from_deltas
        (((List.range w).map (fun x =>
          if (x : Int) - (gx : Int) < 0 then -((x : Int) - (gx : Int))
          else (x : Int) - (gx : Int))).getD sx 0)
        (((List.range h).map (fun y =>
          if (y : Int) - (gy : Int) < 0 then -((y : Int) - (gy : Int))
          else (y : Int) - (gy : Int))).getD sy 0))
      hstart_lt
    have hcc0 : countClosed (List.replicate (w * h) false) = 0 :=
      countClosed_replicate (w * h)
    obtain ⟨hfalse_case, htrue_case⟩ :=
      astarLoop_spec hh hclen hwh hcost (w * h + 1) _
        hsinv (by rw [hcc0]; omega)
    by_cases hfound :
        (astarLoop cost w h (gx * h + gy)
          ((List.range w).map (fun x =>
            if (x : Int) - (gx : Int) < 0 then -((x : Int) - (gx : Int))
            else (x : Int) - (gx : Int)))
          ((List.range h).map (fun y =>
            if (y : Int) - (gy : Int) < 0 then -((y : Int) - (gy : Int))
            else (y : Int) - (gy : Int)))
          (w * h + 1)
          { g_score := (List.replicate (w * h) G_INFINITY).set (sx * h + sy) 0,
            came_from := List.replicate (w * h) (-1),
            closed := List.replicate (w * h) false,
            heapData := (heap_push_or_decrease []
              (List.replicate (w * h) (-1))
              (HEURISTIC_WEIGHT * octile_h_from_deltas
                (((List.range w).map (fun x =>
                  if (x : Int) - (gx : Int) < 0 then -((x : Int) - (gx : Int))
                  else (x : Int) - (gx : Int))).getD sx 0)
                (((List.range h).map (fun y =>
                  if (y : Int) - (gy : Int) < 0 then -((y : Int) - (gy : Int))
                  else (y : Int) - (gy : Int))).getD sy 0))
              (sx * h + sy)).1,
            heapPos := (heap_push_or_decrease []
              (List.replicate (w * h) (-1))
              (HEURISTIC_WEIGHT * octile_h_from_deltas
                (((List.range w).map (fun x =>
                  if (x : Int) - (gx : Int) < 0 then -((x : Int) - (gx : Int))
                  else (x : Int) - (gx : Int))).getD sx 0)
                (((List.range h).map (fun y =>
                  if (y : Int) - (gy : Int) < 0 then -((y : Int) - (gy : Int))
                  else (y : Int) - (gy : Int))).getD sy 0))
              (sx * h + sy)).2 }).1 = true
    · rw [if_pos hfound]
      have hfinv := htrue_case hfound
      by_cases hsg : sx * h + sy = gx * h + gy
      · rw [← hsg, reconstruct_self]
        constructor
        · constructor
          · intro
            exact Or.inl (hcoords.mp hsg)
          · intro
            rfl
        · intro hc
          exact absurd rfl hc
      · obtain ⟨r1, r2, r3, r4, r5⟩ := reconstruct_spec hfinv.cf_ok
          (w * h) (gx * h + gy) [] hgoal_lt (fun hc => hsg hc.symm)
          hfinv.g_goal (gRank_lt_size hgoal_lt) List.Chain.nil
          (fun m hm => absurd hm (List.not_mem_nil m)) (List.not_mem_nil _)
        have hlast : ((gx * h + gy) :: ([] : List Nat)).getLast? =
            some (gx * h + gy) := rfl
        rw [hlast] at r3
        constructor
        · constructor
          · intro hc
            exact absurd hc r5
          · rintro (hco | hq | hq | hnp)
            · exact absurd (hcoords.mpr hco) hsg
            · exact absurd (Or.inl hq) hqs
            · exact absurd (Or.inr hq) hqs
            · exact absurd ⟨r5, r1, r2, r3⟩ (hnp _)
        · intro
          exact ⟨r1, r2, r3, r4⟩
    · rw [if_neg hfound]
      have hff : (astarLoop cost w h (gx * h + gy) _ _ (w * h + 1) _).1 = false :=
        Bool.not_eq_true _ ▸ hfound
      obtain ⟨hsinv', hempty⟩ := hfalse_case hff
      have hnp := no_path_of_empty hh hstart_lt hsinv' hempty
      constructor
      · constructor
        · intro
          exact Or.inr (Or.inr (Or.inr hnp))
        · intro
          rfl
      · intro hc
        exact absurd rfl hc

end Astar

namespace Astar

/-- C6: for in-bounds endpoints, `astar` returns the empty list exactly when
the start equals the goal, the start or goal cell has cost 0, or no
8-connected path through nonzero-cost cells exists; otherwise it returns a
nonempty path of `(x, y)` pairs ending at the goal and excluding the start. -/
theorem astar_empty_characterization
    (cost : List Int) (w h sx sy gx gy : Nat)
    (hh : 0 < h) (hsx : sx < w) (hsy : sy < h) (hgx : gx < w) (hgy : gy < h)
    (hclen : cost.length = w * h) (hwh : w * h ≤ 2 ^ 31)
    (hcost : ∀ c ∈ cost, 0 ≤ c ∧ c ≤ 32767) :
    ∃ l, brileta_native_astar cost w h sx sy gx gy = Except.ok l ∧
      (l = [] ↔
        ((sx = gx ∧ sy = gy) ∨ cost.getD (sx * h + sy) 0 = 0 ∨
          cost.getD (gx * h + gy) 0 = 0 ∨
          ∀ p, ¬PathTo cost w h (sx * h + sy) (gx * h + gy) p)) ∧
      (l ≠ [] → ∃ q, l = q.map (fun i => (i / h, i % h)) ∧
        GoodPath cost w h (sx * h + sy) (gx * h + gy) q ∧
        l.getLast? = some (gx, gy) ∧ (sx, sy) ∉ l) := by
  rw [brileta_native_astar]
  have hb : ¬((sx : Int) < 0 ∨ (w : Int) ≤ (sx : Int) ∨ (sy : Int) < 0 ∨
      (h : Int) ≤ (sy : Int) ∨ (gx : Int) < 0 ∨ (w : Int) ≤ (gx : Int) ∨
      (gy : Int) < 0 ∨ (h : Int) ≤ (gy : Int)) := by
    push_neg
    omega
  rw [if_neg hb]
  by_cases heq : (sx : Int) = (gx : Int) ∧ (sy : Int) = (gy : Int)
  · rw [if_pos heq]
    refine ⟨[], rfl, ?_, ?_⟩
    · constructor
      · intro
        left
        exact ⟨by exact_mod_cast heq.1, by exact_mod_cast heq.2⟩
      · intro
        rfl
    · intro hc
      exact absurd rfl hc
  · rw [if_neg heq]
    obtain ⟨hiff, hgood⟩ := astar_search_correct cost w h sx sy gx gy
      hh hsx hsy hgx hgy hclen hwh hcost
    have hts : ((sx : Int)).toNat = sx := Int.toNat_natCast sx
    have htt : ((sy : Int)).toNat = sy := Int.toNat_natCast sy
    have htu : ((gx : Int)).toNat = gx := Int.toNat_natCast gx
    have htv : ((gy : Int)).toNat = gy := Int.toNat_natCast gy
    rw [hts, htt, htu, htv]
    refine ⟨_, rfl, ?_, ?_⟩
    · rw [List.map_eq_nil_iff]
      exact hiff
    · intro hne
      have hres_ne : astar_search cost w h sx sy gx gy ≠ [] := by
        intro hc
        rw [hc] at hne
        exact hne rfl
      obtain ⟨r1, r2, r3, r4⟩ := hgood hres_ne
      refine ⟨astar_search cost w h sx sy gx gy, rfl, ⟨r1, r2, r3, r4⟩, ?_, ?_⟩
      · rw [List.getLast?_map, r3]
        have hgd : (gx * h + gy) / h = gx ∧ (gx * h + gy) % h = gy :=
          index_coords gx gy hh hgy
        rw [Option.map_some']
        rw [hgd.1, hgd.2]
      · intro hc
        obtain ⟨i, hi_mem, hfi⟩ := List.mem_map.mp hc
        have hi_lt : i < w * h :=
          chain_mem_lt (astar_search cost w h sx sy gx gy) _ r1 i hi_mem
        have hix : i / h = sx ∧ i % h = sy := by
          have h1 := congrArg Prod.fst hfi
          have h2 := congrArg Prod.snd hfi
          exact ⟨h1, h2⟩
        have hieq : i = sx * h + sy := by
          have hdm : i / h * h + i % h = i := by
            rw [Nat.mul_comm]
            exact Nat.div_add_mod i h
          rw [← hdm, hix.1, hix.2]
        rw [hieq] at hi_mem
        exact r4 hi_mem

/-- Witness for C6 on a concrete 2×2 all-ones grid from `(0,0)` to `(1,1)`:
the hypotheses hold and the returned list is the diagonal step. -/
theorem astar_empty_characterization_witness :
    (∀ c ∈ ([1, 1, 1, 1] : List Int), 0 ≤ c ∧ c ≤ 32767) ∧
    (∃ l, brileta_native_astar [1, 1, 1, 1] 2 2 0 0 1 1 = Except.ok l ∧
      (l = [] ↔
        (((0 : Nat) = 1 ∧ (0 : Nat) = 1) ∨
          ([1, 1, 1, 1] : List Int).getD (0 * 2 + 0) 0 = 0 ∨
          ([1, 1, 1, 1] : List Int).getD (1 * 2 + 1) 0 = 0 ∨
          ∀ p, ¬PathTo [1, 1, 1, 1] 2 2 (0 * 2 + 0) (1 * 2 + 1) p)) ∧
      (l ≠ [] → ∃ q, l = q.map (fun i => (i / 2, i % 2)) ∧
        GoodPath [1, 1, 1, 1] 2 2 (0 * 2 + 0) (1 * 2 + 1) q ∧
        l.getLast? = some (1, 1) ∧ ((0 : Nat), (0 : Nat)) ∉ l)) :=
  ⟨by decide,
    astar_empty_characterization [1, 1, 1, 1] 2 2 0 0 1 1
      (by norm_num) (by norm_num) (by norm_num) (by norm_num) (by norm_num)
      (by norm_num) (by norm_num) (by decide)⟩

end Astar

namespace Astar

theorem root_min {data : List HeapEntry} (hheap : IsMinHeap data) :
    ∀ j, j < data.length → (data.getD 0 default).f ≤ (data.getD j default).f := by
  intro j
  induction j using Nat.strong_induction_on with
  | _ j ih =>
    intro hj
    cases Nat.eq_zero_or_pos j with
    | inl h0 =>
      subst h0
      exact le_refl _
    | inr hpos =>
      have hpar : (j - 1) / 2 < j := by omega
      exact le_trans (ih _ hpar (by omega)) (hheap j hpos hj)

theorem heap_swap_data {data : List HeapEntry} {pos : List Int} {a b : Nat} :
    (heap_swap data pos a b).1 =
      (data.set a (data.getD b default)).set b (data.getD a default) := rfl

theorem heap_swap_getD {data : List HeapEntry} {pos : List Int} {a b : Nat}
    (ha : a < data.length) (hb : b < data.length) :
    ∀ x, (heap_swap data pos a b).1.getD x default =
      if x = b then data.getD a default
      else if x = a then data.getD b default
      else data.getD x default := by
  intro x
  rw [heap_swap_data, Fov.getD_set_ite, Fov.getD_set_ite]
  simp only [List.length_set]
  by_cases h1 : x = b
  · subst h1
    rw [if_pos ⟨rfl, hb⟩, if_pos rfl]
  · rw [if_neg (fun hc => h1 hc.1.symm), if_neg h1]
    by_cases h2 : x = a
    · subst h2
      rw [if_pos ⟨rfl, ha⟩, if_pos rfl]
    · rw [if_neg (fun hc => h2 hc.1.symm), if_neg h2]

theorem heap_sift_up_order :
    ∀ fuel (data : List HeapEntry) (pos : List Int) i, i ≤ fuel →
      i < data.length → SiftUpOK data i →
      IsMinHeap (heap_sift_up data pos fuel i).1 := by
  intro fuel
  induction fuel with
  | zero =>
    intro data pos i hif hi hok
    have h0 : i = 0 := by omega
    subst h0
    rw [heap_sift_up]
    intro j hj hjl
    exact hok.1 j hj hjl (by omega)
  | succ fuel ih =>
    intro data pos i hif hi hok
    rw [heap_sift_up]
    by_cases h0 : i = 0
    · rw [if_pos h0]
      subst h0
      intro j hj hjl
      exact hok.1 j hj hjl (by omega)
    · rw [if_neg h0]
      by_cases hle : (data.getD ((i - 1) / 2) default).f ≤
          (data.getD i default).f
      · rw [if_pos hle]
        intro j hj hjl
        by_cases hji : j = i
        · subst hji
          exact hle
        · exact hok.1 j hj hjl hji
      · rw [if_neg hle]
        push_neg at hle
        have hplt : (i - 1) / 2 < data.length := by omega
        have hval := @heap_swap_getD data pos ((i - 1) / 2) i hplt hi
        have hlen' : (heap_swap data pos ((i - 1) / 2) i).1.length =
            data.length := by
          rw [heap_swap_data]
          simp
        apply ih _ _ ((i - 1) / 2) (by omega) (by rw [hlen']; omega)
        constructor
        · -- all edges except the one into (i-1)/2
          intro j hj hjl hjp
          rw [hlen'] at hjl
          rw [hval, hval]
          by_cases hji : j = i
          · -- the swapped edge ((i-1)/2, i)
            subst hji
            rw [if_pos rfl]
            have hpj : (j - 1) / 2 = (j - 1) / 2 := rfl
            rw [if_neg (by omega), if_pos (by omega)]
            exact le_of_lt hle
          · rw [if_neg hji]
            by_cases hjparp : (j - 1) / 2 = (i - 1) / 2
            · -- j is the sibling of i under their common parent
              rw [if_neg hjp, hjparp, if_neg (by omega), if_pos rfl]
              have hedge := hok.1 j hj hjl hji
              rw [hjparp] at hedge
              exact le_trans (le_of_lt hle) hedge
            · by_cases hjpari : (j - 1) / 2 = i
              · -- j is a child of i: use the grandparent bound
                rw [if_neg hjp, hjpari, if_pos rfl]
                exact hok.2 j hjl hjpari (by omega)
              · -- untouched edge
                rw [if_neg hjp, if_neg hjpari, if_neg hjparp]
                exact hok.1 j hj hjl hji
        · -- grandparent of (i-1)/2 below its children
          intro j hjl hjparp hppos
          rw [hlen'] at hjl
          rw [hval, hval]
          have hgp1 : ((i - 1) / 2 - 1) / 2 ≠ i := by omega
          have hgp2 : ((i - 1) / 2 - 1) / 2 ≠ (i - 1) / 2 := by omega
          rw [if_neg hgp1, if_neg hgp2]
          by_cases hji : j = i
          · -- j = i is a child of (i-1)/2; its new value is the old parent
            subst hji
            rw [if_pos rfl]
            exact hok.1 ((j - 1) / 2) hppos hplt (by omega)
          · rw [if_neg hji]
            have hjp : j ≠ (i - 1) / 2 := by omega
            rw [if_neg hjp]
            have h1 := hok.1 ((i - 1) / 2) hppos hplt (by omega)
            have h2 := hok.1 j (by omega) hjl hji
            rw [hjparp] at h2
            exact le_trans h1 h2

end Astar

namespace Astar

theorem sift_down_swap_ok {data : List HeapEntry} {pos : List Int} {i s2 : Nat}
    (hi : i < data.length) (hs2 : s2 < data.length) (hgt : i < s2)
    (hpar : (s2 - 1) / 2 = i) (hok : DownHeapOK data i)
    (hlt : (data.getD s2 default).f < (data.getD i default).f)
    (hother : ∀ x, 0 < x → x < data.length → (x - 1) / 2 = i → x ≠ s2 →
      (data.getD s2 default).f ≤ (data.getD x default).f) :
    DownHeapOK (heap_swap data pos s2 i).1 s2 := by
  have hval := @heap_swap_getD data pos s2 i hs2 hi
  have hlen' : (heap_swap data pos s2 i).1.length = data.length := by
    rw [heap_swap_data]
    simp
  have hsi : s2 ≠ i := by omega
  constructor
  · intro x hx hxl hxp
    rw [hlen'] at hxl
    rw [hval, hval]
    by_cases hxi : x = i
    · -- edge into i: grandparent bound of hok
      rw [if_pos hxi]
      have hp1 : (x - 1) / 2 ≠ i := by omega
      have hp2 : (x - 1) / 2 ≠ s2 := by omega
      rw [if_neg hp1, if_neg hp2]
      rw [hxi]
      exact hok.2 s2 hs2 (by omega) hpar
    · rw [if_neg hxi]
      by_cases hxs : x = s2
      · -- the swapped edge (i, s2)
        rw [if_pos hxs, hxs, hpar, if_pos rfl]
        exact le_of_lt hlt
      · rw [if_neg hxs]
        by_cases hpxi : (x - 1) / 2 = i
        · -- the sibling of s2 under i
          rw [hpxi, if_pos rfl]
          exact hother x hx hxl hpxi hxs
        · -- untouched edge
          have hq1 : (x - 1) / 2 ≠ s2 := hxp
          rw [if_neg hpxi, if_neg hq1]
          exact hok.1 x hx hxl hpxi
  · intro x hxl hs2pos hpxs
    rw [hlen'] at hxl
    rw [hval, hval]
    have hx1 : x ≠ i := by omega
    have hx2 : x ≠ s2 := by omega
    rw [if_pos hpar, if_neg hx1, if_neg hx2]
    have hedge := hok.1 x (by omega) hxl (by omega)
    rw [hpxs] at hedge
    exact hedge

theorem heap_sift_down_order :
    ∀ fuel (data : List HeapEntry) (pos : List Int) i,
      data.length ≤ fuel + i → i < data.length → DownHeapOK data i →
      IsMinHeap (heap_sift_down data pos fuel i).1 := by
  intro fuel
  induction fuel with
  | zero =>
    intro data pos i hfl hi hok
    omega
  | succ fuel ih =>
    intro data pos i hfl hi hok
    rw [heap_sift_down]
    dsimp only
    by_cases c1 : 2 * i + 1 < data.length ∧
        (data.getD (2 * i + 1) default).f < (data.getD i default).f
    · rw [if_pos c1]
      by_cases c2 : 2 * i + 1 + 1 < data.length ∧
          (data.getD (2 * i + 1 + 1) default).f <
            (data.getD (2 * i + 1) default).f
      · rw [if_pos c2, if_neg (by omega)]
        have hlen' : (heap_swap data pos (2 * i + 1 + 1) i).1.length =
            data.length := by
          rw [heap_swap_data]
          simp
        refine ih _ _ (2 * i + 1 + 1) ?_ ?_ ?_
        · rw [hlen']
          omega
        · rw [hlen']
          omega
        · apply sift_down_swap_ok hi c2.1 (by omega) (by omega) hok
            (lt_trans c2.2 c1.2)
          intro x hx0 hxl hpx hxs
          have hx : x = 2 * i + 1 := by omega
          rw [hx]
          exact le_of_lt c2.2
      · rw [if_neg c2]
        by_cases hli : 2 * i + 1 = i
        · omega
        · rw [if_neg hli]
          have hlen' : (heap_swap data pos (2 * i + 1) i).1.length =
              data.length := by
            rw [heap_swap_data]
            simp
          refine ih _ _ (2 * i + 1) ?_ ?_ ?_
          · rw [hlen']
            omega
          · rw [hlen']
            omega
          · apply sift_down_swap_ok hi c1.1 (by omega) (by omega) hok c1.2
            intro x hx0 hxl hpx hxs
            have hx : x = 2 * i + 1 + 1 := by omega
            push_neg at c2
            rw [hx]
            exact c2 (by omega)
    · rw [if_neg c1]
      by_cases c2 : 2 * i + 1 + 1 < data.length ∧
          (data.getD (2 * i + 1 + 1) default).f < (data.getD i default).f
      · rw [if_pos c2, if_neg (by omega)]
        have hlen' : (heap_swap data pos (2 * i + 1 + 1) i).1.length =
            data.length := by
          rw [heap_swap_data]
          simp
        refine ih _ _ (2 * i + 1 + 1) ?_ ?_ ?_
        · rw [hlen']
          omega
        · rw [hlen']
          omega
        · apply sift_down_swap_ok hi c2.1 (by omega) (by omega) hok c2.2
          intro x hx0 hxl hpx hxs
          have hx : x = 2 * i + 1 := by omega
          push_neg at c1
          rw [hx]
          exact le_trans (le_of_lt c2.2) (c1 (by omega))
      · rw [if_neg c2, if_pos rfl]
        intro j hj hjl
        by_cases hpj : (j - 1) / 2 = i
        · push_neg at c1 c2
          have hj2 : j = 2 * i + 1 ∨ j = 2 * i + 1 + 1 := by omega
          rcases hj2 with rfl | rfl
          · rw [hpj]
            exact c1 hjl
          · rw [hpj]
            exact c2 hjl
        · exact hok.1 j hj hjl hpj

end Astar

namespace Astar

theorem heap_pop_order {data : List HeapEntry} {pos : List Int}
    (hne : data ≠ []) (hheap : IsMinHeap data) :
    (∀ e ∈ data, (heap_pop data pos).1.f ≤ e.f) ∧
    IsMinHeap (heap_pop data pos).2.1 := by
  have h0 : 0 < data.length := List.length_pos.mpr hne
  have hmin : ∀ e ∈ data, (data.getD 0 default).f ≤ e.f := by
    intro e he
    obtain ⟨j, hj, hje⟩ := List.mem_iff_getElem.mp he
    have := root_min hheap j hj
    rw [List.getD_eq_getElem _ _ hj, hje] at this
    exact this
  rw [heap_pop]
  dsimp only
  by_cases h1 : 1 < data.length
  · rw [if_pos h1]
    dsimp only
    refine ⟨hmin, ?_⟩
    set last := data.getD (data.length - 1) default with hlast_def
    set data' := ((data.set 0 last).take (data.length - 1)) with hddef
    have hdlen : data'.length = data.length - 1 := by
      rw [hddef]
      simp only [List.length_take, List.length_set]
      omega
    have hget' : ∀ j, j < data.length - 1 →
        data'.getD j default = if 0 = j then last else data.getD j default := by
      intro j hj
      rw [hddef, getD_take_lt _ _ _ _ hj (by rw [List.length_set]; omega),
        Fov.getD_set_ite]
      by_cases hj0 : 0 = j
      · rw [if_pos ⟨hj0, by omega⟩, if_pos hj0]
      · rw [if_neg (fun hc => hj0 hc.1), if_neg hj0]
    apply heap_sift_down_order data'.length _ _ 0 (by omega) (by omega)
    constructor
    · intro x hx hxl hxp
      rw [hdlen] at hxl
      rw [hget' _ (by omega), hget' _ (by omega)]
      rw [if_neg (fun hc => hxp hc.symm)]
      rw [if_neg (show ¬(0 = x) by omega)]
      exact hheap x hx (by omega)
    · intro x hxl hx0
      omega
  · rw [if_neg h1]
    refine ⟨hmin, ?_⟩
    intro j hj hjl
    simp at hjl

theorem heap_push_entries {data : List HeapEntry} {pos : List Int} {size : Nat}
    {f : ℚ} {idx : Nat} (hcoh : HeapCoh data pos size) (hidx : idx < size)
    (hdec : 0 ≤ pos.getD idx (-1) →
      f < (data.getD (pos.getD idx (-1)).toNat default).f) :
    ∀ e ∈ (heap_push_or_decrease data pos f idx).1,
      (e ∈ data ∧ e.idx ≠ idx) ∨ e = ⟨f, idx⟩ := by
  obtain ⟨hplen, hdir1, hdir2⟩ := hcoh
  rw [heap_push_or_decrease]
  dsimp only
  by_cases hp : 0 ≤ pos.getD idx (-1)
  · rw [if_pos hp]
    obtain ⟨hslot, hsidx⟩ := hdir2 idx hidx hp
    rw [if_neg (by push_neg; exact hdec hp)]
    intro e he
    -- sifting only permutes entries
    have hperm : ∀ e' ∈ (heap_sift_up
        (data.set (pos.getD idx (-1)).toNat
          ⟨f, (data.getD (pos.getD idx (-1)).toNat default).idx⟩)
        pos (pos.getD idx (-1)).toNat (pos.getD idx (-1)).toNat).1,
        e' ∈ data.set (pos.getD idx (-1)).toNat
          ⟨f, (data.getD (pos.getD idx (-1)).toNat default).idx⟩ := by
      have hcoh1 : HeapCoh (data.set (pos.getD idx (-1)).toNat
          ⟨f, (data.getD (pos.getD idx (-1)).toNat default).idx⟩) pos size := by
        refine ⟨hplen, ?_, ?_⟩
        · intro j hj
          rw [List.length_set] at hj
          rw [Fov.getD_set_ite]
          by_cases hjp : (pos.getD idx (-1)).toNat = j
          · rw [if_pos ⟨hjp, by omega⟩]
            dsimp only
            rw [← hjp]
            exact hdir1 _ hslot
          · rw [if_neg (fun hc => hjp hc.1)]
            exact hdir1 j hj
        · intro n hn hge
          obtain ⟨g1, g2⟩ := hdir2 n hn hge
          rw [List.length_set]
          refine ⟨g1, ?_⟩
          rw [Fov.getD_set_ite]
          by_cases hjp : (pos.getD idx (-1)).toNat = (pos.getD n (-1)).toNat
          · rw [if_pos ⟨hjp, by omega⟩]
            dsimp only
            rw [hjp]
            exact g2
          · rw [if_neg (fun hc => hjp hc.1)]
            exact g2
      exact (heap_sift_up_spec _ _ _ _ hcoh1
        (by rw [List.length_set]; exact hslot)).2.2.2
    have he' := hperm e he
    obtain ⟨j, hj, hje⟩ := List.mem_iff_getElem.mp he'
    rw [List.length_set] at hj
    by_cases hjp : j = (pos.getD idx (-1)).toNat
    · right
      rw [← hje]
      subst hjp
      rw [List.getElem_set_self, hsidx]
    · left
      have hget : (data.set (pos.getD idx (-1)).toNat
          ⟨f, (data.getD (pos.getD idx (-1)).toNat default).idx⟩)[j] =
          data[j] := by
        rw [List.getElem_set_ne]
        omega
      rw [← hje, hget]
      refine ⟨List.getElem_mem hj, ?_⟩
      intro hc
      have := (hdir1 j hj).2
      rw [List.getD_eq_getElem _ _ hj, hc] at this
      have hj2 : pos.getD idx (-1) = (j : Int) := this
      omega
  · rw [if_neg hp]
    intro e he
    have hperm : ∀ e' ∈ (heap_sift_up (data ++ [⟨f, idx⟩])
        (pos.set idx (data.length : Int)) data.length data.length).1,
        e' ∈ data ++ [(⟨f, idx⟩ : HeapEntry)] := by
      have hpos1 : ∀ n, (pos.set idx (data.length : Int)).getD n (-1) =
          if idx = n then (data.length : Int) else pos.getD n (-1) := by
        intro n
        rw [Fov.getD_set_ite]
        by_cases hc : idx = n
        · subst hc
          rw [if_pos ⟨rfl, by omega⟩, if_pos rfl]
        · rw [if_neg (fun hcc => hc hcc.1), if_neg hc]
      have hcoh1 : HeapCoh (data ++ [(⟨f, idx⟩ : HeapEntry)])
          (pos.set idx (data.length : Int)) size := by
        refine ⟨by simpa using hplen, ?_, ?_⟩
        · intro j hj
          simp only [List.length_append, List.length_singleton] at hj
          by_cases hje : j = data.length
          · subst hje
            rw [List.getD_append_right _ _ _ _ (Nat.le_refl _)]
            simp only [Nat.sub_self, List.getD_cons_zero]
            rw [hpos1, if_pos rfl]
            exact ⟨hidx, rfl⟩
          · have hj' : j < data.length := by omega
            rw [List.getD_append _ _ _ _ hj']
            have h1 := hdir1 j hj'
            have hne : idx ≠ (data.getD j default).idx := by
              intro hc
              rw [← hc] at h1
              rw [h1.2] at hp
              exact hp (by exact_mod_cast Nat.zero_le j)
            rw [hpos1, if_neg hne]
            exact h1
        · intro n hn hge
          rw [hpos1] at hge ⊢
          simp only [List.length_append, List.length_singleton]
          by_cases hc : idx = n
          · subst hc
            rw [if_pos rfl] at hge ⊢
            refine ⟨by omega, ?_⟩
            have hcast : ((data.length : Int)).toNat = data.length := by omega
            rw [hcast, List.getD_append_right _ _ _ _ (Nat.le_refl _)]
            simp
          · rw [if_neg hc] at hge ⊢
            obtain ⟨g1, g2⟩ := hdir2 n hn hge
            refine ⟨by omega, ?_⟩
            rw [List.getD_append _ _ _ _ g1]
            exact g2
      exact (heap_sift_up_spec _ _ _ _ hcoh1
        (by simp)).2.2.2
    have he' := hperm e he
    rcases List.mem_append.mp he' with h | h
    · left
      refine ⟨h, ?_⟩
      intro hc
      have hinh := mem_inheap ⟨hplen, hdir1, hdir2⟩ h
      rw [InHeap, hc] at hinh
      exact hp hinh
    · right
      exact List.mem_singleton.mp h

theorem heap_push_order {data : List HeapEntry} {pos : List Int} {size : Nat}
    (hcoh : HeapCoh data pos size) (hidx : idx < size)
    (hheap : IsMinHeap data) :
    IsMinHeap (heap_push_or_decrease data pos f idx).1 := by
  obtain ⟨hplen, hdir1, hdir2⟩ := hcoh
  rw [heap_push_or_decrease]
  dsimp only
  by_cases hp : 0 ≤ pos.getD idx (-1)
  · rw [if_pos hp]
    obtain ⟨hslot, hsidx⟩ := hdir2 idx hidx hp
    by_cases hle : (data.getD (pos.getD idx (-1)).toNat default).f ≤ f
    · rw [if_pos hle]
      exact hheap
    · rw [if_neg hle]
      push_neg at hle
      set p := (pos.getD idx (-1)).toNat with hp_def
      have hset : ∀ x, (data.set p
          ⟨f, (data.getD p default).idx⟩).getD x default =
          if p = x ∧ x < data.length then ⟨f, (data.getD p default).idx⟩
          else data.getD x default := by
        intro x
        rw [Fov.getD_set_ite]
      apply heap_sift_up_order p _ _ p (le_refl p)
        (by rw [List.length_set]; exact hslot)
      constructor
      · intro j hj hjl hjp
        rw [List.length_set] at hjl
        rw [hset, hset]
        by_cases hparp : (j - 1) / 2 = p
        · rw [if_pos ⟨hparp.symm, by omega⟩, if_neg (fun hc => hjp hc.1.symm)]
          dsimp only
          have hedge := hheap j hj hjl
          rw [hparp] at hedge
          exact le_trans (le_of_lt hle) hedge
        · rw [if_neg (fun hc => hparp hc.1.symm),
            if_neg (fun hc => hjp hc.1.symm)]
          exact hheap j hj hjl
      · intro j hjl hparp hppos
        rw [List.length_set] at hjl
        rw [hset, hset]
        have hg1 : ¬(p = (p - 1) / 2) := by omega
        have hg2 : j ≠ p := by omega
        rw [if_neg (fun hc => hg1 hc.1), if_neg (fun hc => hg2 hc.1.symm)]
        have h1 := hheap p hppos hslot
        have h2 := hheap j (by omega) hjl
        rw [hparp] at h2
        exact le_trans h1 h2
  · rw [if_neg hp]
    have happ : ∀ x, x < data.length →
        (data ++ [(⟨f, idx⟩ : HeapEntry)]).getD x default =
          data.getD x default := by
      intro x hx
      exact List.getD_append _ _ _ _ hx
    apply heap_sift_up_order data.length _ _ data.length (le_refl _)
      (by simp)
    constructor
    · intro j hj hjl hjp
      simp only [List.length_append, List.length_singleton] at hjl
      have hjlt : j < data.length := by omega
      rw [happ _ hjlt, happ _ (by omega)]
      exact hheap j hj hjlt
    · intro j hjl hparp hppos
      simp only [List.length_append, List.length_singleton] at hjl
      omega

end Astar

namespace Astar

theorem sqrt2_strict : (1 : ℚ) < SQRT2 ∧ SQRT2 < 2 := by
  rw [SQRT2]
  norm_num

theorem sqrt2_minus_2_eq : SQRT2_MINUS_2 = SQRT2 - 2 := by
  rw [SQRT2_MINUS_2, SQRT2]
  norm_num

theorem hw_gt_one : (1 : ℚ) < HEURISTIC_WEIGHT := by
  rw [HEURISTIC_WEIGHT]
  norm_num

theorem hw_lt : HEURISTIC_WEIGHT < 10101 / 10000 := by
  rw [HEURISTIC_WEIGHT]
  norm_num

theorem octAbs_nonneg (p q : Int) : 0 ≤ octAbs p q := by
  rw [octAbs]
  have h1 := sqrt2_bounds.1
  have h2 : (0 : ℚ) ≤ ((max p.natAbs q.natAbs : Nat) : ℚ) := by positivity
  have h3 : (0 : ℚ) ≤ ((min p.natAbs q.natAbs : Nat) : ℚ) := by positivity
  nlinarith

theorem cast_max_min_add (A B : Nat) :
    ((max A B : Nat) : ℚ) + ((min A B : Nat) : ℚ) = (A : ℚ) + (B : ℚ) := by
  rcases le_total A B with h | h
  · rw [max_eq_right h, min_eq_left h]
    exact add_comm _ _
  · rw [max_eq_left h, min_eq_right h]

theorem cast_pred (x : Nat) (hx : 1 ≤ x) :
    ((x - 1 : Nat) : ℚ) = (x : ℚ) - 1 := by
  rw [Nat.cast_sub hx, Nat.cast_one]

theorem octAbs_eq (p q : Int) : octAbs p q =
    (2 - SQRT2) * ((max p.natAbs q.natAbs : Nat) : ℚ) +
    (SQRT2 - 1) * (((p.natAbs : Nat) : ℚ) + ((q.natAbs : Nat) : ℚ)) := by
  rw [octAbs]
  rw [← cast_max_min_add p.natAbs q.natAbs]
  ring

theorem octAbs_zero : octAbs 0 0 = 0 := by
  rw [octAbs]
  norm_num

theorem octAbs_triangle (p1 q1 p2 q2 : Int) :
    octAbs (p1 + p2) (q1 + q2) ≤ octAbs p1 q1 + octAbs p2 q2 := by
  rw [octAbs_eq, octAbs_eq, octAbs_eq]
  have hc : ((max (p1 + p2).natAbs (q1 + q2).natAbs : Nat) : ℚ) ≤
      ((max p1.natAbs q1.natAbs : Nat) : ℚ) +
      ((max p2.natAbs q2.natAbs : Nat) : ℚ) := by
    have : max (p1 + p2).natAbs (q1 + q2).natAbs ≤
        max p1.natAbs q1.natAbs + max p2.natAbs q2.natAbs := by omega
    exact_mod_cast this
  have hl1 : (((p1 + p2).natAbs : Nat) : ℚ) ≤
      ((p1.natAbs : Nat) : ℚ) + ((p2.natAbs : Nat) : ℚ) := by
    have : (p1 + p2).natAbs ≤ p1.natAbs + p2.natAbs := by omega
    exact_mod_cast this
  have hl2 : (((q1 + q2).natAbs : Nat) : ℚ) ≤
      ((q1.natAbs : Nat) : ℚ) + ((q2.natAbs : Nat) : ℚ) := by
    have : (q1 + q2).natAbs ≤ q1.natAbs + q2.natAbs := by omega
    exact_mod_cast this
  have hs := sqrt2_strict
  nlinarith [hc, hl1, hl2]

theorem octAbs_points (a b e f c d : Int) :
    octAbs (a - c) (b - d) ≤ octAbs (a - e) (b - f) + octAbs (e - c) (f - d) := by
  have h1 : a - c = (a - e) + (e - c) := by ring
  have h2 : b - d = (b - f) + (f - d) := by ring
  rw [h1, h2]
  exact octAbs_triangle _ _ _ _

theorem octAbs_step : ∀ d, d < 8 → octAbs (DX d) (DY d) = multQ d := by
  intro d hd
  interval_cases d <;>
    rw [octAbs] <;> norm_num [DX, DY, multQ]

theorem octAbs_step_bound (p q : Int) (hp : p.natAbs ≤ 1) (hq : q.natAbs ≤ 1) :
    octAbs p q ≤ SQRT2 := by
  rw [octAbs]
  have hs := sqrt2_strict
  have h1 : ((max p.natAbs q.natAbs : Nat) : ℚ) ≤ 1 := by
    have : max p.natAbs q.natAbs ≤ 1 := by omega
    exact_mod_cast this
  have h2 : ((min p.natAbs q.natAbs : Nat) : ℚ) ≤ 1 := by
    have : min p.natAbs q.natAbs ≤ 1 := by omega
    exact_mod_cast this
  have h3 : (0 : ℚ) ≤ ((min p.natAbs q.natAbs : Nat) : ℚ) := by positivity
  nlinarith

theorem octAbs_greedy (p q : Int) (h0 : ¬(p = 0 ∧ q = 0)) :
    octAbs (p - p.sign) (q - q.sign) =
      octAbs p q - octAbs p.sign q.sign := by
  have hs := sqrt2_strict
  have habs_p : (p - p.sign).natAbs = p.natAbs - 1 ∨
      (p = 0 ∧ (p - p.sign).natAbs = 0) := by
    rcases Int.lt_trichotomy p 0 with h | h | h
    · left
      rw [Int.sign_eq_neg_one_of_neg h]
      omega
    · right
      subst h
      norm_num
    · left
      rw [Int.sign_eq_one_of_pos h]
      omega
  have habs_q : (q - q.sign).natAbs = q.natAbs - 1 ∨
      (q = 0 ∧ (q - q.sign).natAbs = 0) := by
    rcases Int.lt_trichotomy q 0 with h | h | h
    · left
      rw [Int.sign_eq_neg_one_of_neg h]
      omega
    · right
      subst h
      norm_num
    · left
      rw [Int.sign_eq_one_of_pos h]
      omega
  have hsign_abs : ∀ r : Int, r.sign.natAbs = if r = 0 then 0 else 1 := by
    intro r
    rcases Int.lt_trichotomy r 0 with h | h | h
    · rw [Int.sign_eq_neg_one_of_neg h, if_neg (by omega)]
      rfl
    · subst h
      rfl
    · rw [Int.sign_eq_one_of_pos h, if_neg (by omega)]
      rfl
  by_cases hp : p = 0
  · subst hp
    have hq : q ≠ 0 := fun hc => h0 ⟨rfl, hc⟩
    rcases habs_q with hcase | ⟨hc, _⟩
    · rw [octAbs, octAbs, octAbs]
      simp only [Int.sub_zero, Int.sign_zero, Int.natAbs_zero, hcase,
        hsign_abs q, if_neg hq]
      have hqpos : 1 ≤ q.natAbs := by omega
      have h1 : max 0 (q.natAbs - 1) = q.natAbs - 1 := by omega
      have h2 : min 0 (q.natAbs - 1) = 0 := by omega
      have h3 : max 0 q.natAbs = q.natAbs := by omega
      have h4 : min 0 q.natAbs = 0 := by omega
      have h5 : max 0 1 = 1 := by omega
      have h6 : min 0 1 = 0 := by omega
      rw [h1, h2, h3, h4, h5, h6]
      rw [cast_pred _ (by omega)]
      push_cast
      ring
    · exact absurd hc hq
  · rcases habs_p with hcp | ⟨hc, _⟩
    · by_cases hq : q = 0
      · subst hq
        rw [octAbs, octAbs, octAbs]
        simp only [Int.sub_zero, Int.sign_zero, Int.natAbs_zero, hcp,
          hsign_abs p, if_neg hp]
        have hppos : 1 ≤ p.natAbs := by omega
        have h1 : max (p.natAbs - 1) 0 = p.natAbs - 1 := by omega
        have h2 : min (p.natAbs - 1) 0 = 0 := by omega
        have h3 : max p.natAbs 0 = p.natAbs := by omega
        have h4 : min p.natAbs 0 = 0 := by omega
        have h5 : max 1 0 = 1 := by omega
        have h6 : min 1 0 = 0 := by omega
        rw [h1, h2, h3, h4, h5, h6]
        rw [cast_pred _ (by omega)]
        push_cast
        ring
      · rcases habs_q with hcq | ⟨hc, _⟩
        · rw [octAbs, octAbs, octAbs]
          simp only [hcp, hcq, hsign_abs p, hsign_abs q, if_neg hp, if_neg hq]
          have hppos : 1 ≤ p.natAbs := by omega
          have hqpos : 1 ≤ q.natAbs := by omega
          have h1 : max (p.natAbs - 1) (q.natAbs - 1) =
              max p.natAbs q.natAbs - 1 := by omega
          have h2 : min (p.natAbs - 1) (q.natAbs - 1) =
              min p.natAbs q.natAbs - 1 := by omega
          have h5 : max 1 1 = 1 := by omega
          have h6 : min 1 1 = 1 := by omega
          rw [h1, h2, h5, h6]
          have hmx : 1 ≤ max p.natAbs q.natAbs := by omega
          have hmn : 1 ≤ min p.natAbs q.natAbs := by omega
          rw [cast_pred _ (by omega), cast_pred _ (by omega)]
          push_cast
          ring
        · exact absurd hc hq
    · exact absurd hc hp

theorem octile_abs (p q : Int) :
    octile_h_from_deltas (if p < 0 then -p else p) (if q < 0 then -q else q) =
      octAbs p q := by
  rw [octile_h_from_deltas, sqrt2_minus_2_eq, octAbs]
  have hp : (if p < 0 then -p else p) = (p.natAbs : Int) := by
    split <;> omega
  have hq : (if q < 0 then -q else q) = (q.natAbs : Int) := by
    split <;> omega
  rw [hp, hq]
  have hmin_eq : (if (p.natAbs : Int) < (q.natAbs : Int) then (p.natAbs : Int)
      else (q.natAbs : Int)) = ((min p.natAbs q.natAbs : Nat) : Int) := by
    split <;> omega
  rw [hmin_eq]
  rw [Int.cast_add, Int.cast_natCast, Int.cast_natCast, Int.cast_natCast]
  linarith [cast_max_min_add p.natAbs q.natAbs]

end Astar
namespace Fov

end Fov
